import Mathlib

/-!
GCodeLib: the LinuxCNC scanner (`source/parser/linuxcnc/Scanner.cpp`).

A shallow embedding of `GCodeDefaultScanner`.

* A `std::string` is a `List Char`; every `Char` stands for one byte of the
  string, and the checksum uses its code reduced to 8 bits.
* The `std::istream` is the list of characters not yet read together with the
  `good()` flag of the stream.
* The seven `std::regex` objects are values of a small regex type (`Regex`),
  run by a greedy backtracking matcher (`matchPieces`), as ECMAScript does.
* `next()` returns an `Outcome` (empty optional, token, `GCodeParseException`,
  or the `std::out_of_range` of `std::stoll` / `std::stod`) and the new state.
-/

namespace GCodeLib

/-! ## Source positions and tokens -/

/-- The quadruple `(tag, line, column, checksum)` of `SourcePosition`. Line and column
are counters, natural numbers here; the checksum is the `uint8_t` that `shift` stores. -/
structure SourcePosition where
  tag : List Char
  line : Nat
  column : Nat
  checksum : Nat
  deriving DecidableEq

/-- The method `SourcePosition::update(line, column, checksum)`: the tag is kept. -/
def SourcePosition.update (p : SourcePosition) (line column checksum : Nat) : SourcePosition :=
  { p with line := line, column := column, checksum := checksum }

/-- The enumeration `GCodeKeyword`, with the members the table `GCodeKeywords` uses. -/
inductive GCodeKeyword where
  | Mod | Eq | Ne | Ge | Gt | Le | Lt | And | Or | Xor
  | Sub | Endsub | Return | Call
  | If | Elseif | Else | Endif
  | While | Endwhile | Do | Repeat | Endrepeat
  | Break | Continue
  deriving DecidableEq

/-- The payload of a `GCodeToken`, one constructor for each `GCodeToken(...)` call of
`next()`. `FloatConstant` holds the text handed to `std::stod` (the double is the
conversion of that text); `Literal` and `Comment` are the string constructor with the
flag `true` and `false`; `Operator` holds the character cast to `GCodeOperator`. -/
inductive TokenValue where
  | IntegerConstant (value : Int)
  | FloatConstant (text : List Char)
  | Literal (text : List Char)
  | Comment (text : List Char)
  | Keyword (keyword : GCodeKeyword)
  | Operator (chr : Char)
  | NewLine
  deriving DecidableEq

/-- A token: its payload and the source position given to its constructor. -/
structure GCodeToken where
  value : TokenValue
  position : SourcePosition
  deriving DecidableEq

/-- The table `GCodeKeywords` (a `std::map` from spelling to keyword), in source order. -/
def GCodeKeywords : List (List Char × GCodeKeyword) :=
  [ ("MOD".toList, .Mod), ("EQ".toList, .Eq), ("NE".toList, .Ne), ("GE".toList, .Ge),
    ("GT".toList, .Gt), ("LE".toList, .Le), ("LT".toList, .Lt), ("AND".toList, .And),
    ("OR".toList, .Or), ("XOR".toList, .Xor), ("sub".toList, .Sub),
    ("endsub".toList, .Endsub), ("return".toList, .Return), ("call".toList, .Call),
    ("if".toList, .If), ("elseif".toList, .Elseif), ("else".toList, .Else),
    ("endif".toList, .Endif), ("while".toList, .While), ("endwhile".toList, .Endwhile),
    ("do".toList, .Do), ("repeat".toList, .Repeat), ("endrepeat".toList, .Endrepeat),
    ("break".toList, .Break), ("continue".toList, .Continue) ]

/-- The lookup `GCodeKeywords.count(w) != 0` / `GCodeKeywords.at(w)`: exact spelling. -/
def keywordOf (w : List Char) : Option GCodeKeyword :=
  GCodeKeywords.lookup w

/-! ## Regular expressions -/

/-- A quantifier of a regex piece: exactly one character, or a greedy `{n,}`
(`*` is `{0,}`, `+` is `{1,}`). -/
inductive Quant where
  | one
  | atLeast (n : Nat)

/-- A regex piece: a character class and its quantifier. -/
structure Piece where
  cls : Char → Bool
  quant : Quant

/-- A regex of the shape all seven patterns have: `^`, a sequence of pieces, and
possibly a final `$`. -/
structure Regex where
  pieces : List Piece
  anchorEnd : Bool

/-- Greedy `cls{n,}` followed by the continuation `k`: take a character of the class
whenever there is one, and fall back to `k` at the current place when the longer
attempt fails and no more characters are required. The result is the match length. -/
def greedyRun (cls : Char → Bool) (k : List Char → Option Nat) :
    Nat → List Char → Option Nat
  | n, [] => if n = 0 then k [] else none
  | n, c :: cs =>
    if cls c then
      match greedyRun cls k (n - 1) cs with
      | some m => some (m + 1)
      | none => if n = 0 then k (c :: cs) else none
    else if n = 0 then k (c :: cs) else none

/-- Match the pieces at the start of the string; `$` holds at the end of the string only
(the regexes are not multiline). The result is the length of the match. -/
def matchPieces (anchorEnd : Bool) : List Piece → List Char → Option Nat
  | [], s => if anchorEnd then (if s.isEmpty then some 0 else none) else some 0
  | ⟨cls, .one⟩ :: ps, s =>
    match s with
    | [] => none
    | c :: cs =>
      if cls c then
        match matchPieces anchorEnd ps cs with
        | some m => some (m + 1)
        | none => none
      else none
  | ⟨cls, .atLeast n⟩ :: ps, s => greedyRun cls (matchPieces anchorEnd ps) n s

/-- The function `match_regex`: `std::regex_search` with a pattern that starts with `^`
finds a match at the start of the string only; the result is `match.length()`. -/
def match_regex (string : List Char) (regex : Regex) : Option Nat :=
  matchPieces regex.anchorEnd regex.pieces string

/-- The class `\s`: the six characters of `isspace` in the C locale. -/
def isSpace (c : Char) : Bool :=
  c == ' ' || c == '\t' || c == '\n' || c == '\x0b' || c == '\x0c' || c == '\r'

/-- The class `[0-9]`. -/
def isDigit (c : Char) : Bool := '0' ≤ c && c ≤ '9'

/-- The class `[a-zA-Z_]`. -/
def isAlphaUnderscore (c : Char) : Bool :=
  ('a' ≤ c && c ≤ 'z') || ('A' ≤ c && c ≤ 'Z') || c == '_'

/-- The class `[\w_]`: letters, digits and the underscore. -/
def isWord (c : Char) : Bool :=
  ('a' ≤ c && c ≤ 'z') || ('A' ≤ c && c ≤ 'Z') || ('0' ≤ c && c ≤ '9') || c == '_'

/-- A range `[lo-hi]` under `icase`: the character is in the range in lower or in
upper case. -/
def inRangeIcase (lo hi c : Char) : Bool :=
  (lo ≤ c.toLower && c.toLower ≤ hi) || (lo ≤ c.toUpper && c.toUpper ≤ hi)

/-- The class `[A-Z\+\-*/%\[\]#\=<>]` under `icase`. -/
def isOperatorChar (c : Char) : Bool :=
  inRangeIcase 'A' 'Z' c || c == '+' || c == '-' || c == '*' || c == '/' || c == '%'
    || c == '[' || c == ']' || c == '#' || c == '=' || c == '<' || c == '>'

/-- The class `.`: every character but the line terminators `\n` and `\r`. -/
def isAnyButNewline (c : Char) : Bool := c != '\n' && c != '\r'

/-- The class `[^\)]`. -/
def isNotClosingParen (c : Char) : Bool := c != ')'

/-- The regex `^[\s]+`. -/
def Whitespaces : Regex := ⟨[⟨isSpace, .atLeast 1⟩], false⟩

/-- The regex `^[0-9]+`. -/
def Integer : Regex := ⟨[⟨isDigit, .atLeast 1⟩], false⟩

/-- The regex `^[0-9]+\.[0-9]+`. -/
def Float : Regex :=
  ⟨[⟨isDigit, .atLeast 1⟩, ⟨fun c => c == '.', .one⟩, ⟨isDigit, .atLeast 1⟩], false⟩

/-- The regex `^[a-zA-Z_]{2,}[\w_]*`. -/
def Literal : Regex := ⟨[⟨isAlphaUnderscore, .atLeast 2⟩, ⟨isWord, .atLeast 0⟩], false⟩

/-- The regex `^[A-Z\+\-*/%\[\]#\=<>]` with `icase`. -/
def Operator : Regex := ⟨[⟨isOperatorChar, .one⟩], false⟩

/-- The regex `^;.*$`. -/
def Comment : Regex := ⟨[⟨fun c => c == ';', .one⟩, ⟨isAnyButNewline, .atLeast 0⟩], true⟩

/-- The regex `^\([^\)]*\)`. -/
def BracedComment : Regex :=
  ⟨[⟨fun c => c == '(', .one⟩, ⟨isNotClosingParen, .atLeast 0⟩, ⟨fun c => c == ')', .one⟩],
    false⟩

/-! ## The scanner -/

/-- The state of a `GCodeDefaultScanner`: the unread characters of the input stream and
its `good()` flag, the line buffer and the source position. -/
structure GCodeDefaultScanner where
  input : List Char
  good : Bool
  buffer : List Char
  source_position : SourcePosition
  deriving DecidableEq

/-- The constructor: empty buffer, position `(tag, 0, 0, 0)`, over a fresh stream. -/
def GCodeDefaultScanner.mk0 (is : List Char) (tag : List Char) : GCodeDefaultScanner :=
  { input := is, good := true, buffer := [], source_position := ⟨tag, 0, 0, 0⟩ }

/-- The function `std::getline` on a good stream: the characters up to the first line
feed (which is extracted and dropped), the rest of the stream and the `good()` flag
afterwards; reaching the end of the stream before a line feed sets `eofbit`. -/
def getline : List Char → List Char × List Char × Bool
  | [] => ([], [], false)
  | c :: cs =>
    if c = '\n' then ([], cs, true)
    else
      let r := getline cs
      (c :: r.1, r.2.1, r.2.2)

/-- The method `finished()`. -/
def finished (s : GCodeDefaultScanner) : Bool :=
  s.buffer.isEmpty && !s.good

/-- The method `next_line()`. -/
def next_line (s : GCodeDefaultScanner) : GCodeDefaultScanner :=
  if s.good then
    let r := getline s.input
    { input := r.2.1, good := r.2.2, buffer := r.1,
      source_position := s.source_position.update (s.source_position.line + 1) 1 0 }
  else { s with buffer := [] }

/-- The loop of `shift`: `checksum ^= buffer[i]` on a `uint8_t`. -/
def xorChecksum (checksum : Nat) (cs : List Char) : Nat :=
  cs.foldl (fun acc c => (acc ^^^ c.toNat) % 256) checksum

/-- The method `shift(len)`. -/
def shift (s : GCodeDefaultScanner) (len : Nat) : GCodeDefaultScanner :=
  let len := if len > s.buffer.length then s.buffer.length else len
  let checksum := xorChecksum s.source_position.checksum (s.buffer.take len) % 256
  { s with
    buffer := s.buffer.drop len,
    source_position :=
      s.source_position.update s.source_position.line (s.source_position.column + len)
        checksum }

/-- The method `skipWhitespaces()`. -/
def skipWhitespaces (s : GCodeDefaultScanner) : GCodeDefaultScanner :=
  match match_regex s.buffer Whitespaces with
  | some n => shift s n
  | none => s

/-- The value of a string of decimal digits. -/
def decimalValue (ds : List Char) : Nat :=
  ds.foldl (fun acc c => 10 * acc + (c.toNat - '0'.toNat)) 0

/-- The function `std::stoll` on a string of decimal digits: the value, or `none` for
the `std::out_of_range` it throws when the value exceeds `LLONG_MAX`. -/
def stoll (ds : List Char) : Option Int :=
  if decimalValue ds < 2 ^ 63 then some (decimalValue ds : Int) else none

/-- What a call of `next()` does: return an empty optional, return a token, throw a
`GCodeParseException` (message and position), or let the `std::out_of_range` of the
numeric conversion escape. -/
inductive Outcome where
  | none
  | token (t : GCodeToken)
  | parseError (message : List Char) (position : SourcePosition)
  | outOfRange
  deriving DecidableEq

/-- The method `next()`. The parameter `stodOk` tells for which texts `std::stod`
returns (it throws `std::out_of_range` on the others). -/
def next (stodOk : List Char → Bool) (s0 : GCodeDefaultScanner) :
    Outcome × GCodeDefaultScanner :=
  if finished s0 then (.none, s0)
  else
    let s := skipWhitespaces s0
    if s.buffer.isEmpty then
      let s1 := next_line s
      (.token ⟨.NewLine, s1.source_position⟩, s1)
    else
      match match_regex s.buffer Float with
      | some n =>
        if stodOk (s.buffer.take n) then
          (.token ⟨.FloatConstant (s.buffer.take n), s.source_position⟩, shift s n)
        else (.outOfRange, s)
      | none =>
      match match_regex s.buffer Integer with
      | some n =>
        match stoll (s.buffer.take n) with
        | some v => (.token ⟨.IntegerConstant v, s.source_position⟩, shift s n)
        | none => (.outOfRange, s)
      | none =>
      match match_regex s.buffer Literal with
      | some n =>
        match keywordOf (s.buffer.take n) with
        | some k => (.token ⟨.Keyword k, s.source_position⟩, shift s n)
        | none => (.token ⟨.Literal (s.buffer.take n), s.source_position⟩, shift s n)
      | none =>
      match match_regex s.buffer Operator with
      | some n =>
        (.token ⟨.Operator ((s.buffer.take n).headD ' ').toUpper, s.source_position⟩,
          shift s n)
      | none =>
      match (match_regex s.buffer Comment).orElse
          (fun _ => match_regex s.buffer BracedComment) with
      | some n => (.token ⟨.Comment (s.buffer.take n), s.source_position⟩, shift s n)
      | none =>
        let s1 := shift s 1
        (.parseError ("Unknown symbol at '".toList ++ s1.buffer ++ ['\'']) s1.source_position,
          s1)

/-- Call `next()` up to `fuel` times and collect what the calls do, stopping at the first
empty optional; a caller that catches an exception goes on calling. -/
def scan (stodOk : List Char → Bool) : Nat → GCodeDefaultScanner → List Outcome
  | 0, _ => []
  | fuel + 1, s =>
    match next stodOk s with
    | (.none, _) => [.none]
    | (o, s1) => o :: scan stodOk fuel s1

/-! ## Vocabulary of the statements -/

/-- The letters `[A-Za-z]`. -/
def isLetter (c : Char) : Bool := ('a' ≤ c && c ≤ 'z') || ('A' ≤ c && c ≤ 'Z')

/-- The head of a list fails the class, or the list is empty: a run that ends before the
list is maximal. -/
def headFails (cls : Char → Bool) (s : List Char) : Prop :=
  ∀ c ∈ s.head?, cls c = false

/-- What `\.[0-9]+`, the part of `Float` after the first digit run, matches. -/
def floatTail : List Char → Option Nat
  | '.' :: r =>
    if 1 ≤ (r.takeWhile isDigit).length then some ((r.takeWhile isDigit).length + 1) else none
  | _ => none

/-- A scanner state whose buffer holds the given text of line 1, with nothing consumed
yet and the stream already at its end. -/
def onLine (text : String) : GCodeDefaultScanner :=
  { input := [], good := false, buffer := text.toList, source_position := ⟨[], 1, 1, 0⟩ }

/-- A conversion `std::stod` that never throws. -/
def stodAlways : List Char → Bool := fun _ => true

/-- What holds of every letter, as one Boolean test. -/
def letterFacts (c : Char) : Bool :=
  !isLetter c ||
    (!isDigit c && isAlphaUnderscore c && isWord c && isOperatorChar c && !isSpace c &&
      isLetter c.toUpper && isLetter c.toLower && (c.toUpper.toUpper == c.toUpper) &&
      (c.toLower.toUpper == c.toUpper))

/-- What holds of every character of `[a-zA-Z_]`, as one Boolean test. -/
def alphaFacts (c : Char) : Bool :=
  !isAlphaUnderscore c || (!isDigit c && isWord c && !isSpace c)

/-- The payload of the token made from a match of `Literal`: the keyword the table gives
for the text, or else an identifier literal holding the text. -/
def identifierOrKeyword (w : List Char) : TokenValue :=
  match keywordOf w with
  | some k => .Keyword k
  | none => .Literal w

/-- The state a call of `next()` leaves. -/
def nextState (stodOk : List Char → Bool) (s : GCodeDefaultScanner) : GCodeDefaultScanner :=
  (next stodOk s).2

/-- The XOR, reduced to 8 bits, of the character codes of a text. -/
def xor8 (cs : List Char) : Nat :=
  cs.foldl (fun acc c => acc ^^^ c.toNat) 0 % 256

/-- The call of `next()` on this state reads a line from the stream. -/
def readsLine (s : GCodeDefaultScanner) : Bool :=
  !finished s && (skipWhitespaces s).buffer.isEmpty && s.good

/-- A scanner state together with the text of the line it is scanning, the current line. -/
structure Tracked where
  scanner : GCodeDefaultScanner
  line : List Char

/-- One call of `next()` on a tracked state: the current line becomes the line the call
reads, when it reads one. -/
def trackedNext (stodOk : List Char → Bool) (t : Tracked) : Tracked :=
  { scanner := nextState stodOk t.scanner,
    line := if readsLine t.scanner then (getline t.scanner.input).1 else t.line }

/-- The tracked state after `k` calls of `next()` on a fresh scanner over `input`. -/
def trackedRun (stodOk : List Char → Bool) (input tag : List Char) (k : Nat) : Tracked :=
  (trackedNext stodOk)^[k] ⟨GCodeDefaultScanner.mk0 input tag, []⟩

/-- The checksum invariant of a tracked state: the current line is a consumed part
followed by the unread buffer, and the checksum is the XOR of the consumed part. -/
def ChecksumInv (t : Tracked) : Prop :=
  ∃ pre, t.line = pre ++ t.scanner.buffer ∧ t.scanner.source_position.checksum = xor8 pre

/-- The 25 keyword spellings, as the interface lists them. -/
def keywordSpellings : List String :=
  [ "sub", "endsub", "return", "call", "if", "elseif", "else", "endif", "while", "endwhile",
    "do", "repeat", "endrepeat", "break", "continue", "EQ", "NE", "GE", "GT", "LE", "LT",
    "AND", "OR", "XOR", "MOD" ]

/-- Two scanner states hold the same text: the same stream and the same buffer; only
their source positions may differ. -/
def sameText (s s' : GCodeDefaultScanner) : Prop :=
  s.input = s'.input ∧ s.good = s'.good ∧ s.buffer = s'.buffer

/-- The same position for every token and error. -/
def noPosition : SourcePosition := ⟨[], 0, 0, 0⟩

/-- An outcome without its source position: the kind and the value of a token, the
message of a parse error. -/
def erasePosition : Outcome → Outcome
  | .none => .none
  | .token t => .token ⟨t.value, noPosition⟩
  | .parseError m _ => .parseError m noPosition
  | .outOfRange => .outOfRange

/-- The upper-case form of a letter lies in `[A-Z]`, as one Boolean test. -/
def upperFacts (c : Char) : Bool :=
  !isLetter c || ('A' ≤ c.toUpper && c.toUpper ≤ 'Z')

/-- The digit a decimal digit character stands for. -/
def digitValue (c : Char) : Nat := c.toNat - '0'.toNat

/-- The base-10 value of a digit string, most significant digit first (through Mathlib's
`Nat.ofDigits`, which takes the least significant digit first). -/
def base10Value (ds : List Char) : Nat :=
  Nat.ofDigits 10 (ds.map digitValue).reverse

/-- The scanner state with another buffer. -/
def withBuffer (s : GCodeDefaultScanner) (b : List Char) : GCodeDefaultScanner :=
  { s with buffer := b }

/-- The characters the stream and the buffer still hold, plus one while the stream is
good: the number of calls of `next()` that can still do something. -/
def pending (s : GCodeDefaultScanner) : Nat :=
  s.buffer.length + s.input.length + (if s.good then 1 else 0)

/-- The lines of an input: the texts between the line feeds. -/
def splitLines : List Char → List (List Char)
  | [] => [[]]
  | c :: cs =>
    if c = '\n' then [] :: splitLines cs
    else
      match splitLines cs with
      | l :: ls => (c :: l) :: ls
      | [] => [[c]]

/-- The operator characters other than letters: `+ - * / % [ ] # = < >`. -/
def isListedOperator (c : Char) : Bool :=
  c == '+' || c == '-' || c == '*' || c == '/' || c == '%' || c == '[' || c == ']' ||
    c == '#' || c == '=' || c == '<' || c == '>'

/-- The first character `c` of a buffer, with `rest` after it, can be scanned: a decimal
digit, a letter, one of the listed operators, `;`, a `(` that has a `)` later on the
line, or a `_` immediately followed by a letter or `_`. -/
def scannable (c : Char) (rest : List Char) : Bool :=
  isDigit c || isLetter c || isListedOperator c || c == ';' ||
    (c == '(' && rest.contains ')') ||
    (c == '_' &&
      match rest with
      | d :: _ => isLetter d || d == '_'
      | [] => false)

/-- The operator class is the letters and the listed operators, as one Boolean test. -/
def operatorFacts (c : Char) : Bool :=
  isOperatorChar c == (isLetter c || isListedOperator c)

/-- No rule of `next()` matches the buffer. -/
def noRuleMatches (b : List Char) : Prop :=
  match_regex b Float = none ∧ match_regex b Integer = none ∧
    match_regex b Literal = none ∧ match_regex b Operator = none ∧
    match_regex b Comment = none ∧ match_regex b BracedComment = none

/-- The position invariant of a tracked state of the scan of `input` by a scanner with
the tag `tag`: the tag is unchanged, and either no line has been read yet, or the current
line is the line of the input whose number is the line number of the position, it is a
consumed part followed by the unread buffer, and the column is one more than the length
of the consumed part. -/
def PosInv (input tag : List Char) (t : Tracked) : Prop :=
  t.scanner.source_position.tag = tag ∧
    ((t.scanner.source_position.line = 0 ∧ t.scanner.good = true ∧
        t.scanner.input = input ∧ t.scanner.buffer = []) ∨
      ∃ before pre, before.length + 1 = t.scanner.source_position.line ∧
        splitLines input =
          before ++ t.line :: (if t.scanner.good then splitLines t.scanner.input else []) ∧
        t.line = pre ++ t.scanner.buffer ∧
        t.scanner.source_position.column = 1 + pre.length)

/-- The token payload `v` is the one `next()` makes from the matched text `text`: the
text itself for a float, an identifier or a comment, the `std::stoll` value for an
integer, the table entry for a keyword, the upper-case first character for an operator.
No text makes a `NewLine`. -/
def tokenSpells (v : TokenValue) (text : List Char) : Prop :=
  match v with
  | .IntegerConstant x => stoll text = some x
  | .FloatConstant t => t = text
  | .Literal t => t = text ∧ keywordOf text = none
  | .Comment t => t = text
  | .Keyword k => keywordOf text = some k
  | .Operator chr => chr = (text.headD ' ').toUpper ∧ text.length = 1
  | .NewLine => False

/-! ## The regex matcher on the seven patterns -/

theorem greedyRun_of_fail (cls : Char → Bool) (k : List Char → Option Nat)
    (hk : ∀ c cs, cls c = true → k (c :: cs) = none) (s : List Char) (n : Nat) :
    greedyRun cls k n s =
      if n ≤ (s.takeWhile cls).length then
        (k (s.dropWhile cls)).map (· + (s.takeWhile cls).length)
      else none := by
  induction s generalizing n with
  | nil => cases n <;> simp [greedyRun]
  | cons c cs ih =>
    by_cases hc : cls c = true
    · simp only [greedyRun, hc, if_true, ih (n - 1), List.takeWhile_cons_of_pos hc,
        List.dropWhile_cons_of_pos hc, List.length_cons, hk c cs hc]
      by_cases hn : n - 1 ≤ (cs.takeWhile cls).length
      · have hn1 : n ≤ (cs.takeWhile cls).length + 1 := by omega
        simp only [hn, hn1, if_true]
        cases k (cs.dropWhile cls) <;> simp [Nat.add_assoc]
      · have hn1 : ¬ n ≤ (cs.takeWhile cls).length + 1 := by omega
        simp [hn, hn1]
    · simp only [Bool.not_eq_true] at hc
      cases n <;> simp [greedyRun, hc]

theorem greedyRun_of_some (cls : Char → Bool) (k : List Char → Option Nat) (s : List Char)
    (m : Nat) (hk : k (s.dropWhile cls) = some m) (n : Nat) :
    greedyRun cls k n s =
      if n ≤ (s.takeWhile cls).length then some (m + (s.takeWhile cls).length) else none := by
  induction s generalizing n with
  | nil =>
    simp only [List.dropWhile_nil] at hk
    cases n <;> simp [greedyRun, hk]
  | cons c cs ih =>
    by_cases hc : cls c = true
    · rw [List.dropWhile_cons_of_pos hc] at hk
      simp only [greedyRun, hc, if_true, ih hk (n - 1), List.takeWhile_cons_of_pos hc,
        List.length_cons]
      by_cases hn : n - 1 ≤ (cs.takeWhile cls).length
      · have hn1 : n ≤ (cs.takeWhile cls).length + 1 := by omega
        simp [hn, hn1, Nat.add_assoc]
      · have hn1 : ¬ n ≤ (cs.takeWhile cls).length + 1 := by omega
        have hn0 : n ≠ 0 := by omega
        simp [hn, hn1, hn0]
    · simp only [Bool.not_eq_true] at hc
      rw [List.dropWhile_cons_of_neg (by simp [hc])] at hk
      cases n <;> simp [greedyRun, hc, hk]

theorem takeWhile_append_of_run (cls : Char → Bool) (d rest : List Char)
    (hd : ∀ c ∈ d, cls c = true) (hr : ∀ c ∈ rest.head?, cls c = false) :
    (d ++ rest).takeWhile cls = d := by
  induction d with
  | nil =>
    cases rest with
    | nil => rfl
    | cons c cs => simp [List.takeWhile_cons, hr c (by simp)]
  | cons a d ih =>
    have ha : cls a = true := hd a (by simp)
    simp [List.takeWhile_cons, ha, ih (fun c hc => hd c (by simp [hc]))]

theorem dropWhile_append_of_run (cls : Char → Bool) (d rest : List Char)
    (hd : ∀ c ∈ d, cls c = true) (hr : ∀ c ∈ rest.head?, cls c = false) :
    (d ++ rest).dropWhile cls = rest := by
  induction d with
  | nil =>
    cases rest with
    | nil => rfl
    | cons c cs => simp [List.dropWhile_cons, hr c (by simp)]
  | cons a d ih =>
    have ha : cls a = true := hd a (by simp)
    simp [List.dropWhile_cons, ha, ih (fun c hc => hd c (by simp [hc]))]

theorem match_Whitespaces (s : List Char) :
    match_regex s Whitespaces =
      if 1 ≤ (s.takeWhile isSpace).length then some (s.takeWhile isSpace).length else none := by
  simp only [match_regex, Whitespaces, matchPieces]
  rw [greedyRun_of_some isSpace _ s 0 (by simp [matchPieces])]
  simp

theorem match_Integer (s : List Char) :
    match_regex s Integer =
      if 1 ≤ (s.takeWhile isDigit).length then some (s.takeWhile isDigit).length else none := by
  simp only [match_regex, Integer, matchPieces]
  rw [greedyRun_of_some isDigit _ s 0 (by simp [matchPieces])]
  simp

theorem isDigit_ne_dot (c : Char) (h : isDigit c = true) : (c == '.') = false := by
  cases hc : c == '.'
  · rfl
  · have : c = '.' := by simpa using hc
    subst this
    revert h
    decide

theorem floatTail_cons_ne (c : Char) (cs : List Char) (hc : c ≠ '.') :
    floatTail (c :: cs) = none := by
  unfold floatTail
  split
  · rename_i heq
    injection heq with h1 h2
    exact absurd h1 hc
  · rfl

theorem matchPieces_floatTail :
    matchPieces false [⟨fun c => c == '.', .one⟩, ⟨isDigit, .atLeast 1⟩] = floatTail := by
  funext r
  cases r with
  | nil => simp [matchPieces, floatTail]
  | cons c cs =>
    by_cases hc : c = '.'
    · subst hc
      simp only [matchPieces, beq_self_eq_true, if_true, floatTail]
      rw [greedyRun_of_some isDigit _ cs 0 (by simp [matchPieces])]
      by_cases h1 : 1 ≤ (cs.takeWhile isDigit).length <;> simp [h1]
    · have hb : (c == '.') = false := by simpa using hc
      rw [floatTail_cons_ne c cs hc]
      simp [matchPieces, hb]

theorem match_Float (s : List Char) :
    match_regex s Float =
      if 1 ≤ (s.takeWhile isDigit).length then
        (floatTail (s.dropWhile isDigit)).map (· + (s.takeWhile isDigit).length)
      else none := by
  simp only [match_regex, Float, matchPieces.eq_4]
  rw [matchPieces_floatTail]
  rw [greedyRun_of_fail isDigit _ ?_ s 1]
  intro c cs hc
  exact floatTail_cons_ne c cs (by
    intro h
    have := isDigit_ne_dot c hc
    simp [h] at this)

theorem takeWhile_of_imp (p q : Char → Bool) (hpq : ∀ c, p c = true → q c = true)
    (s : List Char) :
    s.takeWhile q = s.takeWhile p ++ (s.dropWhile p).takeWhile q := by
  induction s with
  | nil => rfl
  | cons c cs ih =>
    by_cases hp : p c = true
    · have hq := hpq c hp
      simp [List.takeWhile_cons, List.dropWhile_cons, hp, hq, ih]
    · simp only [Bool.not_eq_true] at hp
      simp [List.takeWhile_cons, List.dropWhile_cons, hp]

theorem isWord_of_isAlphaUnderscore (c : Char) (h : isAlphaUnderscore c = true) :
    isWord c = true := by
  simp only [isAlphaUnderscore, isWord, Bool.or_eq_true, Bool.and_eq_true] at *
  tauto

theorem match_Literal (s : List Char) :
    match_regex s Literal =
      if 2 ≤ (s.takeWhile isAlphaUnderscore).length then some (s.takeWhile isWord).length
      else none := by
  simp only [match_regex, Literal, matchPieces.eq_4]
  have hk : ∀ r : List Char,
      matchPieces false [⟨isWord, .atLeast 0⟩] r = some (r.takeWhile isWord).length := by
    intro r
    rw [matchPieces.eq_4, greedyRun_of_some isWord _ r 0 (by simp [matchPieces])]
    simp
  rw [greedyRun_of_some isAlphaUnderscore _ s _ (hk _)]
  rw [takeWhile_of_imp isAlphaUnderscore isWord isWord_of_isAlphaUnderscore s,
    List.length_append, Nat.add_comm]

theorem match_Operator (s : List Char) :
    match_regex s Operator =
      match s with
      | [] => none
      | c :: _ => if isOperatorChar c then some 1 else none := by
  cases s with
  | nil => simp [match_regex, Operator, matchPieces]
  | cons c cs => simp [match_regex, Operator, matchPieces]

/-! ## The steps of `next()` -/

theorem xorChecksum_lt (cs : List Char) (a : Nat) (ha : a < 256) : xorChecksum a cs < 256 := by
  induction cs generalizing a with
  | nil => simpa [xorChecksum] using ha
  | cons c cs ih =>
    simp only [xorChecksum, List.foldl_cons]
    exact ih _ (Nat.mod_lt _ (by decide))

theorem xorChecksum_append (a : Nat) (xs ys : List Char) :
    xorChecksum a (xs ++ ys) = xorChecksum (xorChecksum a xs) ys := by
  simp [xorChecksum, List.foldl_append]

theorem shift_buffer (s : GCodeDefaultScanner) (n : Nat) : (shift s n).buffer = s.buffer.drop n := by
  unfold shift
  by_cases h : n > s.buffer.length
  · simp [h, List.drop_eq_nil_of_le (Nat.le_of_lt h)]
  · simp [h]

theorem shift_input (s : GCodeDefaultScanner) (n : Nat) : (shift s n).input = s.input := rfl

theorem shift_good (s : GCodeDefaultScanner) (n : Nat) : (shift s n).good = s.good := rfl

theorem shift_line (s : GCodeDefaultScanner) (n : Nat) :
    (shift s n).source_position.line = s.source_position.line := rfl

theorem shift_tag (s : GCodeDefaultScanner) (n : Nat) :
    (shift s n).source_position.tag = s.source_position.tag := rfl

theorem shift_column (s : GCodeDefaultScanner) (n : Nat) (h : n ≤ s.buffer.length) :
    (shift s n).source_position.column = s.source_position.column + n := by
  unfold shift
  have h1 : ¬ n > s.buffer.length := by omega
  simp [h1, SourcePosition.update]

theorem shift_checksum (s : GCodeDefaultScanner) (n : Nat) :
    (shift s n).source_position.checksum =
      xorChecksum s.source_position.checksum (s.buffer.take n) % 256 := by
  unfold shift
  by_cases h : n > s.buffer.length
  · simp [h, SourcePosition.update, List.take_of_length_le (Nat.le_of_lt h)]
  · simp [h, SourcePosition.update]

theorem drop_takeWhile_length (cls : Char → Bool) (b : List Char) :
    b.drop (b.takeWhile cls).length = b.dropWhile cls := by
  induction b with
  | nil => rfl
  | cons c cs ih =>
    by_cases hc : cls c = true
    · simp [List.takeWhile_cons, List.dropWhile_cons, hc, ih]
    · simp only [Bool.not_eq_true] at hc
      simp [List.takeWhile_cons, List.dropWhile_cons, hc]

theorem take_takeWhile_length (cls : Char → Bool) (b : List Char) :
    b.take (b.takeWhile cls).length = b.takeWhile cls := by
  induction b with
  | nil => rfl
  | cons c cs ih =>
    by_cases hc : cls c = true
    · simp [List.takeWhile_cons, hc, ih]
    · simp only [Bool.not_eq_true] at hc
      simp [List.takeWhile_cons, hc]

theorem dropWhile_eq_self_of_takeWhile_nil (cls : Char → Bool) (b : List Char)
    (h : (b.takeWhile cls).length = 0) : b.dropWhile cls = b := by
  rw [← drop_takeWhile_length, h, List.drop_zero]

theorem skipWhitespaces_buffer (s : GCodeDefaultScanner) :
    (skipWhitespaces s).buffer = s.buffer.dropWhile isSpace := by
  unfold skipWhitespaces
  rw [match_Whitespaces]
  by_cases h : 1 ≤ (s.buffer.takeWhile isSpace).length
  · simp only [h, if_true, shift_buffer, drop_takeWhile_length]
  · simp only [h, if_false]
    rw [dropWhile_eq_self_of_takeWhile_nil isSpace s.buffer (by omega)]

theorem skipWhitespaces_input (s : GCodeDefaultScanner) : (skipWhitespaces s).input = s.input := by
  unfold skipWhitespaces
  split <;> rfl

theorem skipWhitespaces_good (s : GCodeDefaultScanner) : (skipWhitespaces s).good = s.good := by
  unfold skipWhitespaces
  split <;> rfl

theorem skipWhitespaces_line (s : GCodeDefaultScanner) :
    (skipWhitespaces s).source_position.line = s.source_position.line := by
  unfold skipWhitespaces
  split <;> rfl

theorem skipWhitespaces_tag (s : GCodeDefaultScanner) :
    (skipWhitespaces s).source_position.tag = s.source_position.tag := by
  unfold skipWhitespaces
  split <;> rfl

theorem skipWhitespaces_column (s : GCodeDefaultScanner) :
    (skipWhitespaces s).source_position.column =
      s.source_position.column + (s.buffer.takeWhile isSpace).length := by
  unfold skipWhitespaces
  rw [match_Whitespaces]
  by_cases h : 1 ≤ (s.buffer.takeWhile isSpace).length
  · simp only [h, if_true]
    exact shift_column s _ (List.takeWhile_sublist isSpace).length_le
  · simp only [h, if_false]
    omega

theorem skipWhitespaces_checksum (s : GCodeDefaultScanner)
    (hc : s.source_position.checksum < 256) :
    (skipWhitespaces s).source_position.checksum =
      xorChecksum s.source_position.checksum (s.buffer.takeWhile isSpace) := by
  unfold skipWhitespaces
  rw [match_Whitespaces]
  by_cases h : 1 ≤ (s.buffer.takeWhile isSpace).length
  · simp only [h, if_true, shift_checksum, take_takeWhile_length]
    exact Nat.mod_eq_of_lt (xorChecksum_lt _ _ hc)
  · simp only [h, if_false]
    have h0 : s.buffer.takeWhile isSpace = [] := List.eq_nil_of_length_eq_zero (by omega)
    simp [h0, xorChecksum]

theorem next_finished (stodOk : List Char → Bool) (s0 : GCodeDefaultScanner)
    (h : finished s0 = true) : next stodOk s0 = (.none, s0) := by
  unfold next
  simp [h]

theorem next_newline (stodOk : List Char → Bool) (s0 : GCodeDefaultScanner)
    (hnf : finished s0 = false) (he : (skipWhitespaces s0).buffer = []) :
    next stodOk s0 =
      (.token ⟨.NewLine, (next_line (skipWhitespaces s0)).source_position⟩,
        next_line (skipWhitespaces s0)) := by
  unfold next
  simp [hnf, he]

theorem next_float (stodOk : List Char → Bool) (s0 : GCodeDefaultScanner)
    (hnf : finished s0 = false) (hne : (skipWhitespaces s0).buffer ≠ []) (n : Nat)
    (hF : match_regex (skipWhitespaces s0).buffer Float = some n) :
    next stodOk s0 =
      if stodOk ((skipWhitespaces s0).buffer.take n) then
        (.token ⟨.FloatConstant ((skipWhitespaces s0).buffer.take n),
          (skipWhitespaces s0).source_position⟩, shift (skipWhitespaces s0) n)
      else (.outOfRange, skipWhitespaces s0) := by
  unfold next
  simp [hnf, hne, hF]

theorem next_integer (stodOk : List Char → Bool) (s0 : GCodeDefaultScanner)
    (hnf : finished s0 = false) (hne : (skipWhitespaces s0).buffer ≠ []) (n : Nat)
    (hF : match_regex (skipWhitespaces s0).buffer Float = none)
    (hI : match_regex (skipWhitespaces s0).buffer Integer = some n) :
    next stodOk s0 =
      match stoll ((skipWhitespaces s0).buffer.take n) with
      | some v =>
        (.token ⟨.IntegerConstant v, (skipWhitespaces s0).source_position⟩,
          shift (skipWhitespaces s0) n)
      | none => (.outOfRange, skipWhitespaces s0) := by
  unfold next
  simp [hnf, hne, hF, hI]

theorem next_literal (stodOk : List Char → Bool) (s0 : GCodeDefaultScanner)
    (hnf : finished s0 = false) (hne : (skipWhitespaces s0).buffer ≠ []) (n : Nat)
    (hF : match_regex (skipWhitespaces s0).buffer Float = none)
    (hI : match_regex (skipWhitespaces s0).buffer Integer = none)
    (hL : match_regex (skipWhitespaces s0).buffer Literal = some n) :
    next stodOk s0 =
      (.token ⟨match keywordOf ((skipWhitespaces s0).buffer.take n) with
          | some k => .Keyword k
          | none => .Literal ((skipWhitespaces s0).buffer.take n),
          (skipWhitespaces s0).source_position⟩,
        shift (skipWhitespaces s0) n) := by
  unfold next
  simp only [hnf, hne, hF, hI, hL, List.isEmpty_iff]
  cases keywordOf ((skipWhitespaces s0).buffer.take n) <;> simp

theorem next_operator (stodOk : List Char → Bool) (s0 : GCodeDefaultScanner)
    (hnf : finished s0 = false) (hne : (skipWhitespaces s0).buffer ≠ []) (n : Nat)
    (hF : match_regex (skipWhitespaces s0).buffer Float = none)
    (hI : match_regex (skipWhitespaces s0).buffer Integer = none)
    (hL : match_regex (skipWhitespaces s0).buffer Literal = none)
    (hO : match_regex (skipWhitespaces s0).buffer Operator = some n) :
    next stodOk s0 =
      (.token ⟨.Operator (((skipWhitespaces s0).buffer.take n).headD ' ').toUpper,
          (skipWhitespaces s0).source_position⟩,
        shift (skipWhitespaces s0) n) := by
  unfold next
  simp [hnf, hne, hF, hI, hL, hO]

theorem next_comment (stodOk : List Char → Bool) (s0 : GCodeDefaultScanner)
    (hnf : finished s0 = false) (hne : (skipWhitespaces s0).buffer ≠ []) (n : Nat)
    (hF : match_regex (skipWhitespaces s0).buffer Float = none)
    (hI : match_regex (skipWhitespaces s0).buffer Integer = none)
    (hL : match_regex (skipWhitespaces s0).buffer Literal = none)
    (hO : match_regex (skipWhitespaces s0).buffer Operator = none)
    (hC : (match_regex (skipWhitespaces s0).buffer Comment).orElse
      (fun _ => match_regex (skipWhitespaces s0).buffer BracedComment) = some n) :
    next stodOk s0 =
      (.token ⟨.Comment ((skipWhitespaces s0).buffer.take n),
          (skipWhitespaces s0).source_position⟩,
        shift (skipWhitespaces s0) n) := by
  unfold next
  simp only [hnf, hne, hF, hI, hL, hO, hC, List.isEmpty_iff]
  simp

theorem next_error (stodOk : List Char → Bool) (s0 : GCodeDefaultScanner)
    (hnf : finished s0 = false) (hne : (skipWhitespaces s0).buffer ≠ [])
    (hF : match_regex (skipWhitespaces s0).buffer Float = none)
    (hI : match_regex (skipWhitespaces s0).buffer Integer = none)
    (hL : match_regex (skipWhitespaces s0).buffer Literal = none)
    (hO : match_regex (skipWhitespaces s0).buffer Operator = none)
    (hC : match_regex (skipWhitespaces s0).buffer Comment = none)
    (hB : match_regex (skipWhitespaces s0).buffer BracedComment = none) :
    next stodOk s0 =
      (.parseError ("Unknown symbol at '".toList ++ (shift (skipWhitespaces s0) 1).buffer ++ ['\''])
          (shift (skipWhitespaces s0) 1).source_position,
        shift (skipWhitespaces s0) 1) := by
  unfold next
  simp only [hnf, hne, hF, hI, hL, hO, hC, hB, List.isEmpty_iff]
  simp

/-! ## Facts about the character classes -/

theorem ascii_cases (P : Char → Bool) (h : ∀ n : Fin 128, P (Char.ofNat n) = true)
    (hbig : ∀ c : Char, 128 ≤ c.toNat → P c = true) (c : Char) : P c = true := by
  by_cases hc : c.toNat < 128
  · have := h ⟨c.toNat, hc⟩
    simpa [Char.ofNat_toNat] using this
  · exact hbig c (by omega)

theorem char_le_iff (a b : Char) : a ≤ b ↔ a.toNat ≤ b.toNat := Iff.rfl

theorem isLetter_big (c : Char) (h : 128 ≤ c.toNat) : isLetter c = false := by
  have h1 : ¬ c ≤ 'z' := by rw [char_le_iff]; simp; omega
  have h2 : ¬ c ≤ 'Z' := by rw [char_le_iff]; simp; omega
  simp [isLetter, h1, h2]

theorem isDigit_big (c : Char) (h : 128 ≤ c.toNat) : isDigit c = false := by
  have h1 : ¬ c ≤ '9' := by rw [char_le_iff]; simp; omega
  simp [isDigit, h1]

theorem isAlphaUnderscore_big (c : Char) (h : 128 ≤ c.toNat) : isAlphaUnderscore c = false := by
  have h1 : ¬ c ≤ 'z' := by rw [char_le_iff]; simp; omega
  have h2 : ¬ c ≤ 'Z' := by rw [char_le_iff]; simp; omega
  have h3 : c ≠ '_' := by
    intro h3
    rw [h3] at h
    revert h
    decide
  simp [isAlphaUnderscore, h1, h2, h3]

set_option maxRecDepth 100000 in
theorem letterFacts_ascii : ∀ n : Fin 128, letterFacts (Char.ofNat n) = true := by
  decide

theorem letter_facts (c : Char) (h : isLetter c = true) :
    isDigit c = false ∧ isAlphaUnderscore c = true ∧ isWord c = true ∧
      isOperatorChar c = true ∧ isSpace c = false ∧ isLetter c.toUpper = true ∧
      isLetter c.toLower = true ∧ c.toUpper.toUpper = c.toUpper ∧
      c.toLower.toUpper = c.toUpper := by
  have := ascii_cases letterFacts letterFacts_ascii
    (fun c hc => by simp [letterFacts, isLetter_big c hc]) c
  simpa [letterFacts, h, and_assoc] using this

set_option maxRecDepth 100000 in
theorem alphaFacts_ascii : ∀ n : Fin 128, alphaFacts (Char.ofNat n) = true := by
  decide

theorem alpha_facts (c : Char) (h : isAlphaUnderscore c = true) :
    isDigit c = false ∧ isWord c = true ∧ isSpace c = false := by
  have := ascii_cases alphaFacts alphaFacts_ascii
    (fun c hc => by simp [alphaFacts, isAlphaUnderscore_big c hc]) c
  simpa [alphaFacts, h, and_assoc] using this

/-! ## The patterns on the shapes of the statements -/

theorem headFails_cons (cls : Char → Bool) (c : Char) (cs : List Char) (h : cls c = false) :
    headFails cls (c :: cs) := by
  intro x hx
  simp only [List.head?_cons, Option.mem_def, Option.some.injEq] at hx
  rw [← hx]
  exact h

theorem headFails_nil (cls : Char → Bool) : headFails cls [] := by
  intro x hx
  simp at hx

theorem takeWhile_length_zero_of_head (cls : Char → Bool) (c : Char) (cs : List Char)
    (h : cls c = false) : ((c :: cs).takeWhile cls).length = 0 := by
  simp [List.takeWhile_cons, h]

theorem float_none_of_head (c : Char) (cs : List Char) (h : isDigit c = false) :
    match_regex (c :: cs) Float = none := by
  rw [match_Float, takeWhile_length_zero_of_head isDigit c cs h]
  simp

theorem integer_none_of_head (c : Char) (cs : List Char) (h : isDigit c = false) :
    match_regex (c :: cs) Integer = none := by
  rw [match_Integer, takeWhile_length_zero_of_head isDigit c cs h]
  simp

theorem float_shape (d e rest : List Char) (hd : d ≠ []) (hdd : ∀ c ∈ d, isDigit c = true)
    (he : e ≠ []) (hee : ∀ c ∈ e, isDigit c = true) (hr : headFails isDigit rest) :
    match_regex (d ++ '.' :: (e ++ rest)) Float = some (d.length + 1 + e.length) := by
  have hdot : headFails isDigit ('.' :: (e ++ rest)) := headFails_cons _ _ _ (by decide)
  rw [match_Float, takeWhile_append_of_run isDigit d _ hdd hdot,
    dropWhile_append_of_run isDigit d _ hdd hdot]
  have hd1 : 1 ≤ d.length := List.length_pos.mpr hd
  have he1 : 1 ≤ e.length := List.length_pos.mpr he
  simp only [hd1, if_true, floatTail, takeWhile_append_of_run isDigit e rest hee hr, he1,
    Option.map_some']
  congr 1
  omega

theorem integer_shape (d rest : List Char) (hd : d ≠ []) (hdd : ∀ c ∈ d, isDigit c = true)
    (hr : headFails isDigit rest)
    (hdot : ∀ c r, rest = '.' :: c :: r → isDigit c = false) :
    match_regex (d ++ rest) Float = none ∧ match_regex (d ++ rest) Integer = some d.length := by
  have hd1 : 1 ≤ d.length := List.length_pos.mpr hd
  constructor
  · rw [match_Float, takeWhile_append_of_run isDigit d _ hdd hr,
      dropWhile_append_of_run isDigit d _ hdd hr]
    simp only [hd1, if_true]
    have : floatTail rest = none := by
      cases rest with
      | nil => rfl
      | cons x xs =>
        by_cases hx : x = '.'
        · subst hx
          cases xs with
          | nil => simp [floatTail]
          | cons y ys =>
            have hy := hdot y ys rfl
            simp [floatTail, List.takeWhile_cons, hy]
        · exact floatTail_cons_ne x xs hx
    simp [this]
  · rw [match_Integer, takeWhile_append_of_run isDigit d _ hdd hr]
    simp [hd1]

theorem literal_shape (a1 a2 : Char) (w rest : List Char) (h1 : isAlphaUnderscore a1 = true)
    (h2 : isAlphaUnderscore a2 = true) (hw : ∀ c ∈ w, isWord c = true)
    (hr : headFails isWord rest) :
    match_regex (a1 :: a2 :: w ++ rest) Float = none ∧
      match_regex (a1 :: a2 :: w ++ rest) Integer = none ∧
      match_regex (a1 :: a2 :: w ++ rest) Literal = some (w.length + 2) := by
  have hd1 := (alpha_facts a1 h1).1
  refine ⟨float_none_of_head a1 _ hd1, integer_none_of_head a1 _ hd1, ?_⟩
  rw [match_Literal]
  have hrun : ∀ c ∈ a1 :: a2 :: w, isWord c = true := by
    intro c hc
    simp only [List.mem_cons] at hc
    rcases hc with rfl | rfl | hc
    · exact (alpha_facts _ h1).2.1
    · exact (alpha_facts _ h2).2.1
    · exact hw c hc
  have htw := takeWhile_append_of_run isWord (a1 :: a2 :: w) rest hrun hr
  simp only [List.cons_append] at htw
  simp only [List.cons_append, htw]
  simp [List.takeWhile_cons, h1, h2]

theorem operator_shape (c : Char) (rest : List Char) (hc : isLetter c = true)
    (hr : headFails isAlphaUnderscore rest) :
    match_regex (c :: rest) Float = none ∧ match_regex (c :: rest) Integer = none ∧
      match_regex (c :: rest) Literal = none ∧ match_regex (c :: rest) Operator = some 1 := by
  obtain ⟨hd, ha, -, ho, -⟩ := letter_facts c hc
  refine ⟨float_none_of_head c _ hd, integer_none_of_head c _ hd, ?_, ?_⟩
  · rw [match_Literal]
    have : (c :: rest).takeWhile isAlphaUnderscore = [c] := by
      have := takeWhile_append_of_run isAlphaUnderscore [c] rest (by simpa using ha) hr
      simpa using this
    simp [this]
  · rw [match_Operator]
    simp [ho]

/-! ## The rules of `next()` -/

theorem stoll_of_lt (ds : List Char) (h : decimalValue ds < 2 ^ 63) :
    stoll ds = some (decimalValue ds : Int) := by
  unfold stoll
  rw [if_pos h]

theorem shift_buffer_append (s : GCodeDefaultScanner) (m rest : List Char)
    (h : s.buffer = m ++ rest) : (shift s m.length).buffer = rest := by
  rw [shift_buffer, h]
  simp

theorem take_append_length (m rest : List Char) : (m ++ rest).take m.length = m := by
  simp

/-- C1, the counterexample: the buffer `9223372036854775808` is a digit run that no `.`
follows, and `next()` returns no integer token for it: `std::stoll` throws
`std::out_of_range`, and nothing is consumed. -/
theorem next_digit_run_no_token :
    (onLine "9223372036854775808").buffer.all isDigit = true ∧
      finished (onLine "9223372036854775808") = false ∧
      next stodAlways (onLine "9223372036854775808") =
        (.outOfRange, onLine "9223372036854775808") := by
  decide

/-- C1 (amended): when the buffer `b` left after the whitespace is skipped is not empty,
`next()` applies the first rule that matches in the order float, integer,
identifier/keyword, operator, line comment, braced comment, returns that rule's token at
the position after the whitespace and removes exactly the rule's match from the buffer,
provided the numeric conversion of a float or integer match does not overflow
(`std::stod` returns, the integer is below `2^63`). In particular a digit run followed by
`.` and a digit run is one float token, any other digit run one integer token, a run of
word characters that starts with two characters of `[a-zA-Z_]` one identifier/keyword
token, and a letter that no letter or underscore follows a one-character operator token. -/
theorem next_applies_first_matching_rule (stodOk : List Char → Bool)
    (s0 : GCodeDefaultScanner) (b : List Char) (hnf : finished s0 = false)
    (hb : (skipWhitespaces s0).buffer = b) (hne : b ≠ []) :
    (∀ n, match_regex b Float = some n → stodOk (b.take n) = true →
        next stodOk s0 =
          (.token ⟨.FloatConstant (b.take n), (skipWhitespaces s0).source_position⟩,
            shift (skipWhitespaces s0) n) ∧
        (next stodOk s0).2.buffer = b.drop n) ∧
    (∀ n, match_regex b Float = none → match_regex b Integer = some n →
        decimalValue (b.take n) < 2 ^ 63 →
        next stodOk s0 =
          (.token ⟨.IntegerConstant (decimalValue (b.take n)),
              (skipWhitespaces s0).source_position⟩, shift (skipWhitespaces s0) n) ∧
        (next stodOk s0).2.buffer = b.drop n) ∧
    (∀ n, match_regex b Float = none → match_regex b Integer = none →
        match_regex b Literal = some n →
        next stodOk s0 =
          (.token ⟨identifierOrKeyword (b.take n), (skipWhitespaces s0).source_position⟩,
            shift (skipWhitespaces s0) n) ∧
        (next stodOk s0).2.buffer = b.drop n) ∧
    (∀ n, match_regex b Float = none → match_regex b Integer = none →
        match_regex b Literal = none → match_regex b Operator = some n →
        next stodOk s0 =
          (.token ⟨.Operator ((b.take n).headD ' ').toUpper,
              (skipWhitespaces s0).source_position⟩, shift (skipWhitespaces s0) n) ∧
        (next stodOk s0).2.buffer = b.drop n) ∧
    (∀ n, match_regex b Float = none → match_regex b Integer = none →
        match_regex b Literal = none → match_regex b Operator = none →
        match_regex b Comment = some n →
        next stodOk s0 =
          (.token ⟨.Comment (b.take n), (skipWhitespaces s0).source_position⟩,
            shift (skipWhitespaces s0) n) ∧
        (next stodOk s0).2.buffer = b.drop n) ∧
    (∀ n, match_regex b Float = none → match_regex b Integer = none →
        match_regex b Literal = none → match_regex b Operator = none →
        match_regex b Comment = none → match_regex b BracedComment = some n →
        next stodOk s0 =
          (.token ⟨.Comment (b.take n), (skipWhitespaces s0).source_position⟩,
            shift (skipWhitespaces s0) n) ∧
        (next stodOk s0).2.buffer = b.drop n) ∧
    (∀ d e rest, b = d ++ '.' :: (e ++ rest) → d ≠ [] → (∀ c ∈ d, isDigit c = true) →
        e ≠ [] → (∀ c ∈ e, isDigit c = true) → headFails isDigit rest →
        stodOk (d ++ '.' :: e) = true →
        (next stodOk s0).1 =
          .token ⟨.FloatConstant (d ++ '.' :: e), (skipWhitespaces s0).source_position⟩ ∧
        (next stodOk s0).2.buffer = rest) ∧
    (∀ d rest, b = d ++ rest → d ≠ [] → (∀ c ∈ d, isDigit c = true) →
        headFails isDigit rest → (∀ c r, rest = '.' :: c :: r → isDigit c = false) →
        decimalValue d < 2 ^ 63 →
        (next stodOk s0).1 =
          .token ⟨.IntegerConstant (decimalValue d), (skipWhitespaces s0).source_position⟩ ∧
        (next stodOk s0).2.buffer = rest) ∧
    (∀ a1 a2 w rest, b = a1 :: a2 :: w ++ rest → isAlphaUnderscore a1 = true →
        isAlphaUnderscore a2 = true → (∀ c ∈ w, isWord c = true) → headFails isWord rest →
        (next stodOk s0).1 =
          .token ⟨identifierOrKeyword (a1 :: a2 :: w),
            (skipWhitespaces s0).source_position⟩ ∧
        (next stodOk s0).2.buffer = rest) ∧
    (∀ c rest, b = c :: rest → isLetter c = true → headFails isAlphaUnderscore rest →
        (next stodOk s0).1 =
          .token ⟨.Operator c.toUpper, (skipWhitespaces s0).source_position⟩ ∧
        (next stodOk s0).2.buffer = rest) := by
  subst hb
  have hFloat : ∀ n, match_regex (skipWhitespaces s0).buffer Float = some n →
      stodOk ((skipWhitespaces s0).buffer.take n) = true →
      next stodOk s0 =
        (.token ⟨.FloatConstant ((skipWhitespaces s0).buffer.take n),
            (skipWhitespaces s0).source_position⟩, shift (skipWhitespaces s0) n) := by
    intro n hF hs
    rw [next_float stodOk s0 hnf hne n hF, if_pos hs]
  have hInt : ∀ n, match_regex (skipWhitespaces s0).buffer Float = none →
      match_regex (skipWhitespaces s0).buffer Integer = some n →
      decimalValue ((skipWhitespaces s0).buffer.take n) < 2 ^ 63 →
      next stodOk s0 =
        (.token ⟨.IntegerConstant (decimalValue ((skipWhitespaces s0).buffer.take n)),
            (skipWhitespaces s0).source_position⟩, shift (skipWhitespaces s0) n) := by
    intro n hF hI hv
    rw [next_integer stodOk s0 hnf hne n hF hI, stoll_of_lt _ hv]
  have hLit : ∀ n, match_regex (skipWhitespaces s0).buffer Float = none →
      match_regex (skipWhitespaces s0).buffer Integer = none →
      match_regex (skipWhitespaces s0).buffer Literal = some n →
      next stodOk s0 =
        (.token ⟨identifierOrKeyword ((skipWhitespaces s0).buffer.take n),
            (skipWhitespaces s0).source_position⟩, shift (skipWhitespaces s0) n) := by
    intro n hF hI hL
    rw [next_literal stodOk s0 hnf hne n hF hI hL]
    rfl
  have hOp := next_operator stodOk s0 hnf hne
  refine ⟨?_, ?_, ?_, ?_, ?_, ?_, ?_, ?_, ?_, ?_⟩
  · intro n hF hs
    refine ⟨hFloat n hF hs, ?_⟩
    rw [hFloat n hF hs, shift_buffer]
  · intro n hF hI hv
    refine ⟨hInt n hF hI hv, ?_⟩
    rw [hInt n hF hI hv, shift_buffer]
  · intro n hF hI hL
    refine ⟨hLit n hF hI hL, ?_⟩
    rw [hLit n hF hI hL, shift_buffer]
  · intro n hF hI hL hO
    refine ⟨hOp n hF hI hL hO, ?_⟩
    rw [hOp n hF hI hL hO, shift_buffer]
  · intro n hF hI hL hO hC
    have h := next_comment stodOk s0 hnf hne n hF hI hL hO (by simp [hC])
    refine ⟨h, ?_⟩
    rw [h, shift_buffer]
  · intro n hF hI hL hO hC hB
    have h := next_comment stodOk s0 hnf hne n hF hI hL hO (by simp [hC, hB])
    refine ⟨h, ?_⟩
    rw [h, shift_buffer]
  · intro d e rest hshape hd hdd he hee hr hs
    have hF := float_shape d e rest hd hdd he hee hr
    rw [← hshape] at hF
    have htake : (skipWhitespaces s0).buffer.take (d.length + 1 + e.length) = d ++ '.' :: e := by
      have := take_append_length (d ++ '.' :: e) rest
      simpa [hshape, Nat.add_assoc, Nat.add_comm 1 e.length] using this
    rw [hFloat _ hF (by rw [htake]; exact hs), htake]
    refine ⟨rfl, ?_⟩
    have := shift_buffer_append (skipWhitespaces s0) (d ++ '.' :: e) rest (by simp [hshape])
    simpa [Nat.add_assoc, Nat.add_comm 1 e.length] using this
  · intro d rest hshape hd hdd hr hdot hv
    obtain ⟨hF, hI⟩ := integer_shape d rest hd hdd hr hdot
    rw [← hshape] at hF hI
    have htake : (skipWhitespaces s0).buffer.take d.length = d := by
      rw [hshape]
      exact take_append_length d rest
    rw [hInt _ hF hI (by rw [htake]; exact hv), htake]
    exact ⟨rfl, shift_buffer_append _ d rest hshape⟩
  · intro a1 a2 w rest hshape h1 h2 hw hr
    obtain ⟨hF, hI, hL⟩ := literal_shape a1 a2 w rest h1 h2 hw hr
    rw [← hshape] at hF hI hL
    have htake : (skipWhitespaces s0).buffer.take (w.length + 2) = a1 :: a2 :: w := by
      rw [hshape]
      exact take_append_length (a1 :: a2 :: w) rest
    rw [hLit _ hF hI hL, htake]
    exact ⟨rfl, shift_buffer_append _ (a1 :: a2 :: w) rest hshape⟩
  · intro c rest hshape hc hr
    obtain ⟨hF, hI, hL, hO⟩ := operator_shape c rest hc hr
    rw [← hshape] at hF hI hL hO
    rw [hOp 1 hF hI hL hO]
    refine ⟨?_, shift_buffer_append _ [c] rest (by simpa using hshape)⟩
    simp [hshape]

/-- C1, a witness: on the buffer `  12.5 X` the call returns the float token `12.5` at
column 3 and leaves ` X`. -/
theorem next_applies_first_matching_rule_witness :
    (next stodAlways (onLine "  12.5 X")).1 =
        .token ⟨.FloatConstant "12.5".toList, ⟨[], 1, 3, 0⟩⟩ ∧
      (next stodAlways (onLine "  12.5 X")).2.buffer = " X".toList :=
  (next_applies_first_matching_rule stodAlways (onLine "  12.5 X") "12.5 X".toList
    (by decide) (by decide) (by decide)).2.2.2.2.2.2.1 "12".toList "5".toList " X".toList
    (by decide) (by decide) (by decide) (by decide) (by decide)
    (headFails_cons _ _ _ (by decide)) (by decide)

/-! ## Lines and the `NewLine` token -/

theorem getline_terminated (l rest : List Char) (hl : '\n' ∉ l) :
    getline (l ++ '\n' :: rest) = (l, rest, true) := by
  induction l with
  | nil => simp [getline]
  | cons c cs ih =>
    have hc : c ≠ '\n' := fun h => hl (by simp [h])
    have hcs : '\n' ∉ cs := fun h => hl (by simp [h])
    simp [getline, hc, ih hcs]

theorem getline_unterminated (l : List Char) (hl : '\n' ∉ l) : getline l = (l, [], false) := by
  induction l with
  | nil => simp [getline]
  | cons c cs ih =>
    have hc : c ≠ '\n' := fun h => hl (by simp [h])
    have hcs : '\n' ∉ cs := fun h => hl (by simp [h])
    simp [getline, hc, ih hcs]

theorem finished_false_of_skip (s0 : GCodeDefaultScanner)
    (hne : (skipWhitespaces s0).buffer ≠ []) : finished s0 = false := by
  cases hf : finished s0
  · rfl
  · exfalso
    apply hne
    have hb : s0.buffer = [] := by
      simp only [finished, Bool.and_eq_true, List.isEmpty_iff] at hf
      exact hf.1
    rw [skipWhitespaces_buffer, hb]
    rfl

theorem next_keeps_stream (stodOk : List Char → Bool) (s0 : GCodeDefaultScanner)
    (hne : (skipWhitespaces s0).buffer ≠ []) :
    (next stodOk s0).2.good = s0.good ∧ (next stodOk s0).2.input = s0.input := by
  have hnf := finished_false_of_skip s0 hne
  unfold next
  simp only [hnf, hne, List.isEmpty_iff]
  simp only [Bool.false_eq_true, if_false]
  split
  · split
    · exact ⟨by rw [shift_good, skipWhitespaces_good], by rw [shift_input, skipWhitespaces_input]⟩
    · exact ⟨skipWhitespaces_good s0, skipWhitespaces_input s0⟩
  · split
    · split
      · exact ⟨by rw [shift_good, skipWhitespaces_good],
          by rw [shift_input, skipWhitespaces_input]⟩
      · exact ⟨skipWhitespaces_good s0, skipWhitespaces_input s0⟩
    · split
      · split <;>
          exact ⟨by rw [shift_good, skipWhitespaces_good],
            by rw [shift_input, skipWhitespaces_input]⟩
      · split
        · exact ⟨by rw [shift_good, skipWhitespaces_good],
            by rw [shift_input, skipWhitespaces_input]⟩
        · split <;>
            exact ⟨by rw [shift_good, skipWhitespaces_good],
              by rw [shift_input, skipWhitespaces_input]⟩

/-- C2, the counterexample: the scan of the single unterminated line `G1 X10 Y20 F100`.
The calls return the `NewLine` of line 1, the eight tokens of the line, and then the
empty optional: no `NewLine` follows the tokens of the line. -/
theorem scan_unterminated_line :
    scan stodAlways 12 (GCodeDefaultScanner.mk0 "G1 X10 Y20 F100".toList []) =
      [ .token ⟨.NewLine, ⟨[], 1, 1, 0⟩⟩,
        .token ⟨.Operator 'G', ⟨[], 1, 1, 0⟩⟩,
        .token ⟨.IntegerConstant 1, ⟨[], 1, 2, 71⟩⟩,
        .token ⟨.Operator 'X', ⟨[], 1, 4, 86⟩⟩,
        .token ⟨.IntegerConstant 10, ⟨[], 1, 5, 14⟩⟩,
        .token ⟨.Operator 'Y', ⟨[], 1, 8, 47⟩⟩,
        .token ⟨.IntegerConstant 20, ⟨[], 1, 9, 118⟩⟩,
        .token ⟨.Operator 'F', ⟨[], 1, 12, 84⟩⟩,
        .token ⟨.IntegerConstant 100, ⟨[], 1, 13, 18⟩⟩,
        .none ] := by
  decide

/-- C2 (amended): a `NewLine` token is emitted for a fully consumed line exactly when the
scanner is not finished at that moment. Reading a line that ends with a line break
leaves the stream good, reading an unterminated last line does not, and the calls that
scan the line keep the stream as it is. So once the characters of a line are consumed
(the buffer is empty after the whitespace is skipped), `next()` returns a `NewLine`
token if the line ended with a line break or whitespace was left in the buffer, and it
returns the empty optional, with no `NewLine`, if the buffer is empty and the stream is
not good, which is the case after the last token of an unterminated last line. -/
theorem newline_after_consumed_line (stodOk : List Char → Bool) (s0 : GCodeDefaultScanner) :
    (∀ l rest, s0.good = true → s0.input = l ++ '\n' :: rest → '\n' ∉ l →
        (next_line s0).buffer = l ∧ (next_line s0).good = true ∧
          (next_line s0).input = rest) ∧
    (∀ l, s0.good = true → s0.input = l → '\n' ∉ l →
        (next_line s0).buffer = l ∧ (next_line s0).good = false ∧
          (next_line s0).input = []) ∧
    ((skipWhitespaces s0).buffer ≠ [] →
        (next stodOk s0).2.good = s0.good ∧ (next stodOk s0).2.input = s0.input) ∧
    ((skipWhitespaces s0).buffer = [] → (s0.good = true ∨ s0.buffer ≠ []) →
        ∃ pos, (next stodOk s0).1 = .token ⟨.NewLine, pos⟩) ∧
    (s0.buffer = [] → s0.good = false → next stodOk s0 = (.none, s0)) := by
  refine ⟨?_, ?_, next_keeps_stream stodOk s0, ?_, ?_⟩
  · intro l rest hg hi hl
    simp [next_line, hg, hi, getline_terminated l rest hl]
  · intro l hg hi hl
    simp [next_line, hg, hi, getline_unterminated l hl]
  · intro he hor
    have hnf : finished s0 = false := by
      rcases hor with hg | hb
      · simp [finished, hg]
      · simp [finished, hb]
    exact ⟨_, by rw [next_newline stodOk s0 hnf he]⟩
  · intro hb hg
    exact next_finished stodOk s0 (by simp [finished, hb, hg])

/-- C2, a witness: after `G1` of the terminated line `G1 ` has been consumed, with the
stream still good, the call returns a `NewLine`. -/
theorem newline_after_consumed_line_witness :
    ∃ pos, (next stodAlways ⟨"G2".toList, true, " ".toList, ⟨[], 1, 3, 118⟩⟩).1 =
      .token ⟨.NewLine, pos⟩ :=
  (newline_after_consumed_line stodAlways
    ⟨"G2".toList, true, " ".toList, ⟨[], 1, 3, 118⟩⟩).2.2.2.1 (by decide) (Or.inl rfl)

/-- C3, the counterexample: in the scan of `G1` line break `G2` the `NewLine` returned
once line 1 is consumed carries line 2, column 1 and checksum 0, while line 1 has the
checksum 118. -/
theorem scan_newline_position :
    scan stodAlways 4 (GCodeDefaultScanner.mk0 "G1\nG2".toList []) =
      [ .token ⟨.NewLine, ⟨[], 1, 1, 0⟩⟩,
        .token ⟨.Operator 'G', ⟨[], 1, 1, 0⟩⟩,
        .token ⟨.IntegerConstant 1, ⟨[], 1, 2, 71⟩⟩,
        .token ⟨.NewLine, ⟨[], 2, 1, 0⟩⟩ ] ∧
      xorChecksum 0 "G1".toList = 118 := by
  decide

/-- C3 (amended): the `NewLine` token emitted when a line is fully consumed carries the
position the scanner has after `next_line()`. When the stream is good the next line has
been read, and the token carries the number of that next line (one more than the line
just consumed), column 1 and checksum 0. When the stream is not good (whitespace ended
the last line) the position stays that of the consumed line: its line number, the column
after the whitespace and the checksum over the characters consumed. -/
theorem newline_token_position (stodOk : List Char → Bool) (s0 : GCodeDefaultScanner)
    (hnf : finished s0 = false) (he : (skipWhitespaces s0).buffer = []) :
    (s0.good = true →
        (next stodOk s0).1 =
          .token ⟨.NewLine, ⟨s0.source_position.tag, s0.source_position.line + 1, 1, 0⟩⟩) ∧
    (s0.good = false →
        (next stodOk s0).1 = .token ⟨.NewLine, (skipWhitespaces s0).source_position⟩ ∧
        (skipWhitespaces s0).source_position.line = s0.source_position.line ∧
        (skipWhitespaces s0).source_position.column =
          s0.source_position.column + s0.buffer.length ∧
        (s0.source_position.checksum < 256 →
          (skipWhitespaces s0).source_position.checksum =
            xorChecksum s0.source_position.checksum s0.buffer)) := by
  rw [next_newline stodOk s0 hnf he]
  constructor
  · intro hg
    have hg1 : (skipWhitespaces s0).good = true := by rw [skipWhitespaces_good, hg]
    simp [next_line, hg1, SourcePosition.update, skipWhitespaces_tag, skipWhitespaces_line]
  · intro hg
    have hg1 : (skipWhitespaces s0).good = false := by rw [skipWhitespaces_good, hg]
    have hall : s0.buffer.takeWhile isSpace = s0.buffer := by
      have h1 := List.takeWhile_append_dropWhile isSpace s0.buffer
      rw [← skipWhitespaces_buffer, he, List.append_nil] at h1
      exact h1
    refine ⟨by simp [next_line, hg1], skipWhitespaces_line s0, ?_, ?_⟩
    · rw [skipWhitespaces_column, hall]
    · intro hc
      rw [skipWhitespaces_checksum s0 hc, hall]

/-- C3, a witness: with the stream good and the buffer of line 1 consumed, the `NewLine`
carries line 2, column 1 and checksum 0. -/
theorem newline_token_position_witness :
    (next stodAlways ⟨"G2".toList, true, [], ⟨[], 1, 3, 118⟩⟩).1 =
      .token ⟨.NewLine, ⟨[], 2, 1, 0⟩⟩ :=
  (newline_token_position stodAlways ⟨"G2".toList, true, [], ⟨[], 1, 3, 118⟩⟩
    (by decide) (by decide)).1 rfl

/-! ## The end of the input and errors -/

theorem next_not_finished_cases (stodOk : List Char → Bool) (s0 : GCodeDefaultScanner)
    (hnf : finished s0 = false) :
    (∃ t, (next stodOk s0).1 = .token t) ∨
      (∃ m p, (next stodOk s0).1 = .parseError m p) ∨
      ((next stodOk s0).1 = .outOfRange ∧
        ((∃ n, match_regex (skipWhitespaces s0).buffer Float = some n ∧
            stodOk ((skipWhitespaces s0).buffer.take n) = false) ∨
          (∃ n, match_regex (skipWhitespaces s0).buffer Float = none ∧
            match_regex (skipWhitespaces s0).buffer Integer = some n ∧
            2 ^ 63 ≤ decimalValue ((skipWhitespaces s0).buffer.take n)))) := by
  by_cases he : (skipWhitespaces s0).buffer = []
  · exact Or.inl ⟨_, by rw [next_newline stodOk s0 hnf he]⟩
  · cases hF : match_regex (skipWhitespaces s0).buffer Float with
    | some n =>
      rw [next_float stodOk s0 hnf he n hF]
      cases hs : stodOk ((skipWhitespaces s0).buffer.take n)
      · rw [if_neg (by simp)]
        exact Or.inr (Or.inr ⟨rfl, Or.inl ⟨n, rfl, hs⟩⟩)
      · rw [if_pos rfl]
        exact Or.inl ⟨_, rfl⟩
    | none =>
      cases hI : match_regex (skipWhitespaces s0).buffer Integer with
      | some n =>
        rw [next_integer stodOk s0 hnf he n hF hI]
        by_cases hv : decimalValue ((skipWhitespaces s0).buffer.take n) < 2 ^ 63
        · rw [stoll_of_lt _ hv]
          exact Or.inl ⟨_, rfl⟩
        · have hst : stoll ((skipWhitespaces s0).buffer.take n) = none := by
            unfold stoll
            rw [if_neg hv]
          rw [hst]
          exact Or.inr (Or.inr ⟨rfl, Or.inr ⟨n, rfl, rfl, by omega⟩⟩)
      | none =>
        cases hL : match_regex (skipWhitespaces s0).buffer Literal with
        | some n =>
          rw [next_literal stodOk s0 hnf he n hF hI hL]
          exact Or.inl ⟨_, rfl⟩
        | none =>
          cases hO : match_regex (skipWhitespaces s0).buffer Operator with
          | some n =>
            rw [next_operator stodOk s0 hnf he n hF hI hL hO]
            exact Or.inl ⟨_, rfl⟩
          | none =>
            cases hC : match_regex (skipWhitespaces s0).buffer Comment with
            | some n =>
              rw [next_comment stodOk s0 hnf he n hF hI hL hO (by simp [hC])]
              exact Or.inl ⟨_, rfl⟩
            | none =>
              cases hB : match_regex (skipWhitespaces s0).buffer BracedComment with
              | some n =>
                rw [next_comment stodOk s0 hnf he n hF hI hL hO (by simp [hC, hB])]
                exact Or.inl ⟨_, rfl⟩
              | none =>
                rw [next_error stodOk s0 hnf he hF hI hL hO hC hB]
                exact Or.inr (Or.inl ⟨_, _, rfl⟩)

theorem iterate_nextState_finished (stodOk : List Char → Bool) (s0 : GCodeDefaultScanner)
    (h : finished s0 = true) (k : Nat) : (nextState stodOk)^[k] s0 = s0 := by
  induction k with
  | zero => rfl
  | succ k ih =>
    rw [Function.iterate_succ_apply', ih]
    simp [nextState, next_finished stodOk s0 h]

/-- C4, the counterexample: with the buffer `99999999999999999999` the scanner is not
finished, and `next()` neither returns a token nor raises a parse error: the
`std::out_of_range` of `std::stoll` escapes. -/
theorem next_neither_token_nor_parse_error :
    finished (onLine "99999999999999999999") = false ∧
      (next stodAlways (onLine "99999999999999999999")).1 = .outOfRange ∧
      (¬ ∃ t, (next stodAlways (onLine "99999999999999999999")).1 = .token t) ∧
      (¬ ∃ m p, (next stodAlways (onLine "99999999999999999999")).1 = .parseError m p) := by
  have h : (next stodAlways (onLine "99999999999999999999")).1 = .outOfRange := by decide
  refine ⟨by decide, h, ?_, ?_⟩
  · rintro ⟨t, ht⟩
    rw [h] at ht
    cases ht
  · rintro ⟨m, p, hp⟩
    rw [h] at hp
    cases hp

/-- C4 (amended): whenever `finished()` holds, `next()` returns the empty optional and
leaves the whole state (buffer, position, stream) unchanged, so every later call returns
the empty optional too. Whenever `finished()` does not hold, `next()` never returns the
empty optional: it returns a token, or raises a parse error, or lets the
`std::out_of_range` of the numeric conversion escape, the last only when the float or
the integer rule matched a literal that `std::stod` rejects or whose value is `2^63` or
more. -/
theorem next_none_iff_finished (stodOk : List Char → Bool) (s0 : GCodeDefaultScanner) :
    (finished s0 = true →
        next stodOk s0 = (.none, s0) ∧
        ∀ k, next stodOk ((nextState stodOk)^[k] s0) = (.none, s0)) ∧
    (finished s0 = false →
        (next stodOk s0).1 ≠ .none ∧
        ((∃ t, (next stodOk s0).1 = .token t) ∨
          (∃ m p, (next stodOk s0).1 = .parseError m p) ∨
          ((next stodOk s0).1 = .outOfRange ∧
            ((∃ n, match_regex (skipWhitespaces s0).buffer Float = some n ∧
                stodOk ((skipWhitespaces s0).buffer.take n) = false) ∨
              (∃ n, match_regex (skipWhitespaces s0).buffer Float = none ∧
                match_regex (skipWhitespaces s0).buffer Integer = some n ∧
                2 ^ 63 ≤ decimalValue ((skipWhitespaces s0).buffer.take n)))))) := by
  constructor
  · intro h
    refine ⟨next_finished stodOk s0 h, fun k => ?_⟩
    rw [iterate_nextState_finished stodOk s0 h k]
    exact next_finished stodOk s0 h
  · intro hnf
    have h := next_not_finished_cases stodOk s0 hnf
    refine ⟨?_, h⟩
    rcases h with ⟨t, ht⟩ | ⟨m, p, hp⟩ | ⟨ho, -⟩
    · rw [ht]; simp
    · rw [hp]; simp
    · rw [ho]; simp

/-- C4, a witness: at the end of the input `next()` returns the empty optional, and on
the buffer `G1` it returns something else. -/
theorem next_none_iff_finished_witness :
    next stodAlways (onLine "") = (.none, onLine "") ∧
      (next stodAlways (onLine "G1")).1 ≠ .none :=
  ⟨((next_none_iff_finished stodAlways (onLine "")).1 (by decide)).1,
    ((next_none_iff_finished stodAlways (onLine "G1")).2 (by decide)).1⟩

/-- C5: when no rule matches the buffer `c :: rest` left after the whitespace is skipped,
`next()` raises a parse error and removes exactly the character `c`: the error carries
the position of the scanner after that advance (same tag and line, the column one past
`c`, the checksum with `c` included), the rest of the line and the stream are untouched,
and the following call scans `rest`. -/
theorem next_error_advances_one (stodOk : List Char → Bool) (s0 : GCodeDefaultScanner)
    (c : Char) (rest : List Char) (hnf : finished s0 = false)
    (hb : (skipWhitespaces s0).buffer = c :: rest)
    (hF : match_regex (c :: rest) Float = none)
    (hI : match_regex (c :: rest) Integer = none)
    (hL : match_regex (c :: rest) Literal = none)
    (hO : match_regex (c :: rest) Operator = none)
    (hC : match_regex (c :: rest) Comment = none)
    (hB : match_regex (c :: rest) BracedComment = none) :
    (∃ message, (next stodOk s0).1 =
        .parseError message (next stodOk s0).2.source_position) ∧
      (next stodOk s0).2.buffer = rest ∧
      (next stodOk s0).2.input = s0.input ∧
      (next stodOk s0).2.good = s0.good ∧
      (next stodOk s0).2.source_position.tag = s0.source_position.tag ∧
      (next stodOk s0).2.source_position.line = s0.source_position.line ∧
      (next stodOk s0).2.source_position.column =
        (skipWhitespaces s0).source_position.column + 1 ∧
      (next stodOk s0).2.source_position.column =
        s0.source_position.column + (s0.buffer.takeWhile isSpace).length + 1 ∧
      (next stodOk s0).2.source_position.checksum =
        ((skipWhitespaces s0).source_position.checksum ^^^ c.toNat) % 256 ∧
      (skipWhitespaces (next stodOk s0).2).buffer = rest.dropWhile isSpace := by
  have hne : (skipWhitespaces s0).buffer ≠ [] := by simp [hb]
  rw [← hb] at hF hI hL hO hC hB
  rw [next_error stodOk s0 hnf hne hF hI hL hO hC hB]
  have hlen : 1 ≤ (skipWhitespaces s0).buffer.length := by simp [hb]
  have hcol := shift_column (skipWhitespaces s0) 1 hlen
  refine ⟨⟨_, rfl⟩, ?_, ?_, ?_, ?_, ?_, hcol, ?_, ?_, ?_⟩
  · simp [shift_buffer, hb]
  · rw [shift_input, skipWhitespaces_input]
  · rw [shift_good, skipWhitespaces_good]
  · rw [shift_tag, skipWhitespaces_tag]
  · rw [shift_line, skipWhitespaces_line]
  · rw [hcol, skipWhitespaces_column]
  · rw [shift_checksum, hb]
    simp [xorChecksum]
  · rw [skipWhitespaces_buffer]
    simp [shift_buffer, hb]

/-- C5, a witness: on the buffer ` !X` the call raises at column 3 with the checksum of
the blank and `!`, and leaves `X`. -/
theorem next_error_advances_one_witness :
    (∃ message, (next stodAlways (onLine " !X")).1 =
        .parseError message (next stodAlways (onLine " !X")).2.source_position) ∧
      (next stodAlways (onLine " !X")).2.buffer = ['X'] ∧
      (next stodAlways (onLine " !X")).2.source_position.column = 3 :=
  have h := next_error_advances_one stodAlways (onLine " !X") '!' ['X'] (by decide)
    (by decide) (by decide) (by decide) (by decide) (by decide) (by decide) (by decide)
  ⟨h.1, h.2.1, h.2.2.2.2.2.2.1⟩

/-- C6, the code at the failing input: on the buffer `!` the message of the parse error
is `Unknown symbol at ''`, built from the buffer after the `!` was removed, and the
offending `!` is not in it. -/
theorem next_error_message_lacks_symbol :
    next stodAlways (onLine "!") =
        (.parseError "Unknown symbol at ''".toList ⟨[], 1, 2, 33⟩,
          ⟨[], false, [], ⟨[], 1, 2, 33⟩⟩) ∧
      '!' ∉ "Unknown symbol at ''".toList := by
  decide

/-! ## The checksum -/

theorem next_cases (stodOk : List Char → Bool) (s0 : GCodeDefaultScanner) :
    (finished s0 = true ∧ next stodOk s0 = (.none, s0)) ∨
    (finished s0 = false ∧ (skipWhitespaces s0).buffer = [] ∧
      next stodOk s0 =
        (.token ⟨.NewLine, (next_line (skipWhitespaces s0)).source_position⟩,
          next_line (skipWhitespaces s0))) ∨
    (finished s0 = false ∧ (skipWhitespaces s0).buffer ≠ [] ∧
      ∃ n v, v ≠ .NewLine ∧
        next stodOk s0 =
          (.token ⟨v, (skipWhitespaces s0).source_position⟩, shift (skipWhitespaces s0) n)) ∨
    (finished s0 = false ∧ (skipWhitespaces s0).buffer ≠ [] ∧
      ∃ m, next stodOk s0 =
        (.parseError m (shift (skipWhitespaces s0) 1).source_position,
          shift (skipWhitespaces s0) 1)) ∨
    (finished s0 = false ∧ (skipWhitespaces s0).buffer ≠ [] ∧
      next stodOk s0 = (.outOfRange, skipWhitespaces s0)) := by
  cases hnf : finished s0
  swap
  · exact Or.inl ⟨rfl, next_finished stodOk s0 hnf⟩
  right
  by_cases he : (skipWhitespaces s0).buffer = []
  · exact Or.inl ⟨rfl, he, next_newline stodOk s0 hnf he⟩
  right
  cases hF : match_regex (skipWhitespaces s0).buffer Float with
  | some n =>
    rw [next_float stodOk s0 hnf he n hF]
    cases hs : stodOk ((skipWhitespaces s0).buffer.take n)
    · rw [if_neg (by simp)]
      exact Or.inr (Or.inr ⟨rfl, he, rfl⟩)
    · rw [if_pos rfl]
      exact Or.inl ⟨rfl, he, n, _, by simp, rfl⟩
  | none =>
    cases hI : match_regex (skipWhitespaces s0).buffer Integer with
    | some n =>
      rw [next_integer stodOk s0 hnf he n hF hI]
      cases hst : stoll ((skipWhitespaces s0).buffer.take n) with
      | some v => exact Or.inl ⟨rfl, he, n, _, by simp, rfl⟩
      | none => exact Or.inr (Or.inr ⟨rfl, he, rfl⟩)
    | none =>
      cases hL : match_regex (skipWhitespaces s0).buffer Literal with
      | some n =>
        rw [next_literal stodOk s0 hnf he n hF hI hL]
        refine Or.inl ⟨rfl, he, n, _, ?_, rfl⟩
        cases keywordOf ((skipWhitespaces s0).buffer.take n) <;> simp
      | none =>
        cases hO : match_regex (skipWhitespaces s0).buffer Operator with
        | some n =>
          rw [next_operator stodOk s0 hnf he n hF hI hL hO]
          exact Or.inl ⟨rfl, he, n, _, by simp, rfl⟩
        | none =>
          cases hC : match_regex (skipWhitespaces s0).buffer Comment with
          | some n =>
            rw [next_comment stodOk s0 hnf he n hF hI hL hO (by simp [hC])]
            exact Or.inl ⟨rfl, he, n, _, by simp, rfl⟩
          | none =>
            cases hB : match_regex (skipWhitespaces s0).buffer BracedComment with
            | some n =>
              rw [next_comment stodOk s0 hnf he n hF hI hL hO (by simp [hC, hB])]
              exact Or.inl ⟨rfl, he, n, _, by simp, rfl⟩
            | none =>
              rw [next_error stodOk s0 hnf he hF hI hL hO hC hB]
              exact Or.inr (Or.inl ⟨rfl, he, _, rfl⟩)

theorem xor_mod_256 (a b : Nat) : (a ^^^ b) % 256 = (a % 256) ^^^ (b % 256) := by
  have h : (256 : Nat) = 2 ^ 8 := rfl
  rw [h]
  apply Nat.eq_of_testBit_eq
  intro i
  simp only [Nat.testBit_mod_two_pow, Nat.testBit_xor]
  by_cases hi : i < 8 <;> simp [hi]

theorem foldl_xor_start (a : Nat) (cs : List Char) :
    cs.foldl (fun acc c => acc ^^^ c.toNat) a =
      a ^^^ cs.foldl (fun acc c => acc ^^^ c.toNat) 0 := by
  induction cs generalizing a with
  | nil => simp
  | cons c cs ih =>
    simp only [List.foldl_cons, Nat.zero_xor]
    rw [ih (a ^^^ c.toNat), ih c.toNat, Nat.xor_assoc]

theorem xorChecksum_mod (a : Nat) (cs : List Char) :
    xorChecksum a cs % 256 = cs.foldl (fun acc c => acc ^^^ c.toNat) a % 256 := by
  induction cs generalizing a with
  | nil => simp [xorChecksum]
  | cons c cs ih =>
    have h := ih ((a ^^^ c.toNat) % 256)
    simp only [xorChecksum, List.foldl_cons] at h ⊢
    rw [h, foldl_xor_start ((a ^^^ c.toNat) % 256), foldl_xor_start (a ^^^ c.toNat),
      xor_mod_256, Nat.mod_mod, ← xor_mod_256]

theorem xor8_lt (cs : List Char) : xor8 cs < 256 := Nat.mod_lt _ (by decide)

theorem xorChecksum_xor8 (pre cs : List Char) :
    xorChecksum (xor8 pre) cs = xor8 (pre ++ cs) := by
  have h1 : xorChecksum (xor8 pre) cs % 256 = xorChecksum (xor8 pre) cs :=
    Nat.mod_eq_of_lt (xorChecksum_lt _ _ (xor8_lt pre))
  rw [← h1, xorChecksum_mod]
  unfold xor8
  rw [List.foldl_append, foldl_xor_start (_ % 256),
    foldl_xor_start (List.foldl (fun acc c => acc ^^^ c.toNat) 0 pre), xor_mod_256, Nat.mod_mod,
    ← xor_mod_256]

theorem checksumInv_shift (s : GCodeDefaultScanner) (line : List Char) (n : Nat)
    (h : ChecksumInv ⟨s, line⟩) : ChecksumInv ⟨shift s n, line⟩ := by
  obtain ⟨pre, hl, hc⟩ := h
  simp only at hl hc
  refine ⟨pre ++ s.buffer.take n, ?_, ?_⟩
  · simp only [shift_buffer]
    rw [List.append_assoc, List.take_append_drop]
    exact hl
  · simp only [shift_checksum]
    rw [hc, xorChecksum_xor8]
    exact Nat.mod_eq_of_lt (xor8_lt _)

theorem checksumInv_skipWhitespaces (s : GCodeDefaultScanner) (line : List Char)
    (h : ChecksumInv ⟨s, line⟩) : ChecksumInv ⟨skipWhitespaces s, line⟩ := by
  unfold skipWhitespaces
  split
  · exact checksumInv_shift s line _ h
  · exact h

theorem readsLine_false_of_buffer (s : GCodeDefaultScanner)
    (h : (skipWhitespaces s).buffer ≠ []) : readsLine s = false := by
  simp [readsLine, h]

theorem checksumInv_trackedNext (stodOk : List Char → Bool) (t : Tracked)
    (h : ChecksumInv t) : ChecksumInv (trackedNext stodOk t) := by
  obtain ⟨s0, line⟩ := t
  have hsk := checksumInv_skipWhitespaces s0 line h
  rcases next_cases stodOk s0 with ⟨hf, hn⟩ | ⟨hf, he, hn⟩ | ⟨hf, hne, n, v, -, hn⟩ |
    ⟨hf, hne, m, hn⟩ | ⟨hf, hne, hn⟩
  · have hr : readsLine s0 = false := by simp [readsLine, hf]
    simpa [trackedNext, nextState, hn, hr] using h
  · cases hg : s0.good
    · have hr : readsLine s0 = false := by simp [readsLine, hg]
      have hg1 : (skipWhitespaces s0).good = false := by rw [skipWhitespaces_good, hg]
      obtain ⟨pre, hl, hc⟩ := hsk
      simp only at hl hc
      refine ⟨pre, ?_, ?_⟩
      · simpa [trackedNext, nextState, hn, hr, next_line, hg1, he] using hl
      · simpa [trackedNext, nextState, hn, hr, next_line, hg1] using hc
    · have hr : readsLine s0 = true := by simp [readsLine, hf, he, hg]
      have hg1 : (skipWhitespaces s0).good = true := by rw [skipWhitespaces_good, hg]
      refine ⟨[], ?_, ?_⟩
      · simp [trackedNext, nextState, hn, hr, next_line, hg1, skipWhitespaces_input]
      · simp [trackedNext, nextState, hn, next_line, hg1, SourcePosition.update, xor8]
  · have hr := readsLine_false_of_buffer s0 hne
    have := checksumInv_shift _ line n hsk
    simpa [trackedNext, nextState, hn, hr] using this
  · have hr := readsLine_false_of_buffer s0 hne
    have := checksumInv_shift _ line 1 hsk
    simpa [trackedNext, nextState, hn, hr] using this
  · have hr := readsLine_false_of_buffer s0 hne
    simpa [trackedNext, nextState, hn, hr] using hsk

theorem checksumInv_trackedRun (stodOk : List Char → Bool) (input tag : List Char) (k : Nat) :
    ChecksumInv (trackedRun stodOk input tag k) := by
  induction k with
  | zero => exact ⟨[], by simp [trackedRun, GCodeDefaultScanner.mk0], rfl⟩
  | succ k ih =>
    unfold trackedRun at ih ⊢
    rw [Function.iterate_succ_apply']
    exact checksumInv_trackedNext stodOk _ ih

theorem token_checksum_of_inv (stodOk : List Char → Bool) (t : Tracked) (h : ChecksumInv t)
    (tok : GCodeToken) (htok : (next stodOk t.scanner).1 = .token tok) :
    ∃ pre consumed,
      (trackedNext stodOk t).line = pre ++ consumed ++ (nextState stodOk t.scanner).buffer ∧
      tok.position.checksum = xor8 pre := by
  obtain ⟨s0, line⟩ := t
  have hsk := checksumInv_skipWhitespaces s0 line h
  simp only at htok
  rcases next_cases stodOk s0 with ⟨hf, hn⟩ | ⟨hf, he, hn⟩ | ⟨hf, hne, n, v, -, hn⟩ |
    ⟨hf, hne, m, hn⟩ | ⟨hf, hne, hn⟩
  · rw [hn] at htok
    cases htok
  · obtain ⟨pre, hl, hc⟩ := checksumInv_trackedNext stodOk ⟨s0, line⟩ h
    refine ⟨pre, [], by simpa [trackedNext] using hl, ?_⟩
    rw [hn] at htok
    simp only [Outcome.token.injEq] at htok
    rw [← htok]
    simpa [trackedNext, nextState, hn] using hc
  · obtain ⟨pre, hl, hc⟩ := hsk
    simp only at hl hc
    have hr := readsLine_false_of_buffer s0 hne
    refine ⟨pre, (skipWhitespaces s0).buffer.take n, ?_, ?_⟩
    · simp only [trackedNext, nextState, hn, hr, shift_buffer]
      rw [List.append_assoc, List.take_append_drop]
      simpa using hl
    · rw [hn] at htok
      simp only [Outcome.token.injEq] at htok
      rw [← htok]
      exact hc
  · rw [hn] at htok
    cases htok
  · rw [hn] at htok
    cases htok

/-! ## Words, letters and digit runs at the head of the buffer -/

theorem next_word_shape (stodOk : List Char → Bool) (s0 : GCodeDefaultScanner)
    (a1 a2 : Char) (w rest : List Char)
    (hb : (skipWhitespaces s0).buffer = a1 :: a2 :: w ++ rest)
    (h1 : isAlphaUnderscore a1 = true) (h2 : isAlphaUnderscore a2 = true)
    (hw : ∀ c ∈ w, isWord c = true) (hr : headFails isWord rest) :
    next stodOk s0 =
      (.token ⟨identifierOrKeyword (a1 :: a2 :: w), (skipWhitespaces s0).source_position⟩,
        shift (skipWhitespaces s0) (w.length + 2)) ∧
      (next stodOk s0).2.buffer = rest := by
  have hne : (skipWhitespaces s0).buffer ≠ [] := by simp [hb]
  have hnf := finished_false_of_skip s0 hne
  obtain ⟨hF, hI, hL⟩ := literal_shape a1 a2 w rest h1 h2 hw hr
  rw [← hb] at hF hI hL
  have htake : (skipWhitespaces s0).buffer.take (w.length + 2) = a1 :: a2 :: w := by
    rw [hb]
    exact take_append_length (a1 :: a2 :: w) rest
  have h := next_literal stodOk s0 hnf hne _ hF hI hL
  rw [htake] at h
  have h' : next stodOk s0 =
      (.token ⟨identifierOrKeyword (a1 :: a2 :: w), (skipWhitespaces s0).source_position⟩,
        shift (skipWhitespaces s0) (w.length + 2)) := h
  refine ⟨h', ?_⟩
  rw [h']
  exact shift_buffer_append _ (a1 :: a2 :: w) rest hb

theorem next_letter_shape (stodOk : List Char → Bool) (s0 : GCodeDefaultScanner)
    (c : Char) (rest : List Char) (hb : (skipWhitespaces s0).buffer = c :: rest)
    (hc : isLetter c = true) (hr : headFails isAlphaUnderscore rest) :
    next stodOk s0 =
      (.token ⟨.Operator c.toUpper, (skipWhitespaces s0).source_position⟩,
        shift (skipWhitespaces s0) 1) ∧
      (next stodOk s0).2.buffer = rest := by
  have hne : (skipWhitespaces s0).buffer ≠ [] := by simp [hb]
  have hnf := finished_false_of_skip s0 hne
  obtain ⟨hF, hI, hL, hO⟩ := operator_shape c rest hc hr
  rw [← hb] at hF hI hL hO
  have h := next_operator stodOk s0 hnf hne 1 hF hI hL hO
  have hhead : ((skipWhitespaces s0).buffer.take 1).headD ' ' = c := by simp [hb]
  rw [hhead] at h
  refine ⟨h, ?_⟩
  rw [h]
  exact shift_buffer_append _ [c] rest (by simpa using hb)

theorem next_digits_shape (stodOk : List Char → Bool) (s0 : GCodeDefaultScanner)
    (d rest : List Char) (hb : (skipWhitespaces s0).buffer = d ++ rest) (hd : d ≠ [])
    (hdd : ∀ c ∈ d, isDigit c = true) (hr : headFails isDigit rest)
    (hdot : ∀ c r, rest = '.' :: c :: r → isDigit c = false)
    (hv : decimalValue d < 2 ^ 63) :
    next stodOk s0 =
      (.token ⟨.IntegerConstant (decimalValue d), (skipWhitespaces s0).source_position⟩,
        shift (skipWhitespaces s0) d.length) ∧
      (next stodOk s0).2.buffer = rest := by
  have hne : (skipWhitespaces s0).buffer ≠ [] := by simp [hb, hd]
  have hnf := finished_false_of_skip s0 hne
  obtain ⟨hF, hI⟩ := integer_shape d rest hd hdd hr hdot
  rw [← hb] at hF hI
  have htake : (skipWhitespaces s0).buffer.take d.length = d := by
    rw [hb]
    exact take_append_length d rest
  have h := next_integer stodOk s0 hnf hne _ hF hI
  rw [htake, stoll_of_lt d hv] at h
  refine ⟨h, ?_⟩
  rw [h]
  exact shift_buffer_append _ d rest hb

/-! ## Keywords -/

theorem table_keys_subset_spellings :
    ∀ x ∈ GCodeKeywords.map Prod.fst, x ∈ keywordSpellings.map String.toList := by
  decide

theorem spellings_subset_table_keys :
    ∀ x ∈ keywordSpellings.map String.toList, x ∈ GCodeKeywords.map Prod.fst := by
  decide

theorem keywordOf_table_entry : ∀ p ∈ GCodeKeywords, keywordOf p.1 = some p.2 := by
  decide

theorem keywordOf_eq_some_iff (w : List Char) (k : GCodeKeyword) :
    keywordOf w = some k ↔ (w, k) ∈ GCodeKeywords := by
  constructor
  · intro h
    unfold keywordOf at h
    rw [List.lookup_eq_some_iff] at h
    obtain ⟨l1, l2, hl, -⟩ := h
    rw [hl]
    simp
  · intro h
    exact keywordOf_table_entry (w, k) h

theorem keywordOf_isSome_iff (w : List Char) :
    (∃ k, keywordOf w = some k) ↔ w ∈ keywordSpellings.map String.toList := by
  constructor
  · rintro ⟨k, hk⟩
    have hmem := (keywordOf_eq_some_iff w k).mp hk
    exact table_keys_subset_spellings w (List.mem_map.mpr ⟨(w, k), hmem, rfl⟩)
  · intro h
    obtain ⟨p, hp, hpw⟩ := List.mem_map.mp (spellings_subset_table_keys w h)
    refine ⟨p.2, ?_⟩
    rw [← hpw]
    exact keywordOf_table_entry p hp

/-- C8: when the buffer after the whitespace starts with the maximal run `W` of word
characters and `W` starts with two characters of `[a-zA-Z_]`, `next()` returns a keyword
token if and only if `W` is spelled exactly as one of the 25 spellings, the keyword is
the one the table `GCodeKeywords` pairs with `W`, in every other case the token is the
identifier literal with text `W`, and in both cases exactly `W` is consumed. The
spellings `SUB`, `eq`, `LT3` and `endwhile1` are not in the table. -/
theorem keyword_iff_table_spelling (stodOk : List Char → Bool) (s0 : GCodeDefaultScanner)
    (a1 a2 : Char) (w rest : List Char)
    (hb : (skipWhitespaces s0).buffer = a1 :: a2 :: w ++ rest)
    (h1 : isAlphaUnderscore a1 = true) (h2 : isAlphaUnderscore a2 = true)
    (hw : ∀ c ∈ w, isWord c = true) (hr : headFails isWord rest) :
    ((∃ k, (next stodOk s0).1 =
        .token ⟨.Keyword k, (skipWhitespaces s0).source_position⟩) ↔
      (a1 :: a2 :: w) ∈ keywordSpellings.map String.toList) ∧
    (∀ k, (next stodOk s0).1 =
        .token ⟨.Keyword k, (skipWhitespaces s0).source_position⟩ ↔
      (a1 :: a2 :: w, k) ∈ GCodeKeywords) ∧
    ((a1 :: a2 :: w) ∉ keywordSpellings.map String.toList →
      (next stodOk s0).1 =
        .token ⟨.Literal (a1 :: a2 :: w), (skipWhitespaces s0).source_position⟩) ∧
    (next stodOk s0).2.buffer = rest ∧
    keywordSpellings.length = 25 ∧ GCodeKeywords.length = 25 ∧
    keywordOf "SUB".toList = none ∧ keywordOf "eq".toList = none ∧
    keywordOf "LT3".toList = none ∧ keywordOf "endwhile1".toList = none := by
  obtain ⟨hn, hbuf⟩ := next_word_shape stodOk s0 a1 a2 w rest hb h1 h2 hw hr
  have hkey : ∀ k, (next stodOk s0).1 =
      .token ⟨.Keyword k, (skipWhitespaces s0).source_position⟩ ↔
      keywordOf (a1 :: a2 :: w) = some k := by
    intro k
    rw [hn]
    unfold identifierOrKeyword
    cases hk : keywordOf (a1 :: a2 :: w) <;> simp
  refine ⟨?_, ?_, ?_, hbuf, rfl, rfl, by decide, by decide, by decide, by decide⟩
  · rw [← keywordOf_isSome_iff]
    exact exists_congr hkey
  · intro k
    rw [hkey k, keywordOf_eq_some_iff]
  · intro hnot
    rw [← keywordOf_isSome_iff] at hnot
    have hnone : keywordOf (a1 :: a2 :: w) = none := by
      cases hk : keywordOf (a1 :: a2 :: w) with
      | none => rfl
      | some k => exact absurd ⟨k, hk⟩ hnot
    rw [hn]
    unfold identifierOrKeyword
    rw [hnone]

/-- C8, a witness: `while` followed by a blank is the keyword `While`. -/
theorem keyword_iff_table_spelling_witness :
    (next stodAlways (onLine "while [")).1 = .token ⟨.Keyword .While, ⟨[], 1, 1, 0⟩⟩ :=
  ((keyword_iff_table_spelling stodAlways (onLine "while [") 'w' 'h' "ile".toList " [".toList
    (by decide) (by decide) (by decide) (by decide)
    (headFails_cons _ _ _ (by decide))).2.1 .While).mpr (by decide)

/-! ## Kinds and values do not depend on the position -/

theorem sameText_shift (s s' : GCodeDefaultScanner) (n : Nat) (h : sameText s s') :
    sameText (shift s n) (shift s' n) := by
  obtain ⟨hi, hg, hb⟩ := h
  exact ⟨by rw [shift_input, shift_input, hi], by rw [shift_good, shift_good, hg],
    by rw [shift_buffer, shift_buffer, hb]⟩

theorem sameText_skipWhitespaces (s s' : GCodeDefaultScanner) (h : sameText s s') :
    sameText (skipWhitespaces s) (skipWhitespaces s') := by
  obtain ⟨hi, hg, hb⟩ := h
  exact ⟨by rw [skipWhitespaces_input, skipWhitespaces_input, hi],
    by rw [skipWhitespaces_good, skipWhitespaces_good, hg],
    by rw [skipWhitespaces_buffer, skipWhitespaces_buffer, hb]⟩

theorem sameText_next_line (s s' : GCodeDefaultScanner) (h : sameText s s') :
    sameText (next_line s) (next_line s') := by
  obtain ⟨hi, hg, hb⟩ := h
  unfold next_line
  rw [← hg, ← hi]
  cases s.good <;> simp [sameText]

theorem finished_of_sameText (s s' : GCodeDefaultScanner) (h : sameText s s') :
    finished s = finished s' := by
  obtain ⟨-, hg, hb⟩ := h
  simp [finished, hg, hb]

theorem next_sameText (stodOk : List Char → Bool) (s s' : GCodeDefaultScanner)
    (h : sameText s s') :
    erasePosition (next stodOk s).1 = erasePosition (next stodOk s').1 ∧
      sameText (next stodOk s).2 (next stodOk s').2 := by
  have hfin := finished_of_sameText s s' h
  have hsk := sameText_skipWhitespaces s s' h
  have hbuf : (skipWhitespaces s).buffer = (skipWhitespaces s').buffer := hsk.2.2
  cases hnf : finished s
  swap
  · rw [next_finished stodOk s hnf, next_finished stodOk s' (hfin ▸ hnf)]
    exact ⟨rfl, h⟩
  have hnf' : finished s' = false := hfin ▸ hnf
  by_cases he : (skipWhitespaces s).buffer = []
  · rw [next_newline stodOk s hnf he, next_newline stodOk s' hnf' (hbuf ▸ he)]
    exact ⟨rfl, sameText_next_line _ _ hsk⟩
  have he' : (skipWhitespaces s').buffer ≠ [] := hbuf ▸ he
  cases hF : match_regex (skipWhitespaces s).buffer Float with
  | some n =>
    rw [next_float stodOk s hnf he n hF, next_float stodOk s' hnf' he' n (hbuf ▸ hF), ← hbuf]
    cases stodOk ((skipWhitespaces s).buffer.take n)
    · exact ⟨rfl, hsk⟩
    · exact ⟨rfl, sameText_shift _ _ n hsk⟩
  | none =>
    cases hI : match_regex (skipWhitespaces s).buffer Integer with
    | some n =>
      rw [next_integer stodOk s hnf he n hF hI,
        next_integer stodOk s' hnf' he' n (hbuf ▸ hF) (hbuf ▸ hI), ← hbuf]
      cases stoll ((skipWhitespaces s).buffer.take n)
      · exact ⟨rfl, hsk⟩
      · exact ⟨rfl, sameText_shift _ _ n hsk⟩
    | none =>
      cases hL : match_regex (skipWhitespaces s).buffer Literal with
      | some n =>
        rw [next_literal stodOk s hnf he n hF hI hL,
          next_literal stodOk s' hnf' he' n (hbuf ▸ hF) (hbuf ▸ hI) (hbuf ▸ hL), ← hbuf]
        exact ⟨rfl, sameText_shift _ _ n hsk⟩
      | none =>
        cases hO : match_regex (skipWhitespaces s).buffer Operator with
        | some n =>
          rw [next_operator stodOk s hnf he n hF hI hL hO,
            next_operator stodOk s' hnf' he' n (hbuf ▸ hF) (hbuf ▸ hI) (hbuf ▸ hL)
              (hbuf ▸ hO), ← hbuf]
          exact ⟨rfl, sameText_shift _ _ n hsk⟩
        | none =>
          cases hC : (match_regex (skipWhitespaces s).buffer Comment).orElse
              (fun _ => match_regex (skipWhitespaces s).buffer BracedComment) with
          | some n =>
            rw [next_comment stodOk s hnf he n hF hI hL hO hC,
              next_comment stodOk s' hnf' he' n (hbuf ▸ hF) (hbuf ▸ hI) (hbuf ▸ hL)
                (hbuf ▸ hO) (hbuf ▸ hC), ← hbuf]
            exact ⟨rfl, sameText_shift _ _ n hsk⟩
          | none =>
            have hCn : match_regex (skipWhitespaces s).buffer Comment = none := by
              cases hx : match_regex (skipWhitespaces s).buffer Comment with
              | none => rfl
              | some m => simp [hx] at hC
            have hBn : match_regex (skipWhitespaces s).buffer BracedComment = none := by
              simpa [hCn] using hC
            rw [next_error stodOk s hnf he hF hI hL hO hCn hBn,
              next_error stodOk s' hnf' he' (hbuf ▸ hF) (hbuf ▸ hI) (hbuf ▸ hL) (hbuf ▸ hO)
                (hbuf ▸ hCn) (hbuf ▸ hBn)]
            have hs1 := sameText_shift _ _ 1 hsk
            refine ⟨?_, hs1⟩
            simp only [erasePosition]
            rw [hs1.2.2]

theorem scan_succ_none (stodOk : List Char → Bool) (k : Nat) (s s1 : GCodeDefaultScanner)
    (h : next stodOk s = (.none, s1)) : scan stodOk (k + 1) s = [.none] := by
  rw [scan, h]

theorem scan_succ_cons (stodOk : List Char → Bool) (k : Nat) (s s1 : GCodeDefaultScanner)
    (o : Outcome) (h : next stodOk s = (o, s1)) (ho : o ≠ .none) :
    scan stodOk (k + 1) s = o :: scan stodOk k s1 := by
  conv_lhs => rw [scan]
  rw [h]
  cases o with
  | none => exact absurd rfl ho
  | token t => rfl
  | parseError m p => rfl
  | outOfRange => rfl

theorem erasePosition_eq_none (o : Outcome) : erasePosition o = .none ↔ o = .none := by
  cases o <;> simp [erasePosition]

theorem scan_sameText (stodOk : List Char → Bool) (k : Nat) (s s' : GCodeDefaultScanner)
    (h : sameText s s') :
    (scan stodOk k s).map erasePosition = (scan stodOk k s').map erasePosition := by
  induction k generalizing s s' with
  | zero => rfl
  | succ k ih =>
    obtain ⟨ho, hs⟩ := next_sameText stodOk s s' h
    rcases hn : next stodOk s with ⟨o, s1⟩
    rcases hn' : next stodOk s' with ⟨o', s1'⟩
    rw [hn, hn'] at ho
    rw [hn, hn'] at hs
    simp only at ho hs
    by_cases hnone : o = .none
    · have hnone' : o' = .none := by
        rw [← erasePosition_eq_none, ← ho, erasePosition_eq_none]
        exact hnone
      subst hnone
      subst hnone'
      rw [scan_succ_none stodOk k s s1 hn, scan_succ_none stodOk k s' s1' hn']
    · have hnone' : o' ≠ .none := by
        intro hx
        apply hnone
        rw [← erasePosition_eq_none, ho, erasePosition_eq_none]
        exact hx
      rw [scan_succ_cons stodOk k s s1 o hn hnone,
        scan_succ_cons stodOk k s' s1' o' hn' hnone', List.map_cons, List.map_cons, ho,
        ih s1 s1' hs]

/-! ## Operators -/

set_option maxRecDepth 100000 in
theorem upperFacts_ascii : ∀ n : Fin 128, upperFacts (Char.ofNat n) = true := by
  decide

theorem toUpper_range (c : Char) (h : isLetter c = true) : 'A' ≤ c.toUpper ∧ c.toUpper ≤ 'Z' := by
  have := ascii_cases upperFacts upperFacts_ascii
    (fun c hc => by simp [upperFacts, isLetter_big c hc]) c
  simpa [upperFacts, h] using this

/-- C9: the operator rule is case-insensitive and the token is normalised to upper case.
For a letter `c` that no letter or underscore follows, `next()` returns the operator
token whose character is the upper-case form of `c`, a letter of `[A-Z]`, and consumes
exactly `c`. So for two states over the same stream whose buffers after the whitespace
are `c :: rest` and `c' :: rest`, with `c'` the letter `c` in either case, the two scans
return the same sequence of token kinds and values (everything but the positions), for
every number of calls; `g1 x10` and `G1 X10` are an instance. -/
theorem operator_case_insensitive (stodOk : List Char → Bool)
    (s0 s0' : GCodeDefaultScanner) (c c' : Char) (rest : List Char)
    (hin : s0.input = s0'.input) (hg : s0.good = s0'.good)
    (hb : (skipWhitespaces s0).buffer = c :: rest)
    (hb' : (skipWhitespaces s0').buffer = c' :: rest)
    (hc : isLetter c = true) (hc' : isLetter c' = true) (hcase : c'.toUpper = c.toUpper)
    (hr : headFails isAlphaUnderscore rest) :
    (next stodOk s0).1 =
        .token ⟨.Operator c.toUpper, (skipWhitespaces s0).source_position⟩ ∧
      (next stodOk s0).2.buffer = rest ∧
      (next stodOk s0').1 =
        .token ⟨.Operator c.toUpper, (skipWhitespaces s0').source_position⟩ ∧
      (next stodOk s0').2.buffer = rest ∧
      ('A' ≤ c.toUpper ∧ c.toUpper ≤ 'Z') ∧
      (∀ k, (scan stodOk k s0).map erasePosition = (scan stodOk k s0').map erasePosition) ∧
      (scan stodAlways 8 (GCodeDefaultScanner.mk0 "g1 x10".toList [])).map erasePosition =
        (scan stodAlways 8 (GCodeDefaultScanner.mk0 "G1 X10".toList [])).map erasePosition := by
  obtain ⟨hn, hbuf⟩ := next_letter_shape stodOk s0 c rest hb hc hr
  obtain ⟨hn', hbuf'⟩ := next_letter_shape stodOk s0' c' rest hb' hc' hr
  rw [hcase] at hn'
  refine ⟨by rw [hn], hbuf, by rw [hn'], hbuf', toUpper_range c hc, ?_, by decide⟩
  intro k
  cases k with
  | zero => rfl
  | succ k =>
    rw [scan_succ_cons stodOk k s0 _ _ hn (by simp),
      scan_succ_cons stodOk k s0' _ _ hn' (by simp), List.map_cons, List.map_cons]
    congr 1
    apply scan_sameText
    refine ⟨?_, ?_, ?_⟩
    · rw [shift_input, shift_input, skipWhitespaces_input, skipWhitespaces_input, hin]
    · rw [shift_good, shift_good, skipWhitespaces_good, skipWhitespaces_good, hg]
    · rw [hn] at hbuf
      rw [hn'] at hbuf'
      exact hbuf.trans hbuf'.symm

/-- C9, a witness: `g1` and `G1` both start with the operator token `G`. -/
theorem operator_case_insensitive_witness :
    (next stodAlways (onLine "g1")).1 = .token ⟨.Operator 'G', ⟨[], 1, 1, 0⟩⟩ ∧
      (next stodAlways (onLine "G1")).1 = .token ⟨.Operator 'G', ⟨[], 1, 1, 0⟩⟩ :=
  have h := operator_case_insensitive stodAlways (onLine "g1") (onLine "G1") 'g' 'G' ['1']
    rfl rfl (by decide) (by decide) (by decide) (by decide) (by decide)
    (headFails_cons _ _ _ (by decide))
  ⟨h.1, h.2.2.1⟩

/-! ## Numeric literals -/

theorem foldl_decimal (a : Nat) (ds : List Char) :
    ds.foldl (fun acc c => 10 * acc + (c.toNat - '0'.toNat)) a =
      a * 10 ^ ds.length + Nat.ofDigits 10 (ds.map digitValue).reverse := by
  induction ds generalizing a with
  | nil => simp
  | cons c cs ih =>
    simp only [List.foldl_cons, List.map_cons, List.reverse_cons, List.length_cons]
    rw [ih, Nat.ofDigits_append, Nat.ofDigits_singleton]
    simp only [List.length_reverse, List.length_map, digitValue]
    ring

theorem decimalValue_eq_base10Value (ds : List Char) : decimalValue ds = base10Value ds := by
  unfold decimalValue base10Value
  rw [foldl_decimal]
  simp

theorem base10Value_leading_zero (ds : List Char) : base10Value ('0' :: ds) = base10Value ds := by
  rw [← decimalValue_eq_base10Value, ← decimalValue_eq_base10Value]
  simp [decimalValue]

theorem literal_none_of_head (c : Char) (cs : List Char) (h : isAlphaUnderscore c = false) :
    match_regex (c :: cs) Literal = none := by
  rw [match_Literal, takeWhile_length_zero_of_head isAlphaUnderscore c cs h]
  simp

theorem next_sign (stodOk : List Char → Bool) (s : GCodeDefaultScanner) (sign : Char)
    (rest : List Char) (hb : (skipWhitespaces s).buffer = sign :: rest)
    (hs : sign = '-' ∨ sign = '+') :
    (next stodOk s).1 = .token ⟨.Operator sign, (skipWhitespaces s).source_position⟩ ∧
      (next stodOk s).2.buffer = rest := by
  have hne : (skipWhitespaces s).buffer ≠ [] := by simp [hb]
  have hnf := finished_false_of_skip s hne
  have hfacts : isDigit sign = false ∧ isAlphaUnderscore sign = false ∧
      isOperatorChar sign = true ∧ sign.toUpper = sign := by
    rcases hs with rfl | rfl <;> decide
  obtain ⟨h1, h2, h3, h4⟩ := hfacts
  have hF := float_none_of_head sign rest h1
  have hI := integer_none_of_head sign rest h1
  have hL := literal_none_of_head sign rest h2
  have hO : match_regex (sign :: rest) Operator = some 1 := by
    rw [match_Operator]
    simp [h3]
  rw [← hb] at hF hI hL hO
  have h := next_operator stodOk s hnf hne 1 hF hI hL hO
  have hhead : ((skipWhitespaces s).buffer.take 1).headD ' ' = sign := by simp [hb]
  rw [hhead, h4] at h
  rw [h]
  exact ⟨rfl, shift_buffer_append _ [sign] rest (by simpa using hb)⟩

theorem floatTail_eq_some (r' : List Char) (m : Nat) (h : floatTail r' = some m) :
    ∃ r, r' = '.' :: r ∧ m = (r.takeWhile isDigit).length + 1 := by
  cases r' with
  | nil => simp [floatTail] at h
  | cons x xs =>
    by_cases hx : x = '.'
    · subst hx
      refine ⟨xs, rfl, ?_⟩
      simp only [floatTail] at h
      split at h
      · simpa using h.symm
      · cases h
    · rw [floatTail_cons_ne x xs hx] at h
      cases h

theorem float_match_chars (b : List Char) (n : Nat) (h : match_regex b Float = some n) :
    ∀ c ∈ b.take n, isDigit c = true ∨ c = '.' := by
  rw [match_Float] at h
  split at h
  swap
  · cases h
  cases hft : floatTail (b.dropWhile isDigit) with
  | none => simp [hft] at h
  | some m =>
    obtain ⟨r, hr, hm⟩ := floatTail_eq_some _ m hft
    simp only [hft, Option.map_some', Option.some.injEq] at h
    have hbeq : b = b.takeWhile isDigit ++ '.' :: (r.takeWhile isDigit ++ r.dropWhile isDigit) := by
      rw [List.takeWhile_append_dropWhile, ← hr, List.takeWhile_append_dropWhile]
    have htake : b.take n =
        b.takeWhile isDigit ++ '.' :: r.takeWhile isDigit := by
      have hlen : n = (b.takeWhile isDigit ++ '.' :: r.takeWhile isDigit).length := by
        simp only [List.length_append, List.length_cons]
        omega
      have h2 : b = (b.takeWhile isDigit ++ '.' :: r.takeWhile isDigit) ++ r.dropWhile isDigit := by
        rw [List.append_assoc, List.cons_append]
        exact hbeq
      have h3 := take_append_length (b.takeWhile isDigit ++ '.' :: r.takeWhile isDigit)
        (r.dropWhile isDigit)
      rw [← h2, ← hlen] at h3
      exact h3
    intro c hc
    rw [htake] at hc
    simp only [List.mem_append, List.mem_cons] at hc
    rcases hc with hc | hc | hc
    · exact Or.inl (List.mem_takeWhile_imp hc)
    · exact Or.inr hc
    · exact Or.inl (List.mem_takeWhile_imp hc)

theorem next_numeric_token (stodOk : List Char → Bool) (s : GCodeDefaultScanner)
    (tok : GCodeToken) (h : (next stodOk s).1 = .token tok) :
    (∀ v, tok.value = .IntegerConstant v → 0 ≤ v ∧ v < 2 ^ 63) ∧
      (∀ text, tok.value = .FloatConstant text → ∀ c ∈ text, isDigit c = true ∨ c = '.') := by
  cases hnf : finished s
  swap
  · rw [next_finished stodOk s hnf] at h
    cases h
  by_cases he : (skipWhitespaces s).buffer = []
  · rw [next_newline stodOk s hnf he] at h
    simp only [Outcome.token.injEq] at h
    subst h
    exact ⟨fun v hv => (by cases hv), fun t ht => (by cases ht)⟩
  cases hF : match_regex (skipWhitespaces s).buffer Float with
  | some n =>
    rw [next_float stodOk s hnf he n hF] at h
    split at h
    · simp only [Outcome.token.injEq] at h
      subst h
      refine ⟨fun v hv => (by cases hv), fun t ht => ?_⟩
      simp only [TokenValue.FloatConstant.injEq] at ht
      subst ht
      exact float_match_chars _ n hF
    · cases h
  | none =>
    cases hI : match_regex (skipWhitespaces s).buffer Integer with
    | some n =>
      rw [next_integer stodOk s hnf he n hF hI] at h
      unfold stoll at h
      split at h
      · rename_i v hst
        split at hst
        · rename_i hlt
          simp only [Option.some.injEq] at hst
          simp only [Outcome.token.injEq] at h
          subst h
          refine ⟨fun v' hv' => ?_, fun t ht => (by cases ht)⟩
          simp only [TokenValue.IntegerConstant.injEq] at hv'
          subst hv'
          subst hst
          exact ⟨Int.natCast_nonneg _, by exact_mod_cast hlt⟩
        · cases hst
      · cases h
    | none =>
      cases hL : match_regex (skipWhitespaces s).buffer Literal with
      | some n =>
        rw [next_literal stodOk s hnf he n hF hI hL] at h
        simp only [Outcome.token.injEq] at h
        subst h
        constructor
        · intro v hv
          simp only at hv
          split at hv <;> cases hv
        · intro t ht
          simp only at ht
          split at ht <;> cases ht
      | none =>
        cases hO : match_regex (skipWhitespaces s).buffer Operator with
        | some n =>
          rw [next_operator stodOk s hnf he n hF hI hL hO] at h
          simp only [Outcome.token.injEq] at h
          subst h
          exact ⟨fun v hv => (by cases hv), fun t ht => (by cases ht)⟩
        | none =>
          cases hC : (match_regex (skipWhitespaces s).buffer Comment).orElse
              (fun _ => match_regex (skipWhitespaces s).buffer BracedComment) with
          | some n =>
            rw [next_comment stodOk s hnf he n hF hI hL hO hC] at h
            simp only [Outcome.token.injEq] at h
            subst h
            exact ⟨fun v hv => (by cases hv), fun t ht => (by cases ht)⟩
          | none =>
            have hCn : match_regex (skipWhitespaces s).buffer Comment = none := by
              cases hx : match_regex (skipWhitespaces s).buffer Comment with
              | none => rfl
              | some m => simp [hx] at hC
            have hBn : match_regex (skipWhitespaces s).buffer BracedComment = none := by
              simpa [hCn] using hC
            rw [next_error stodOk s hnf he hF hI hL hO hCn hBn] at h
            cases h

/-- C10: for a non-empty decimal digit string `d` at the head of the buffer (after the
whitespace) that is the whole digit run, is not followed by `.` and a digit, and whose
base-10 value is below `2^63`, `next()` returns the integer token whose value is the
base-10 value of `d` and consumes exactly `d`; leading zeros do not change the value. A
`-` or `+` at the head of the buffer is returned as an operator token of one character,
never as part of a literal, and every numeric token of the scanner is non-negative: an
integer value lies in `[0, 2^63)` and a float text consists of digits and `.` only. -/
theorem integer_literal_value (stodOk : List Char → Bool) (s0 : GCodeDefaultScanner)
    (d rest : List Char) (hb : (skipWhitespaces s0).buffer = d ++ rest) (hd : d ≠ [])
    (hdd : ∀ c ∈ d, isDigit c = true) (hr : headFails isDigit rest)
    (hdot : ∀ c r, rest = '.' :: c :: r → isDigit c = false)
    (hv : base10Value d < 2 ^ 63) :
    (next stodOk s0).1 =
        .token ⟨.IntegerConstant (base10Value d), (skipWhitespaces s0).source_position⟩ ∧
      (next stodOk s0).2.buffer = rest ∧
      base10Value ('0' :: d) = base10Value d ∧
      (∀ s sign rest', (skipWhitespaces s).buffer = sign :: rest' →
        (sign = '-' ∨ sign = '+') →
        (next stodOk s).1 = .token ⟨.Operator sign, (skipWhitespaces s).source_position⟩ ∧
        (next stodOk s).2.buffer = rest') ∧
      (∀ s tok, (next stodOk s).1 = .token tok →
        (∀ v, tok.value = .IntegerConstant v → 0 ≤ v ∧ v < 2 ^ 63) ∧
        (∀ text, tok.value = .FloatConstant text →
          ∀ c ∈ text, isDigit c = true ∨ c = '.')) := by
  rw [← decimalValue_eq_base10Value] at hv
  obtain ⟨hn, hbuf⟩ := next_digits_shape stodOk s0 d rest hb hd hdd hr hdot hv
  refine ⟨?_, hbuf, base10Value_leading_zero d, ?_, ?_⟩
  · rw [hn, decimalValue_eq_base10Value]
  · intro s sign rest' hb' hs
    exact next_sign stodOk s sign rest' hb' hs
  · intro s tok htok
    exact next_numeric_token stodOk s tok htok

/-- C10, a witness: on `007 -5` the call returns the integer 7 and leaves ` -5`. -/
theorem integer_literal_value_witness :
    (next stodAlways (onLine "007 -5")).1 = .token ⟨.IntegerConstant 7, ⟨[], 1, 1, 0⟩⟩ ∧
      (next stodAlways (onLine "007 -5")).2.buffer = " -5".toList :=
  have h := integer_literal_value stodAlways (onLine "007 -5") "007".toList " -5".toList
    (by decide) (by decide) (by decide) (headFails_cons _ _ _ (by decide))
    (fun c r hcr => by cases hcr) (by decide)
  ⟨h.1, h.2.1⟩

/-! ## The comment patterns -/

theorem matchPieces_le_length (a : Bool) (ps : List Piece) :
    ∀ (s : List Char) (m : Nat), matchPieces a ps s = some m → m ≤ s.length := by
  induction ps with
  | nil =>
    intro s m h
    rw [matchPieces.eq_1] at h
    split at h
    · split at h
      · simp only [Option.some.injEq] at h
        omega
      · cases h
    · simp only [Option.some.injEq] at h
      omega
  | cons p ps ih =>
    obtain ⟨cls, q⟩ := p
    cases q with
    | one =>
      intro s m h
      cases s with
      | nil => simp [matchPieces] at h
      | cons c cs =>
        rw [matchPieces.eq_3] at h
        split at h
        · cases hk : matchPieces a ps cs with
          | none => simp [hk] at h
          | some m' =>
            simp only [hk, Option.some.injEq] at h
            have := ih cs m' hk
            simp only [List.length_cons]
            omega
        · cases h
    | atLeast n =>
      intro s
      rw [matchPieces.eq_4]
      induction s generalizing n with
      | nil =>
        intro m h
        simp only [greedyRun] at h
        split at h
        · exact ih [] m h
        · cases h
      | cons c cs ihs =>
        intro m h
        simp only [greedyRun] at h
        split at h
        · cases hg : greedyRun cls (matchPieces a ps) (n - 1) cs with
          | some m' =>
            simp only [hg, Option.some.injEq] at h
            have := ihs (n - 1) m' hg
            simp only [List.length_cons]
            omega
          | none =>
            simp only [hg] at h
            split at h
            · exact ih (c :: cs) m h
            · cases h
        · split at h
          · exact ih (c :: cs) m h
          · cases h

theorem match_regex_le_length (s : List Char) (r : Regex) (m : Nat)
    (h : match_regex s r = some m) : m ≤ s.length :=
  matchPieces_le_length r.anchorEnd r.pieces s m h

theorem matchPieces_endAnchor : matchPieces true [] =
    fun s => if s.isEmpty then some 0 else none := by
  funext s
  simp [matchPieces]

theorem comment_none_of_head (c : Char) (r : List Char) (h : c ≠ ';') :
    match_regex (c :: r) Comment = none := by
  have hb : (c == ';') = false := by simpa using h
  simp [match_regex, Comment, matchPieces.eq_3, hb]

theorem match_Comment_cons (r : List Char) :
    match_regex (';' :: r) Comment =
      if r.dropWhile isAnyButNewline = [] then some (r.length + 1) else none := by
  simp only [match_regex, Comment, matchPieces.eq_3, matchPieces.eq_4, beq_self_eq_true,
    if_true]
  rw [greedyRun_of_fail isAnyButNewline _ (fun c cs _ => by simp [matchPieces]) r 0]
  simp only [Nat.zero_le, if_true]
  by_cases hd : r.dropWhile isAnyButNewline = []
  · have hall : r.takeWhile isAnyButNewline = r := by
      have h1 := List.takeWhile_append_dropWhile isAnyButNewline r
      rw [hd, List.append_nil] at h1
      exact h1
    simp [hd, hall, matchPieces]
  · have hk : matchPieces true [] (r.dropWhile isAnyButNewline) = none := by
      cases hx : r.dropWhile isAnyButNewline with
      | nil => exact absurd hx hd
      | cons x xs => simp [matchPieces]
    simp [hd, hk]

theorem dropWhile_eq_nil_of_all (cls : Char → Bool) (r : List Char)
    (h : ∀ x ∈ r, cls x = true) : r.dropWhile cls = [] := by
  have := dropWhile_append_of_run cls r [] h (by intro c hc; simp at hc)
  simpa using this

theorem comment_match (r : List Char) (h : ∀ x ∈ r, isAnyButNewline x = true) :
    match_regex (';' :: r) Comment = some (r.length + 1) := by
  rw [match_Comment_cons, dropWhile_eq_nil_of_all _ r h]
  simp

theorem comment_none_of_terminator (r : List Char) (x : Char) (hx : x ∈ r)
    (hterm : isAnyButNewline x = false) : match_regex (';' :: r) Comment = none := by
  rw [match_Comment_cons]
  have hd : r.dropWhile isAnyButNewline ≠ [] := by
    intro hd
    have hall : r.takeWhile isAnyButNewline = r := by
      have h1 := List.takeWhile_append_dropWhile isAnyButNewline r
      rw [hd, List.append_nil] at h1
      exact h1
    rw [← hall] at hx
    have := List.mem_takeWhile_imp hx
    rw [hterm] at this
    cases this
  simp [hd]

theorem braced_none_of_head (c : Char) (r : List Char) (h : c ≠ '(') :
    match_regex (c :: r) BracedComment = none := by
  have hb : (c == '(') = false := by simpa using h
  simp [match_regex, BracedComment, matchPieces.eq_3, hb]

theorem match_BracedComment_cons (r : List Char) :
    match_regex ('(' :: r) BracedComment =
      match r.dropWhile isNotClosingParen with
      | [] => none
      | _ :: _ => some ((r.takeWhile isNotClosingParen).length + 2) := by
  have hk : ∀ d : List Char, matchPieces false [⟨fun c => c == ')', .one⟩] d =
      match d with
      | [] => none
      | c :: _ => if c == ')' then some 1 else none := by
    intro d
    cases d with
    | nil => simp [matchPieces]
    | cons c cs => simp [matchPieces]
  simp only [match_regex, BracedComment, matchPieces.eq_3, matchPieces.eq_4, beq_self_eq_true,
    if_true]
  rw [greedyRun_of_fail isNotClosingParen _ ?_ r 0]
  · simp only [Nat.zero_le, if_true, hk]
    cases hd : r.dropWhile isNotClosingParen with
    | nil => simp
    | cons x xs =>
      have hx : isNotClosingParen x = false := by
        have := List.head_dropWhile_not isNotClosingParen r (by simp [hd])
        simpa [hd] using this
      have hx' : (x == ')') = true := by
        simpa [isNotClosingParen] using hx
      simp only [hx', if_true, Option.map_some', Option.some.injEq]
      omega
  · intro c cs hc
    have hc' : (c == ')') = false := by simpa [isNotClosingParen] using hc
    simp [hk, hc']

theorem braced_match (body rest : List Char) (h : ∀ x ∈ body, isNotClosingParen x = true) :
    match_regex ('(' :: (body ++ ')' :: rest)) BracedComment = some (body.length + 2) := by
  have hr : headFails isNotClosingParen (')' :: rest) := headFails_cons _ _ _ (by decide)
  rw [match_BracedComment_cons, dropWhile_append_of_run _ body _ h hr,
    takeWhile_append_of_run _ body _ h hr]

theorem braced_none (r : List Char) (h : ∀ x ∈ r, isNotClosingParen x = true) :
    match_regex ('(' :: r) BracedComment = none := by
  rw [match_BracedComment_cons, dropWhile_eq_nil_of_all _ r h]

/-! ## Comments -/

theorem next_line_comment (stodOk : List Char → Bool) (s0 : GCodeDefaultScanner)
    (r : List Char) (hb : (skipWhitespaces s0).buffer = ';' :: r)
    (hr : ∀ x ∈ r, isAnyButNewline x = true) :
    next stodOk s0 =
      (.token ⟨.Comment (';' :: r), (skipWhitespaces s0).source_position⟩,
        shift (skipWhitespaces s0) (r.length + 1)) ∧
      (next stodOk s0).2.buffer = [] := by
  have hne : (skipWhitespaces s0).buffer ≠ [] := by simp [hb]
  have hnf := finished_false_of_skip s0 hne
  have hF := float_none_of_head ';' r (by decide)
  have hI := integer_none_of_head ';' r (by decide)
  have hL := literal_none_of_head ';' r (by decide)
  have hO : match_regex (';' :: r) Operator = none := by
    rw [match_Operator]
    rfl
  have hC := comment_match r hr
  rw [← hb] at hF hI hL hO hC
  have h := next_comment stodOk s0 hnf hne (r.length + 1) hF hI hL hO (by simp [hC])
  have htake : (skipWhitespaces s0).buffer.take (r.length + 1) = ';' :: r := by
    rw [hb]
    simp
  rw [htake] at h
  refine ⟨h, ?_⟩
  rw [h]
  have := shift_buffer_append (skipWhitespaces s0) (';' :: r) [] (by simp [hb])
  simpa using this

theorem next_braced_comment (stodOk : List Char → Bool) (s0 : GCodeDefaultScanner)
    (body rest : List Char) (hb : (skipWhitespaces s0).buffer = '(' :: (body ++ ')' :: rest))
    (hbody : ∀ x ∈ body, isNotClosingParen x = true) :
    next stodOk s0 =
      (.token ⟨.Comment ('(' :: (body ++ [')'])), (skipWhitespaces s0).source_position⟩,
        shift (skipWhitespaces s0) (body.length + 2)) ∧
      (next stodOk s0).2.buffer = rest := by
  have hne : (skipWhitespaces s0).buffer ≠ [] := by simp [hb]
  have hnf := finished_false_of_skip s0 hne
  have hF := float_none_of_head '(' (body ++ ')' :: rest) (by decide)
  have hI := integer_none_of_head '(' (body ++ ')' :: rest) (by decide)
  have hL := literal_none_of_head '(' (body ++ ')' :: rest) (by decide)
  have hO : match_regex ('(' :: (body ++ ')' :: rest)) Operator = none := by
    rw [match_Operator]
    rfl
  have hC := comment_none_of_head '(' (body ++ ')' :: rest) (by decide)
  have hB := braced_match body rest hbody
  rw [← hb] at hF hI hL hO hC hB
  have h := next_comment stodOk s0 hnf hne (body.length + 2) hF hI hL hO (by simp [hC, hB])
  have hsplit : (skipWhitespaces s0).buffer = ('(' :: (body ++ [')'])) ++ rest := by
    rw [hb]
    simp
  have hlen : ('(' :: (body ++ [')'])).length = body.length + 2 := by simp
  have htake : (skipWhitespaces s0).buffer.take (body.length + 2) = '(' :: (body ++ [')']) := by
    rw [hsplit, ← hlen]
    exact take_append_length _ _
  rw [htake] at h
  refine ⟨h, ?_⟩
  rw [h, ← hlen]
  exact shift_buffer_append (skipWhitespaces s0) _ rest hsplit

theorem next_unclosed_paren (stodOk : List Char → Bool) (s0 : GCodeDefaultScanner)
    (r : List Char) (hb : (skipWhitespaces s0).buffer = '(' :: r)
    (hr : ∀ x ∈ r, isNotClosingParen x = true) :
    next stodOk s0 =
      (.parseError ("Unknown symbol at '".toList ++ r ++ ['\''])
          (shift (skipWhitespaces s0) 1).source_position,
        shift (skipWhitespaces s0) 1) ∧
      (next stodOk s0).2.buffer = r := by
  have hne : (skipWhitespaces s0).buffer ≠ [] := by simp [hb]
  have hnf := finished_false_of_skip s0 hne
  have hF := float_none_of_head '(' r (by decide)
  have hI := integer_none_of_head '(' r (by decide)
  have hL := literal_none_of_head '(' r (by decide)
  have hO : match_regex ('(' :: r) Operator = none := by
    rw [match_Operator]
    rfl
  have hC := comment_none_of_head '(' r (by decide)
  have hB := braced_none r hr
  rw [← hb] at hF hI hL hO hC hB
  have h := next_error stodOk s0 hnf hne hF hI hL hO hC hB
  have hbuf : (shift (skipWhitespaces s0) 1).buffer = r := by
    simp [shift_buffer, hb]
  rw [hbuf] at h
  refine ⟨h, ?_⟩
  rw [h]
  exact hbuf

/-- C11, the counterexample: in the scan of the unterminated line `;c` the comment token
is followed by the empty optional, not by a `NewLine`; and on the buffer `;c` followed by
a carriage return `next()` returns no comment token but raises a parse error. -/
theorem scan_line_comment_last_line :
    scan stodAlways 4 (GCodeDefaultScanner.mk0 ";c".toList []) =
        [ .token ⟨.NewLine, ⟨[], 1, 1, 0⟩⟩,
          .token ⟨.Comment ";c".toList, ⟨[], 1, 1, 0⟩⟩,
          .none ] ∧
      (next stodAlways (onLine ";c\r")).1 =
        .parseError "Unknown symbol at 'c\r'".toList ⟨[], 1, 2, 59⟩ := by
  decide

/-- C11 (amended): for every buffer that starts with `;` and holds no line terminator
(no carriage return), `next()` returns one comment token whose text is the whole rest of
the line and leaves the buffer empty, so the following call returns the `NewLine` when
the stream is good and the empty optional at the end of the input. For every buffer that
starts with `(` and has a `)` later on the line, `next()` returns one comment token
whose text runs from the `(` through the first `)` (no other `)` is in it) and leaves
what follows that `)`. A `(` with no `)` after it on the line raises a parse error. -/
theorem comment_delimiters (stodOk : List Char → Bool) (s0 : GCodeDefaultScanner) :
    (∀ r, (skipWhitespaces s0).buffer = ';' :: r → (∀ x ∈ r, x ≠ '\r' ∧ x ≠ '\n') →
      (next stodOk s0).1 =
        .token ⟨.Comment (';' :: r), (skipWhitespaces s0).source_position⟩ ∧
      (next stodOk s0).2.buffer = [] ∧
      (s0.good = true →
        ∃ pos, (next stodOk (next stodOk s0).2).1 = .token ⟨.NewLine, pos⟩) ∧
      (s0.good = false → (next stodOk (next stodOk s0).2).1 = .none)) ∧
    (∀ body rest, (skipWhitespaces s0).buffer = '(' :: (body ++ ')' :: rest) →
      (∀ x ∈ body, x ≠ ')') →
      (next stodOk s0).1 =
        .token ⟨.Comment ('(' :: (body ++ [')'])), (skipWhitespaces s0).source_position⟩ ∧
      (next stodOk s0).2.buffer = rest) ∧
    (∀ r, (skipWhitespaces s0).buffer = '(' :: r → (∀ x ∈ r, x ≠ ')') →
      (∃ m p, (next stodOk s0).1 = .parseError m p) ∧ (next stodOk s0).2.buffer = r) := by
  refine ⟨?_, ?_, ?_⟩
  · intro r hb hr
    obtain ⟨hn, hbuf⟩ := next_line_comment stodOk s0 r hb
      (fun x hx => by simp [isAnyButNewline, (hr x hx).1, (hr x hx).2])
    have hgood : (next stodOk s0).2.good = s0.good := by
      rw [hn]
      simp only
      rw [shift_good, skipWhitespaces_good]
    refine ⟨by rw [hn], hbuf, ?_, ?_⟩
    · intro hg
      have hnf : finished (next stodOk s0).2 = false := by
        simp [finished, hgood, hg]
      have he : (skipWhitespaces (next stodOk s0).2).buffer = [] := by
        rw [skipWhitespaces_buffer, hbuf]
        rfl
      exact ⟨_, by rw [next_newline stodOk _ hnf he]⟩
    · intro hg
      rw [next_finished stodOk _ (by simp [finished, hgood, hg, hbuf])]
  · intro body rest hb hbody
    obtain ⟨hn, hbuf⟩ := next_braced_comment stodOk s0 body rest hb
      (fun x hx => by simp [isNotClosingParen, hbody x hx])
    exact ⟨by rw [hn], hbuf⟩
  · intro r hb hr
    obtain ⟨hn, hbuf⟩ := next_unclosed_paren stodOk s0 r hb
      (fun x hx => by simp [isNotClosingParen, hr x hx])
    exact ⟨⟨_, _, by rw [hn]⟩, hbuf⟩

/-- C11, a witness: on `(a)b)` the comment is `(a)` and `b)` is left. -/
theorem comment_delimiters_witness :
    (next stodAlways (onLine "(a)b)")).1 = .token ⟨.Comment "(a)".toList, ⟨[], 1, 1, 0⟩⟩ ∧
      (next stodAlways (onLine "(a)b)")).2.buffer = "b)".toList :=
  (comment_delimiters stodAlways (onLine "(a)b)")).2.1 ['a'] "b)".toList (by decide)
    (by decide)

/-! ## Line endings and leading whitespace -/

/-- C12, the code at the failing input: the line `G1 ;c` scans to `G`, `1` and the
comment `;c`, and the same line with a carriage return before the line feed scans to `G`,
`1`, a parse error at the `;` and the operator `C`. -/
theorem scan_crlf_line_comment :
    (scan stodAlways 6 (GCodeDefaultScanner.mk0 "G1 ;c\n".toList [])).map erasePosition =
        [ .token ⟨.NewLine, noPosition⟩, .token ⟨.Operator 'G', noPosition⟩,
          .token ⟨.IntegerConstant 1, noPosition⟩, .token ⟨.Comment ";c".toList, noPosition⟩,
          .token ⟨.NewLine, noPosition⟩, .none ] ∧
      (scan stodAlways 7 (GCodeDefaultScanner.mk0 "G1 ;c\r\n".toList [])).map erasePosition =
        [ .token ⟨.NewLine, noPosition⟩, .token ⟨.Operator 'G', noPosition⟩,
          .token ⟨.IntegerConstant 1, noPosition⟩,
          .parseError "Unknown symbol at 'c\r'".toList noPosition,
          .token ⟨.Operator 'C', noPosition⟩, .token ⟨.NewLine, noPosition⟩, .none ] := by
  decide

theorem skipWhitespaces_of_headFails (s : GCodeDefaultScanner)
    (h : headFails isSpace s.buffer) : skipWhitespaces s = s := by
  unfold skipWhitespaces
  rw [match_Whitespaces]
  have h0 : s.buffer.takeWhile isSpace = [] := by
    have := takeWhile_append_of_run isSpace [] s.buffer (by simp) h
    simpa using this
  simp [h0]

theorem headFails_dropWhile (cls : Char → Bool) (b : List Char) :
    headFails cls (b.dropWhile cls) := by
  intro c hc
  cases hd : b.dropWhile cls with
  | nil => simp [hd] at hc
  | cons x xs =>
    simp only [hd, List.head?_cons, Option.mem_def, Option.some.injEq] at hc
    subst hc
    have := List.head_dropWhile_not cls b (by simp [hd])
    simpa [hd] using this

theorem skipWhitespaces_idem (s : GCodeDefaultScanner) :
    skipWhitespaces (skipWhitespaces s) = skipWhitespaces s := by
  apply skipWhitespaces_of_headFails
  rw [skipWhitespaces_buffer]
  exact headFails_dropWhile isSpace s.buffer

theorem next_skipWhitespaces (stodOk : List Char → Bool) (s : GCodeDefaultScanner)
    (hne : (skipWhitespaces s).buffer ≠ []) :
    next stodOk (skipWhitespaces s) = next stodOk s := by
  have hnf := finished_false_of_skip s hne
  have hnf' : finished (skipWhitespaces s) = false := by
    apply finished_false_of_skip
    rw [skipWhitespaces_idem]
    exact hne
  unfold next
  simp only [hnf, hnf', skipWhitespaces_idem, Bool.false_eq_true, if_false]

theorem token_position_of_buffer (stodOk : List Char → Bool) (s : GCodeDefaultScanner)
    (hne : (skipWhitespaces s).buffer ≠ []) (t : GCodeToken)
    (h : (next stodOk s).1 = .token t) :
    t.position = (skipWhitespaces s).source_position ∧ t.value ≠ .NewLine := by
  rcases next_cases stodOk s with ⟨hf, hn⟩ | ⟨hf, he, hn⟩ | ⟨hf, -, n, v, hv, hn⟩ |
    ⟨hf, -, m, hn⟩ | ⟨hf, -, hn⟩
  · rw [hn] at h
    cases h
  · exact absurd he hne
  · rw [hn] at h
    simp only [Outcome.token.injEq] at h
    subst h
    exact ⟨rfl, hv⟩
  · rw [hn] at h
    cases h
  · rw [hn] at h
    cases h

theorem error_position_of_buffer (stodOk : List Char → Bool) (s : GCodeDefaultScanner)
    (m : List Char) (p : SourcePosition) (h : (next stodOk s).1 = .parseError m p) :
    (skipWhitespaces s).buffer ≠ [] ∧ p = (shift (skipWhitespaces s) 1).source_position ∧
      (next stodOk s).2 = shift (skipWhitespaces s) 1 := by
  rcases next_cases stodOk s with ⟨hf, hn⟩ | ⟨hf, he, hn⟩ | ⟨hf, hne, n, v, hv, hn⟩ |
    ⟨hf, hne, m', hn⟩ | ⟨hf, hne, hn⟩
  · rw [hn] at h
    cases h
  · rw [hn] at h
    cases h
  · rw [hn] at h
    cases h
  · rw [hn] at h ⊢
    simp only [Outcome.parseError.injEq] at h
    exact ⟨hne, h.2.symm, rfl⟩
  · rw [hn] at h
    cases h

/-- C13: leading whitespace is skipped without affecting the token. For a non-empty
buffer `s` that does not start with whitespace and a string `w` of whitespace characters,
`next()` on the buffer `w ++ s` and on the buffer `s` (same stream, same position) have
the same outcome up to the position (the same token kind and value, the same error
message) and leave the same unread buffer and stream; the position of the token or of the
error has the same tag and line, its column is larger by the length of `w`, and the
checksum of the token is that of the other token XORed with the characters of `w`. -/
theorem leading_whitespace_skipped (stodOk : List Char → Bool) (st : GCodeDefaultScanner)
    (w s : List Char) (hs : s ≠ []) (hhead : headFails isSpace s)
    (hw : ∀ c ∈ w, isSpace c = true) :
    erasePosition (next stodOk (withBuffer st (w ++ s))).1 =
        erasePosition (next stodOk (withBuffer st s)).1 ∧
      (next stodOk (withBuffer st (w ++ s))).2.buffer =
        (next stodOk (withBuffer st s)).2.buffer ∧
      (next stodOk (withBuffer st (w ++ s))).2.input =
        (next stodOk (withBuffer st s)).2.input ∧
      (next stodOk (withBuffer st (w ++ s))).2.good =
        (next stodOk (withBuffer st s)).2.good ∧
      (∀ ta tb, (next stodOk (withBuffer st (w ++ s))).1 = .token ta →
        (next stodOk (withBuffer st s)).1 = .token tb →
        ta.value = tb.value ∧ ta.position.tag = tb.position.tag ∧
        ta.position.line = tb.position.line ∧
        ta.position.column = tb.position.column + w.length ∧
        (st.source_position.checksum < 256 →
          ta.position.checksum = xorChecksum tb.position.checksum w)) ∧
      (∀ ma pa mb pb, (next stodOk (withBuffer st (w ++ s))).1 = .parseError ma pa →
        (next stodOk (withBuffer st s)).1 = .parseError mb pb →
        ma = mb ∧ pa.tag = pb.tag ∧ pa.line = pb.line ∧
        pa.column = pb.column + w.length) := by
  have hskB : skipWhitespaces (withBuffer st s) = withBuffer st s :=
    skipWhitespaces_of_headFails _ hhead
  have htw : (withBuffer st (w ++ s)).buffer.takeWhile isSpace = w :=
    takeWhile_append_of_run isSpace w s hw hhead
  have hbufA : (skipWhitespaces (withBuffer st (w ++ s))).buffer = s := by
    rw [skipWhitespaces_buffer]
    exact dropWhile_append_of_run isSpace w s hw hhead
  have hneA : (skipWhitespaces (withBuffer st (w ++ s))).buffer ≠ [] := by
    rw [hbufA]
    exact hs
  have hneB : (skipWhitespaces (withBuffer st s)).buffer ≠ [] := by
    rw [hskB]
    exact hs
  have hsame : sameText (skipWhitespaces (withBuffer st (w ++ s))) (withBuffer st s) :=
    ⟨by rw [skipWhitespaces_input]; rfl, by rw [skipWhitespaces_good]; rfl, hbufA⟩
  obtain ⟨herase, hnext⟩ := next_sameText stodOk _ _ hsame
  rw [next_skipWhitespaces stodOk _ hneA] at herase hnext
  have hcol : (skipWhitespaces (withBuffer st (w ++ s))).source_position.column =
      st.source_position.column + w.length := by
    rw [skipWhitespaces_column, htw]
    rfl
  refine ⟨herase, hnext.2.2, hnext.1, hnext.2.1, ?_, ?_⟩
  · intro ta tb hta htb
    obtain ⟨hpa, -⟩ := token_position_of_buffer stodOk _ hneA ta hta
    obtain ⟨hpb, -⟩ := token_position_of_buffer stodOk _ hneB tb htb
    rw [hskB] at hpb
    rw [hta, htb] at herase
    simp only [erasePosition, Outcome.token.injEq, GCodeToken.mk.injEq, and_true] at herase
    refine ⟨herase, ?_, ?_, ?_, ?_⟩
    · rw [hpa, hpb, skipWhitespaces_tag]
      rfl
    · rw [hpa, hpb, skipWhitespaces_line]
      rfl
    · rw [hpa, hpb, hcol]
      rfl
    · intro hc
      rw [hpa, hpb, skipWhitespaces_checksum (withBuffer st (w ++ s)) hc, htw]
      rfl
  · intro ma pa mb pb hea heb
    obtain ⟨-, hpa, -⟩ := error_position_of_buffer stodOk _ ma pa hea
    obtain ⟨-, hpb, -⟩ := error_position_of_buffer stodOk _ mb pb heb
    rw [hskB] at hpb
    rw [hea, heb] at herase
    simp only [erasePosition, Outcome.parseError.injEq, and_true] at herase
    have hlenA : 1 ≤ (skipWhitespaces (withBuffer st (w ++ s))).buffer.length := by
      rw [hbufA]
      exact List.length_pos.mpr hs
    have hlenB : 1 ≤ (withBuffer st s).buffer.length := List.length_pos.mpr hs
    refine ⟨herase, ?_, ?_, ?_⟩
    · rw [hpa, hpb, shift_tag, shift_tag, skipWhitespaces_tag]
      rfl
    · rw [hpa, hpb, shift_line, shift_line, skipWhitespaces_line]
      rfl
    · rw [hpa, hpb, shift_column _ 1 hlenA, shift_column _ 1 hlenB, hcol]
      show st.source_position.column + w.length + 1 = st.source_position.column + 1 + w.length
      omega

/-- C13, a witness: `X1` after a blank and a tab gives the same outcome, up to the
position, as `X1`, and leaves the same buffer. -/
theorem leading_whitespace_skipped_witness :
    erasePosition (next stodAlways (withBuffer (onLine "") (" \t".toList ++ "X1".toList))).1 =
        erasePosition (next stodAlways (withBuffer (onLine "") "X1".toList)).1 ∧
      (next stodAlways (withBuffer (onLine "") (" \t".toList ++ "X1".toList))).2.buffer =
        (next stodAlways (withBuffer (onLine "") "X1".toList)).2.buffer :=
  have h := leading_whitespace_skipped stodAlways (onLine "") " \t".toList "X1".toList
    (by decide) (headFails_cons _ _ _ (by decide)) (by decide)
  ⟨h.1, h.2.1⟩

/-! ## The first call -/

/-- C17: for every input, the empty one included, the first call of `next()` on a fresh
scanner returns a `NewLine` token, at line 1, column 1, checksum 0: the call reads the
first line into the buffer and returns before scanning it, so the `NewLine` comes before
every token of line 1 and every scan starts with it. On the empty input the calls return
that one `NewLine` and then the empty optional, however many calls are made. -/
theorem first_call_returns_newline (stodOk : List Char → Bool) (input tag : List Char) :
    (next stodOk (GCodeDefaultScanner.mk0 input tag)).1 =
        .token ⟨.NewLine, ⟨tag, 1, 1, 0⟩⟩ ∧
      (next stodOk (GCodeDefaultScanner.mk0 input tag)).2.buffer = (getline input).1 ∧
      (next stodOk (GCodeDefaultScanner.mk0 input tag)).2.source_position = ⟨tag, 1, 1, 0⟩ ∧
      (∀ k, (scan stodOk (k + 1) (GCodeDefaultScanner.mk0 input tag)).head? =
        some (.token ⟨.NewLine, ⟨tag, 1, 1, 0⟩⟩)) ∧
      (∀ k, scan stodOk (k + 2) (GCodeDefaultScanner.mk0 [] tag) =
        [.token ⟨.NewLine, ⟨tag, 1, 1, 0⟩⟩, .none]) := by
  have hn : ∀ inp : List Char, next stodOk (GCodeDefaultScanner.mk0 inp tag) =
      (.token ⟨.NewLine, ⟨tag, 1, 1, 0⟩⟩,
        ⟨(getline inp).2.1, (getline inp).2.2, (getline inp).1, ⟨tag, 1, 1, 0⟩⟩) := by
    intro inp
    have hnf : finished (GCodeDefaultScanner.mk0 inp tag) = false := rfl
    have hsk : skipWhitespaces (GCodeDefaultScanner.mk0 inp tag) =
        GCodeDefaultScanner.mk0 inp tag :=
      skipWhitespaces_of_headFails _ (headFails_nil _)
    rw [next_newline stodOk _ hnf (by rw [hsk]; rfl), hsk]
    rfl
  refine ⟨by rw [hn], by rw [hn], by rw [hn], ?_, ?_⟩
  · intro k
    rw [scan_succ_cons stodOk k _ _ _ (hn input) (by simp)]
    rfl
  · intro k
    rw [scan_succ_cons stodOk (k + 1) _ _ _ (hn []) (by simp)]
    have hfin : finished (⟨(getline []).2.1, (getline []).2.2, (getline []).1,
        ⟨tag, 1, 1, 0⟩⟩ : GCodeDefaultScanner) = true := rfl
    rw [scan_succ_none stodOk k _ _ (next_finished stodOk _ hfin)]

/-! ## Progress -/

theorem greedyRun_pos (cls : Char → Bool) (k : List Char → Option Nat) (n : Nat)
    (hn : 1 ≤ n) (s : List Char) (m : Nat) (h : greedyRun cls k n s = some m) : 1 ≤ m := by
  have hn0 : n ≠ 0 := by omega
  cases s with
  | nil => simp [greedyRun, hn0] at h
  | cons c cs =>
    simp only [greedyRun, hn0, if_false] at h
    split at h
    · split at h
      · simp only [Option.some.injEq] at h
        omega
      · cases h
    · cases h

theorem matchPieces_one_pos (a : Bool) (cls : Char → Bool) (ps : List Piece) (s : List Char)
    (m : Nat) (h : matchPieces a (⟨cls, .one⟩ :: ps) s = some m) : 1 ≤ m := by
  cases s with
  | nil => simp [matchPieces] at h
  | cons c cs =>
    rw [matchPieces.eq_3] at h
    split at h
    · split at h
      · simp only [Option.some.injEq] at h
        omega
      · cases h
    · cases h

theorem match_Float_pos (s : List Char) (m : Nat) (h : match_regex s Float = some m) :
    1 ≤ m := by
  simp only [match_regex, Float, matchPieces.eq_4] at h
  exact greedyRun_pos _ _ 1 (Nat.le_refl 1) s m h

theorem match_Integer_pos (s : List Char) (m : Nat) (h : match_regex s Integer = some m) :
    1 ≤ m := by
  simp only [match_regex, Integer, matchPieces.eq_4] at h
  exact greedyRun_pos _ _ 1 (Nat.le_refl 1) s m h

theorem match_Literal_pos (s : List Char) (m : Nat) (h : match_regex s Literal = some m) :
    1 ≤ m := by
  simp only [match_regex, Literal, matchPieces.eq_4] at h
  exact greedyRun_pos _ _ 2 (by omega) s m h

theorem match_Operator_pos (s : List Char) (m : Nat) (h : match_regex s Operator = some m) :
    1 ≤ m :=
  matchPieces_one_pos _ _ _ s m h

theorem match_Comment_pos (s : List Char) (m : Nat) (h : match_regex s Comment = some m) :
    1 ≤ m :=
  matchPieces_one_pos _ _ _ s m h

theorem match_BracedComment_pos (s : List Char) (m : Nat)
    (h : match_regex s BracedComment = some m) : 1 ≤ m :=
  matchPieces_one_pos _ _ _ s m h

theorem next_consumes (stodOk : List Char → Bool) (s0 : GCodeDefaultScanner)
    (hne : (skipWhitespaces s0).buffer ≠ []) (hno : (next stodOk s0).1 ≠ .outOfRange) :
    ∃ n, 1 ≤ n ∧ n ≤ (skipWhitespaces s0).buffer.length ∧
      (next stodOk s0).2 = shift (skipWhitespaces s0) n := by
  have hnf := finished_false_of_skip s0 hne
  cases hF : match_regex (skipWhitespaces s0).buffer Float with
  | some n =>
    rw [next_float stodOk s0 hnf hne n hF] at hno ⊢
    split at hno
    · rename_i hs
      rw [if_pos hs]
      exact ⟨n, match_Float_pos _ n hF, match_regex_le_length _ _ n hF, rfl⟩
    · exact absurd rfl hno
  | none =>
    cases hI : match_regex (skipWhitespaces s0).buffer Integer with
    | some n =>
      rw [next_integer stodOk s0 hnf hne n hF hI] at hno ⊢
      cases hst : stoll ((skipWhitespaces s0).buffer.take n) with
      | some v =>
        exact ⟨n, match_Integer_pos _ n hI, match_regex_le_length _ _ n hI, rfl⟩
      | none =>
        rw [hst] at hno
        exact absurd rfl hno
    | none =>
      cases hL : match_regex (skipWhitespaces s0).buffer Literal with
      | some n =>
        rw [next_literal stodOk s0 hnf hne n hF hI hL]
        exact ⟨n, match_Literal_pos _ n hL, match_regex_le_length _ _ n hL, rfl⟩
      | none =>
        cases hO : match_regex (skipWhitespaces s0).buffer Operator with
        | some n =>
          rw [next_operator stodOk s0 hnf hne n hF hI hL hO]
          exact ⟨n, match_Operator_pos _ n hO, match_regex_le_length _ _ n hO, rfl⟩
        | none =>
          cases hC : match_regex (skipWhitespaces s0).buffer Comment with
          | some n =>
            rw [next_comment stodOk s0 hnf hne n hF hI hL hO (by simp [hC])]
            exact ⟨n, match_Comment_pos _ n hC, match_regex_le_length _ _ n hC, rfl⟩
          | none =>
            cases hB : match_regex (skipWhitespaces s0).buffer BracedComment with
            | some n =>
              rw [next_comment stodOk s0 hnf hne n hF hI hL hO (by simp [hC, hB])]
              exact ⟨n, match_BracedComment_pos _ n hB, match_regex_le_length _ _ n hB, rfl⟩
            | none =>
              rw [next_error stodOk s0 hnf hne hF hI hL hO hC hB]
              exact ⟨1, Nat.le_refl 1, List.length_pos.mpr hne, rfl⟩

theorem getline_length (inp : List Char) :
    (getline inp).1.length + (getline inp).2.1.length +
      (if (getline inp).2.2 then 1 else 0) = inp.length := by
  induction inp with
  | nil => rfl
  | cons c cs ih =>
    by_cases hc : c = '\n'
    · simp [getline, hc]
    · simp only [getline, hc, if_false, List.length_cons]
      omega

theorem skipWhitespaces_length_le (s : GCodeDefaultScanner) :
    (skipWhitespaces s).buffer.length ≤ s.buffer.length := by
  rw [skipWhitespaces_buffer]
  exact (List.dropWhile_sublist isSpace).length_le

theorem pending_next_lt (stodOk : List Char → Bool) (s : GCodeDefaultScanner)
    (hnf : finished s = false) (hno : (next stodOk s).1 ≠ .outOfRange) :
    pending (next stodOk s).2 + 1 ≤ pending s := by
  have hlen := skipWhitespaces_length_le s
  by_cases he : (skipWhitespaces s).buffer = []
  · rw [next_newline stodOk s hnf he]
    simp only
    cases hg : s.good
    · have hg1 : (skipWhitespaces s).good = false := by rw [skipWhitespaces_good, hg]
      have hb : s.buffer ≠ [] := by
        intro hb
        simp [finished, hb, hg] at hnf
      have hpos : 1 ≤ s.buffer.length := List.length_pos.mpr hb
      simp only [pending, next_line, hg1, hg, skipWhitespaces_input, List.length_nil]
      simp
      omega
    · have hg1 : (skipWhitespaces s).good = true := by rw [skipWhitespaces_good, hg]
      have hgl := getline_length s.input
      simp only [pending, next_line, hg1, hg, skipWhitespaces_input, if_true]
      omega
  · obtain ⟨n, hn1, hn2, hst⟩ := next_consumes stodOk s he hno
    rw [hst]
    simp only [pending, shift_buffer, shift_input, shift_good, skipWhitespaces_input,
      skipWhitespaces_good, List.length_drop]
    omega

theorem nextState_of_finished (stodOk : List Char → Bool) (s : GCodeDefaultScanner)
    (h : finished s = true) : nextState stodOk s = s := by
  simp [nextState, next_finished stodOk s h]

theorem finished_of_pending_zero (s : GCodeDefaultScanner) (h : pending s = 0) :
    finished s = true := by
  unfold pending at h
  have hb : s.buffer = [] := List.eq_nil_of_length_eq_zero (by omega)
  cases hg : s.good
  · simp [finished, hb, hg]
  · simp [hg] at h

theorem finished_or_pending (stodOk : List Char → Bool) (s0 : GCodeDefaultScanner) (n : Nat)
    (hno : ∀ i < n, (next stodOk ((nextState stodOk)^[i] s0)).1 ≠ .outOfRange) :
    finished ((nextState stodOk)^[n] s0) = true ∨
      pending ((nextState stodOk)^[n] s0) + n ≤ pending s0 := by
  induction n with
  | zero => exact Or.inr (Nat.le_refl _)
  | succ n ih =>
    rw [Function.iterate_succ_apply']
    rcases ih (fun i hi => hno i (by omega)) with hfin | hle
    · left
      rw [nextState_of_finished stodOk _ hfin]
      exact hfin
    · cases hf : finished ((nextState stodOk)^[n] s0)
      · right
        have := pending_next_lt stodOk _ hf (hno n (by omega))
        change pending (next stodOk ((nextState stodOk)^[n] s0)).2 + (n + 1) ≤ pending s0
        omega
      · left
        rw [nextState_of_finished stodOk _ hf]
        exact hf

theorem finished_stable (stodOk : List Char → Bool) (s0 : GCodeDefaultScanner) (n m : Nat)
    (hnm : n ≤ m) (h : finished ((nextState stodOk)^[n] s0) = true) :
    finished ((nextState stodOk)^[m] s0) = true := by
  obtain ⟨d, rfl⟩ := Nat.exists_eq_add_of_le hnm
  rw [Nat.add_comm, Function.iterate_add_apply, iterate_nextState_finished stodOk _ h d]
  exact h

theorem stall_iterate (stodOk : List Char → Bool) (s0 : GCodeDefaultScanner)
    (h : (next stodOk s0).1 = .outOfRange) (k : Nat) :
    (skipWhitespaces s0).buffer ≠ [] ∧
      (nextState stodOk)^[k + 1] s0 = skipWhitespaces s0 ∧
      (next stodOk ((nextState stodOk)^[k] s0)).1 = .outOfRange ∧
      finished ((nextState stodOk)^[k] s0) = false := by
  have hcase : (skipWhitespaces s0).buffer ≠ [] ∧
      next stodOk s0 = (.outOfRange, skipWhitespaces s0) := by
    rcases next_cases stodOk s0 with ⟨hf, hn⟩ | ⟨hf, he, hn⟩ | ⟨hf, hne, n, v, hv, hn⟩ |
      ⟨hf, hne, m', hn⟩ | ⟨hf, hne, hn⟩
    · rw [hn] at h
      cases h
    · rw [hn] at h
      cases h
    · rw [hn] at h
      cases h
    · rw [hn] at h
      cases h
    · exact ⟨hne, hn⟩
  obtain ⟨hne, hn⟩ := hcase
  have hsk : next stodOk (skipWhitespaces s0) = (.outOfRange, skipWhitespaces s0) := by
    rw [next_skipWhitespaces stodOk s0 hne]
    exact hn
  have hiter : ∀ j, (nextState stodOk)^[j + 1] s0 = skipWhitespaces s0 := by
    intro j
    induction j with
    | zero => simp [nextState, hn]
    | succ j ih =>
      rw [Function.iterate_succ_apply', ih]
      simp [nextState, hsk]
  refine ⟨hne, hiter k, ?_, ?_⟩
  · cases k with
    | zero => exact h
    | succ j =>
      rw [hiter j, hsk]
  · cases k with
    | zero => exact finished_false_of_skip s0 hne
    | succ j =>
      rw [hiter j]
      apply finished_false_of_skip
      rw [skipWhitespaces_idem]
      exact hne

/-- C15, the counterexample: on the input `99999999999999999999` (20 characters, one
line) the second call finds the buffer non-empty, raises and removes nothing from it, and
after 20 + 1 + 1 = 22 calls the scanner is not finished. -/
theorem scan_stalls_on_long_digit_run :
    (skipWhitespaces (nextState stodAlways
        (GCodeDefaultScanner.mk0 "99999999999999999999".toList []))).buffer ≠ [] ∧
      (nextState stodAlways (nextState stodAlways
        (GCodeDefaultScanner.mk0 "99999999999999999999".toList []))).buffer =
        (nextState stodAlways
          (GCodeDefaultScanner.mk0 "99999999999999999999".toList [])).buffer ∧
      "99999999999999999999".toList.length +
        (splitLines "99999999999999999999".toList).length + 1 = 22 ∧
      finished ((nextState stodAlways)^[22]
        (GCodeDefaultScanner.mk0 "99999999999999999999".toList [])) = false := by
  decide

/-- C15 (amended): every call of `next()` made when the buffer is non-empty after the
whitespace is skipped removes at least one character from the buffer, whether it returns
a token or raises a parse error, unless the `std::out_of_range` of the numeric
conversion escapes: that call keeps the buffer after the whitespace, and every later call
raises again, so the scan never finishes. Every call made with an empty buffer (after the
whitespace) either reads the next line or leaves the scanner finished. Hence for every
input on which no call lets `std::out_of_range` escape, repeated calls reach
`finished()` after at most (number of characters + 1) calls, and so within (number of
characters + number of lines + 1) calls, and stay there. -/
theorem next_makes_progress (stodOk : List Char → Bool) (s0 : GCodeDefaultScanner) :
    ((skipWhitespaces s0).buffer ≠ [] → (next stodOk s0).1 ≠ .outOfRange →
      (next stodOk s0).2.buffer.length < (skipWhitespaces s0).buffer.length ∧
      (skipWhitespaces s0).buffer.length ≤ s0.buffer.length ∧
      ∃ n, 1 ≤ n ∧ (next stodOk s0).2.buffer = (skipWhitespaces s0).buffer.drop n) ∧
    ((next stodOk s0).1 = .outOfRange →
      (next stodOk s0).2 = skipWhitespaces s0 ∧ (skipWhitespaces s0).buffer ≠ [] ∧
      ∀ k, (next stodOk ((nextState stodOk)^[k] s0)).1 = .outOfRange ∧
        finished ((nextState stodOk)^[k] s0) = false) ∧
    (finished s0 = false → (skipWhitespaces s0).buffer = [] →
      (s0.good = true ∧ (next stodOk s0).2.buffer = (getline s0.input).1 ∧
        (next stodOk s0).2.input = (getline s0.input).2.1 ∧
        (next stodOk s0).2.source_position.line = s0.source_position.line + 1) ∨
      (s0.good = false ∧ finished (next stodOk s0).2 = true)) ∧
    (∀ input tag,
      (∀ i < input.length + 1,
        (next stodOk ((nextState stodOk)^[i] (GCodeDefaultScanner.mk0 input tag))).1 ≠
          .outOfRange) →
      (∀ n, input.length + 1 ≤ n →
        finished ((nextState stodOk)^[n] (GCodeDefaultScanner.mk0 input tag)) = true) ∧
      finished ((nextState stodOk)^[input.length + (splitLines input).length + 1]
        (GCodeDefaultScanner.mk0 input tag)) = true) := by
  refine ⟨?_, ?_, ?_, ?_⟩
  · intro hne hno
    obtain ⟨n, hn1, hn2, hst⟩ := next_consumes stodOk s0 hne hno
    refine ⟨?_, skipWhitespaces_length_le s0, n, hn1, by rw [hst, shift_buffer]⟩
    rw [hst, shift_buffer, List.length_drop]
    omega
  · intro h
    have h0 := stall_iterate stodOk s0 h 0
    refine ⟨?_, h0.1, fun k => ⟨(stall_iterate stodOk s0 h k).2.2.1,
      (stall_iterate stodOk s0 h k).2.2.2⟩⟩
    have := h0.2.1
    simpa [nextState] using this
  · intro hnf he
    rw [next_newline stodOk s0 hnf he]
    cases hg : s0.good
    · right
      have hg1 : (skipWhitespaces s0).good = false := by rw [skipWhitespaces_good, hg]
      exact ⟨rfl, by simp [next_line, hg1, finished]⟩
    · left
      have hg1 : (skipWhitespaces s0).good = true := by rw [skipWhitespaces_good, hg]
      refine ⟨rfl, ?_, ?_, ?_⟩
      · simp [next_line, hg1, skipWhitespaces_input]
      · simp [next_line, hg1, skipWhitespaces_input]
      · simp [next_line, hg1, SourcePosition.update, skipWhitespaces_line]
  · intro input tag hno
    have hfin : finished ((nextState stodOk)^[input.length + 1]
        (GCodeDefaultScanner.mk0 input tag)) = true := by
      rcases finished_or_pending stodOk (GCodeDefaultScanner.mk0 input tag)
        (input.length + 1) hno with hf | hle
      · exact hf
      · apply finished_of_pending_zero
        have hp : pending (GCodeDefaultScanner.mk0 input tag) = input.length + 1 := by
          simp [pending, GCodeDefaultScanner.mk0]
        omega
    exact ⟨fun n hn => finished_stable stodOk _ _ n hn hfin,
      finished_stable stodOk _ _ _ (by omega) hfin⟩

/-- C15, a witness: on the input `G1` no call raises, and after three calls the scanner
is finished. -/
theorem next_makes_progress_witness :
    finished ((nextState stodAlways)^[3] (GCodeDefaultScanner.mk0 "G1".toList [])) = true :=
  ((next_makes_progress stodAlways (onLine "")).2.2.2 "G1".toList [] (by decide)).1 3
    (by decide)

/-! ## Which characters raise a parse error -/

theorem toUpper_big (c : Char) (h : 128 ≤ c.toNat) : c.toUpper = c := by
  unfold Char.toUpper
  simp only
  rw [if_neg]
  omega

theorem toLower_big (c : Char) (h : 128 ≤ c.toNat) : c.toLower = c := by
  unfold Char.toLower
  simp only
  rw [if_neg]
  omega

theorem ne_of_big (c d : Char) (h : 128 ≤ c.toNat) (hd : d.toNat < 128) : (c == d) = false := by
  cases hcd : c == d
  · rfl
  · have : c = d := by simpa using hcd
    subst this
    omega

theorem isListedOperator_big (c : Char) (h : 128 ≤ c.toNat) : isListedOperator c = false := by
  simp [isListedOperator, ne_of_big c '+' h (by decide), ne_of_big c '-' h (by decide),
    ne_of_big c '*' h (by decide), ne_of_big c '/' h (by decide),
    ne_of_big c '%' h (by decide), ne_of_big c '[' h (by decide),
    ne_of_big c ']' h (by decide), ne_of_big c '#' h (by decide),
    ne_of_big c '=' h (by decide), ne_of_big c '<' h (by decide),
    ne_of_big c '>' h (by decide)]

theorem isOperatorChar_big (c : Char) (h : 128 ≤ c.toNat) : isOperatorChar c = false := by
  have h1 : ¬ c ≤ 'Z' := by rw [char_le_iff]; simp; omega
  have hl := isListedOperator_big c h
  simp only [isListedOperator, Bool.or_eq_false_iff] at hl
  simp [isOperatorChar, inRangeIcase, toUpper_big c h, toLower_big c h, h1, hl]

set_option maxRecDepth 100000 in
theorem operatorFacts_ascii : ∀ n : Fin 128, operatorFacts (Char.ofNat n) = true := by
  decide

theorem isOperatorChar_eq (c : Char) :
    isOperatorChar c = (isLetter c || isListedOperator c) := by
  have := ascii_cases operatorFacts operatorFacts_ascii
    (fun c hc => by
      simp [operatorFacts, isOperatorChar_big c hc, isLetter_big c hc,
        isListedOperator_big c hc]) c
  simpa [operatorFacts] using this

theorem isAlphaUnderscore_eq (c : Char) : isAlphaUnderscore c = (isLetter c || c == '_') := by
  simp [isAlphaUnderscore, isLetter]

theorem next_parseError_iff (stodOk : List Char → Bool) (s0 : GCodeDefaultScanner)
    (hne : (skipWhitespaces s0).buffer ≠ []) :
    (∃ m p, (next stodOk s0).1 = .parseError m p) ↔
      noRuleMatches (skipWhitespaces s0).buffer := by
  have hnf := finished_false_of_skip s0 hne
  unfold noRuleMatches
  cases hF : match_regex (skipWhitespaces s0).buffer Float with
  | some n =>
    rw [next_float stodOk s0 hnf hne n hF]
    constructor
    · rintro ⟨m, p, h⟩
      split at h <;> cases h
    · rintro ⟨h, -⟩
      cases h
  | none =>
    cases hI : match_regex (skipWhitespaces s0).buffer Integer with
    | some n =>
      rw [next_integer stodOk s0 hnf hne n hF hI]
      constructor
      · rintro ⟨m, p, h⟩
        split at h <;> cases h
      · rintro ⟨-, h, -⟩
        cases h
    | none =>
      cases hL : match_regex (skipWhitespaces s0).buffer Literal with
      | some n =>
        rw [next_literal stodOk s0 hnf hne n hF hI hL]
        constructor
        · rintro ⟨m, p, h⟩
          cases h
        · rintro ⟨-, -, h, -⟩
          cases h
      | none =>
        cases hO : match_regex (skipWhitespaces s0).buffer Operator with
        | some n =>
          rw [next_operator stodOk s0 hnf hne n hF hI hL hO]
          constructor
          · rintro ⟨m, p, h⟩
            cases h
          · rintro ⟨-, -, -, h, -⟩
            cases h
        | none =>
          cases hC : match_regex (skipWhitespaces s0).buffer Comment with
          | some n =>
            rw [next_comment stodOk s0 hnf hne n hF hI hL hO (by simp [hC])]
            constructor
            · rintro ⟨m, p, h⟩
              cases h
            · rintro ⟨-, -, -, -, h, -⟩
              cases h
          | none =>
            cases hB : match_regex (skipWhitespaces s0).buffer BracedComment with
            | some n =>
              rw [next_comment stodOk s0 hnf hne n hF hI hL hO (by simp [hC, hB])]
              constructor
              · rintro ⟨m, p, h⟩
                cases h
              · rintro ⟨-, -, -, -, -, h⟩
                cases h
            | none =>
              rw [next_error stodOk s0 hnf hne hF hI hL hO hC hB]
              exact ⟨fun _ => ⟨rfl, rfl, rfl, rfl, rfl, rfl⟩, fun _ => ⟨_, _, rfl⟩⟩

theorem isListedOperator_facts (c : Char) (h : isListedOperator c = true) :
    isDigit c = false ∧ isLetter c = false ∧ c ≠ '_' := by
  have hl : isLetter c || isListedOperator c = true := by simp [h]
  simp only [isListedOperator, Bool.or_eq_true, beq_iff_eq] at h
  rcases h with ((((((((((h | h) | h) | h) | h) | h) | h) | h) | h) | h) | h) <;>
    subst h <;> decide

theorem noRuleMatches_of_not_scannable (c : Char) (rest : List Char)
    (h : scannable c rest = false) : noRuleMatches (c :: rest) := by
  simp only [scannable, Bool.or_eq_false_iff, Bool.and_eq_false_iff] at h
  obtain ⟨⟨⟨⟨⟨hd, hl⟩, hop⟩, hsemi⟩, hparen⟩, hunder⟩ := h
  refine ⟨float_none_of_head c rest hd, integer_none_of_head c rest hd, ?_, ?_,
    comment_none_of_head c rest (by simpa using hsemi), ?_⟩
  · rcases hunder with hu | hu
    · exact literal_none_of_head c rest (by rw [isAlphaUnderscore_eq, hl, hu]; rfl)
    · rw [match_Literal]
      have hrun : ((c :: rest).takeWhile isAlphaUnderscore).length ≤ 1 := by
        cases rest with
        | nil =>
          simp only [List.takeWhile_cons, List.takeWhile_nil]
          split <;> simp
        | cons d ds =>
          simp only at hu
          have hd' : isAlphaUnderscore d = false := by
            rw [isAlphaUnderscore_eq]
            exact hu
          simp only [List.takeWhile_cons, hd']
          split <;> simp
      rw [if_neg (by omega)]
  · rw [match_Operator]
    simp [isOperatorChar_eq, hl, hop]
  · rcases hparen with hp | hp
    · exact braced_none_of_head c rest (by simpa using hp)
    · by_cases hc : c = '('
      · subst hc
        apply braced_none
        intro x hx
        simp only [isNotClosingParen, bne_iff_ne, ne_eq]
        intro hxe
        subst hxe
        have : rest.contains ')' = true := by simpa using hx
        rw [this] at hp
        cases hp
      · exact braced_none_of_head c rest hc

theorem not_noRuleMatches_of_scannable (c : Char) (rest : List Char)
    (hterm : ∀ x ∈ rest, x ≠ '\r' ∧ x ≠ '\n') (h : scannable c rest = true) :
    ¬ noRuleMatches (c :: rest) := by
  rintro ⟨hF, hI, hL, hO, hC, hB⟩
  simp only [scannable, Bool.or_eq_true, Bool.and_eq_true, beq_iff_eq] at h
  rcases h with ((((hd | hl) | hop) | hsemi) | ⟨hp, hmem⟩) | ⟨hu, hnext⟩
  · rw [match_Integer] at hI
    simp [List.takeWhile_cons, hd] at hI
  · rw [match_Operator] at hO
    simp [isOperatorChar_eq, hl] at hO
  · rw [match_Operator] at hO
    simp [isOperatorChar_eq, hop] at hO
  · subst hsemi
    rw [comment_match rest (fun x hx => by
      simp [isAnyButNewline, (hterm x hx).1, (hterm x hx).2])] at hC
    cases hC
  · subst hp
    rw [match_BracedComment_cons] at hB
    have hmem' : ')' ∈ rest := by simpa using hmem
    cases hdw : rest.dropWhile isNotClosingParen with
    | nil =>
      have hall : rest.takeWhile isNotClosingParen = rest := by
        have h1 := List.takeWhile_append_dropWhile isNotClosingParen rest
        rw [hdw, List.append_nil] at h1
        exact h1
      rw [← hall] at hmem'
      have := List.mem_takeWhile_imp hmem'
      revert this
      decide
    | cons x xs =>
      rw [hdw] at hB
      cases hB
  · subst hu
    cases rest with
    | nil => cases hnext
    | cons d ds =>
      simp only at hnext
      have hd' : isAlphaUnderscore d = true := by
        rw [isAlphaUnderscore_eq]
        exact hnext
      rw [match_Literal] at hL
      have h2 : 2 ≤ (('_' :: d :: ds).takeWhile isAlphaUnderscore).length := by
        have hu' : isAlphaUnderscore '_' = true := by decide
        simp [List.takeWhile_cons, hu', hd']
      rw [if_pos h2] at hL
      cases hL

/-- C16, the counterexample: the buffer ` 18446744073709551616` holds no carriage return
and its first character after the whitespace is the digit `1`, yet `next()` raises: the
`std::out_of_range` of `std::stoll` escapes, and no token is returned. -/
theorem next_raises_on_digit :
    (∀ x ∈ (onLine " 18446744073709551616").buffer, x ≠ '\r' ∧ x ≠ '\n') ∧
      (skipWhitespaces (onLine " 18446744073709551616")).buffer =
        '1' :: "8446744073709551616".toList ∧
      scannable '1' "8446744073709551616".toList = true ∧
      (next stodAlways (onLine " 18446744073709551616")).1 = .outOfRange := by
  decide

/-- C16 (amended): for every buffer without line terminators (no carriage return) whose
first character after the whitespace is `c`, `next()` raises a parse error if and only
if `c` is not a decimal digit, not a letter, not one of `+ - * / % [ ] # = < >`, not
`;`, not a `(` that has a `)` later on the line, and not a `_` immediately followed by a
letter or `_`. In every other case a token is returned, except that for a digit the
`std::out_of_range` of the numeric conversion may escape instead. In particular `.`,
`,`, `!`, `)`, a lone `_`, a `_` followed by a digit and an unclosed `(` raise a parse
error. -/
theorem parse_error_iff_unscannable (stodOk : List Char → Bool) (s0 : GCodeDefaultScanner)
    (c : Char) (rest : List Char) (hb : (skipWhitespaces s0).buffer = c :: rest)
    (hterm : ∀ x ∈ s0.buffer, x ≠ '\r' ∧ x ≠ '\n') :
    ((∃ m p, (next stodOk s0).1 = .parseError m p) ↔ scannable c rest = false) ∧
      (scannable c rest = true →
        (∃ t, (next stodOk s0).1 = .token t) ∨
          (isDigit c = true ∧ (next stodOk s0).1 = .outOfRange)) ∧
      (scannable c rest = true → isDigit c = false → ∃ t, (next stodOk s0).1 = .token t) ∧
      (∀ r, scannable '.' r = false ∧ scannable ',' r = false ∧ scannable '!' r = false ∧
        scannable ')' r = false) ∧
      scannable '_' [] = false ∧
      (∀ d r, isDigit d = true → scannable '_' (d :: r) = false) ∧
      (∀ r, ')' ∉ r → scannable '(' r = false) := by
  have hne : (skipWhitespaces s0).buffer ≠ [] := by simp [hb]
  have hnf := finished_false_of_skip s0 hne
  have hrest : ∀ x ∈ rest, x ≠ '\r' ∧ x ≠ '\n' := by
    intro x hx
    apply hterm
    have hx' : x ∈ (skipWhitespaces s0).buffer := by
      rw [hb]
      exact List.mem_cons_of_mem c hx
    rw [skipWhitespaces_buffer] at hx'
    exact (List.dropWhile_sublist isSpace).subset hx'
  have hiff : (∃ m p, (next stodOk s0).1 = .parseError m p) ↔ scannable c rest = false := by
    rw [next_parseError_iff stodOk s0 hne, hb]
    constructor
    · intro hno
      cases hs : scannable c rest
      · rfl
      · exact absurd hno (not_noRuleMatches_of_scannable c rest hrest hs)
    · exact noRuleMatches_of_not_scannable c rest
  have hscan : scannable c rest = true →
      (∃ t, (next stodOk s0).1 = .token t) ∨
        (isDigit c = true ∧ (next stodOk s0).1 = .outOfRange) := by
    intro hs
    rcases next_not_finished_cases stodOk s0 hnf with ht | herr | ⟨ho, hnum⟩
    · exact Or.inl ht
    · rw [hiff.mp herr] at hs
      cases hs
    · right
      refine ⟨?_, ho⟩
      cases hd : isDigit c
      · exfalso
        rw [hb] at hnum
        rcases hnum with ⟨n, hF, -⟩ | ⟨n, -, hI, -⟩
        · rw [float_none_of_head c rest hd] at hF
          cases hF
        · rw [integer_none_of_head c rest hd] at hI
          cases hI
      · rfl
  refine ⟨hiff, hscan, ?_, ?_, by decide, ?_, ?_⟩
  · intro hs hd
    rcases hscan hs with ht | ⟨hd', -⟩
    · exact ht
    · rw [hd] at hd'
      cases hd'
  · intro r
    refine ⟨?_, ?_, ?_, ?_⟩ <;> rfl
  · intro d r hd
    have hl : isLetter d = false := by
      cases hl : isLetter d
      · rfl
      · rw [(letter_facts d hl).1] at hd
        cases hd
    have hu : (d == '_') = false := by
      cases hu : d == '_'
      · rfl
      · have : d = '_' := by simpa using hu
        subst this
        revert hd
        decide
    simp [scannable, hl, hu]
    decide
  · intro r hr
    have hc : r.contains ')' = false := by
      cases hc : r.contains ')'
      · rfl
      · exact absurd (by simpa using hc) hr
    simp only [scannable, hc]
    rfl

/-- C16, a witness: on the buffer ` _1` the call raises a parse error. -/
theorem parse_error_iff_unscannable_witness :
    ∃ m p, (next stodAlways (onLine " _1")).1 = .parseError m p :=
  (parse_error_iff_unscannable stodAlways (onLine " _1") '_' ['1'] (by decide)
    (by decide)).1.mpr (by decide)

/-! ## Lines and columns -/

theorem splitLines_ne_nil (inp : List Char) : splitLines inp ≠ [] := by
  cases inp with
  | nil => simp [splitLines]
  | cons c cs =>
    unfold splitLines
    split
    · simp
    · split <;> simp

theorem getline_splitLines (inp : List Char) :
    splitLines inp =
      (getline inp).1 :: (if (getline inp).2.2 then splitLines (getline inp).2.1 else []) := by
  induction inp with
  | nil => rfl
  | cons c cs ih =>
    by_cases hc : c = '\n'
    · simp [splitLines, getline, hc]
    · conv_lhs => rw [splitLines]
      simp only [hc, if_false, getline]
      rw [ih]

theorem shift_column_take (s : GCodeDefaultScanner) (n : Nat) :
    (shift s n).source_position.column = s.source_position.column + (s.buffer.take n).length := by
  unfold shift
  by_cases h : n > s.buffer.length
  · simp [h, SourcePosition.update, Nat.min_eq_right (Nat.le_of_lt h)]
  · have h' : n ≤ s.buffer.length := by omega
    simp [h, SourcePosition.update, Nat.min_eq_left h']

theorem posInv_shift (input tag : List Char) (s : GCodeDefaultScanner) (line : List Char)
    (n : Nat) (h : PosInv input tag ⟨s, line⟩) : PosInv input tag ⟨shift s n, line⟩ := by
  obtain ⟨htag, hcase⟩ := h
  simp only at htag hcase
  refine ⟨by simpa [shift_tag] using htag, ?_⟩
  rcases hcase with ⟨hl, hg, hi, hb⟩ | ⟨before, pre, hlen, hsplit, hline, hcol⟩
  · left
    exact ⟨by simpa [shift_line] using hl, by simpa [shift_good] using hg,
      by simpa [shift_input] using hi, by simp [shift_buffer, hb]⟩
  · right
    refine ⟨before, pre ++ s.buffer.take n, ?_, ?_, ?_, ?_⟩
    · simpa [shift_line] using hlen
    · simpa [shift_good, shift_input] using hsplit
    · simp only [shift_buffer]
      rw [List.append_assoc, List.take_append_drop]
      exact hline
    · simp only [shift_column_take, hcol, List.length_append]
      omega

theorem posInv_skipWhitespaces (input tag : List Char) (s : GCodeDefaultScanner)
    (line : List Char) (h : PosInv input tag ⟨s, line⟩) :
    PosInv input tag ⟨skipWhitespaces s, line⟩ := by
  unfold skipWhitespaces
  split
  · exact posInv_shift input tag s line _ h
  · exact h

theorem posInv_trackedNext (stodOk : List Char → Bool) (input tag : List Char) (t : Tracked)
    (h : PosInv input tag t) : PosInv input tag (trackedNext stodOk t) := by
  obtain ⟨s0, line⟩ := t
  have hsk := posInv_skipWhitespaces input tag s0 line h
  rcases next_cases stodOk s0 with ⟨hf, hn⟩ | ⟨hf, he, hn⟩ | ⟨hf, hne, n, v, -, hn⟩ |
    ⟨hf, hne, m, hn⟩ | ⟨hf, hne, hn⟩
  · have hr : readsLine s0 = false := by simp [readsLine, hf]
    simpa [trackedNext, nextState, hn, hr] using h
  · cases hg : s0.good
    · have hr : readsLine s0 = false := by simp [readsLine, hg]
      have hg1 : (skipWhitespaces s0).good = false := by rw [skipWhitespaces_good, hg]
      obtain ⟨htag, hcase⟩ := hsk
      simp only at htag hcase
      refine ⟨by simpa [trackedNext, nextState, hn, next_line, hg1] using htag, ?_⟩
      rcases hcase with ⟨-, hgood, -, -⟩ | ⟨before, pre, hlen, hsplit, hline, hcol⟩
      · rw [hg1] at hgood
        cases hgood
      · right
        refine ⟨before, pre, ?_, ?_, ?_, ?_⟩
        · simpa [trackedNext, nextState, hn, next_line, hg1] using hlen
        · simpa [trackedNext, nextState, hn, hr, next_line, hg1] using hsplit
        · simpa [trackedNext, nextState, hn, hr, next_line, hg1, he] using hline
        · simpa [trackedNext, nextState, hn, next_line, hg1] using hcol
    · have hr : readsLine s0 = true := by simp [readsLine, hf, he, hg]
      have hg1 : (skipWhitespaces s0).good = true := by rw [skipWhitespaces_good, hg]
      obtain ⟨htag, hcase⟩ := hsk
      simp only at htag hcase
      refine ⟨by simpa [trackedNext, nextState, hn, next_line, hg1, SourcePosition.update]
        using htag, ?_⟩
      right
      rcases hcase with ⟨hl, -, hi, -⟩ | ⟨before, pre, hlen, hsplit, hline, hcol⟩
      · refine ⟨[], [], ?_, ?_, ?_, ?_⟩
        · simp [trackedNext, nextState, hn, next_line, hg1, SourcePosition.update, hl]
        · rw [skipWhitespaces_input] at hi
          simp only [trackedNext, nextState, hn, hr, next_line, hg1, if_true,
            skipWhitespaces_input, hi, List.nil_append]
          exact getline_splitLines input
        · simp [trackedNext, nextState, hn, hr, next_line, hg1, skipWhitespaces_input]
        · simp [trackedNext, nextState, hn, next_line, hg1, SourcePosition.update]
      · refine ⟨before ++ [line], [], ?_, ?_, ?_, ?_⟩
        · simp only [trackedNext, nextState, hn, next_line, hg1, if_true,
            SourcePosition.update, List.length_append, List.length_singleton]
          omega
        · rw [hg1, if_pos rfl, skipWhitespaces_input, getline_splitLines s0.input] at hsplit
          simp only [trackedNext, nextState, hn, hr, next_line, hg1, if_true,
            skipWhitespaces_input]
          rw [hsplit]
          simp
        · simp [trackedNext, nextState, hn, hr, next_line, hg1, skipWhitespaces_input]
        · simp [trackedNext, nextState, hn, next_line, hg1, SourcePosition.update]
  · have hr := readsLine_false_of_buffer s0 hne
    have := posInv_shift input tag _ line n hsk
    simpa [trackedNext, nextState, hn, hr] using this
  · have hr := readsLine_false_of_buffer s0 hne
    have := posInv_shift input tag _ line 1 hsk
    simpa [trackedNext, nextState, hn, hr] using this
  · have hr := readsLine_false_of_buffer s0 hne
    simpa [trackedNext, nextState, hn, hr] using hsk

theorem posInv_trackedRun (stodOk : List Char → Bool) (input tag : List Char) (k : Nat) :
    PosInv input tag (trackedRun stodOk input tag k) := by
  induction k with
  | zero => exact ⟨rfl, Or.inl ⟨rfl, rfl, rfl, rfl⟩⟩
  | succ k ih =>
    unfold trackedRun at ih ⊢
    rw [Function.iterate_succ_apply']
    exact posInv_trackedNext stodOk input tag _ ih

theorem trackedRun_succ (stodOk : List Char → Bool) (input tag : List Char) (k : Nat) :
    trackedRun stodOk input tag (k + 1) = trackedNext stodOk (trackedRun stodOk input tag k) := by
  unfold trackedRun
  rw [Function.iterate_succ_apply']

theorem trackedRun_scanner_succ (stodOk : List Char → Bool) (input tag : List Char) (k : Nat) :
    (trackedRun stodOk input tag (k + 1)).scanner =
      (next stodOk (trackedRun stodOk input tag k).scanner).2 := by
  rw [trackedRun_succ]
  rfl

theorem skipWhitespaces_column_le (s : GCodeDefaultScanner) :
    s.source_position.column ≤ (skipWhitespaces s).source_position.column := by
  rw [skipWhitespaces_column]
  omega

theorem line_column_step (stodOk : List Char → Bool) (s : GCodeDefaultScanner) :
    s.source_position.line ≤ (next stodOk s).2.source_position.line ∧
      ((next stodOk s).2.source_position.line = s.source_position.line →
        s.source_position.column ≤ (next stodOk s).2.source_position.column) := by
  have hcol := skipWhitespaces_column_le s
  have hline := skipWhitespaces_line s
  rcases next_cases stodOk s with ⟨hf, hn⟩ | ⟨hf, he, hn⟩ | ⟨hf, hne, n, v, -, hn⟩ |
    ⟨hf, hne, m, hn⟩ | ⟨hf, hne, hn⟩
  · rw [hn]
    exact ⟨Nat.le_refl _, fun _ => Nat.le_refl _⟩
  · rw [hn]
    simp only
    cases hg : (skipWhitespaces s).good
    · simp only [next_line, hg]
      exact ⟨by simp [hline], fun _ => hcol⟩
    · simp only [next_line, hg, if_true, SourcePosition.update, hline]
      exact ⟨by omega, fun h => by omega⟩
  · rw [hn]
    simp only [shift_line, shift_column_take, hline]
    exact ⟨Nat.le_refl _, fun _ => by omega⟩
  · rw [hn]
    simp only [shift_line, shift_column_take, hline]
    exact ⟨Nat.le_refl _, fun _ => by omega⟩
  · rw [hn]
    simp only [hline]
    exact ⟨Nat.le_refl _, fun _ => hcol⟩

theorem line_column_mono (stodOk : List Char → Bool) (input tag : List Char) (m d : Nat) :
    (trackedRun stodOk input tag m).scanner.source_position.line ≤
        (trackedRun stodOk input tag (m + d)).scanner.source_position.line ∧
      ((trackedRun stodOk input tag (m + d)).scanner.source_position.line =
          (trackedRun stodOk input tag m).scanner.source_position.line →
        (trackedRun stodOk input tag m).scanner.source_position.column ≤
          (trackedRun stodOk input tag (m + d)).scanner.source_position.column) := by
  induction d with
  | zero => exact ⟨Nat.le_refl _, fun _ => Nat.le_refl _⟩
  | succ d ih =>
    have hstep := line_column_step stodOk (trackedRun stodOk input tag (m + d)).scanner
    rw [← trackedRun_scanner_succ] at hstep
    rw [← Nat.add_assoc]
    obtain ⟨ih1, ih2⟩ := ih
    obtain ⟨hs1, hs2⟩ := hstep
    refine ⟨Nat.le_trans ih1 hs1, fun heq => ?_⟩
    have h1 : (trackedRun stodOk input tag (m + d)).scanner.source_position.line =
        (trackedRun stodOk input tag m).scanner.source_position.line := by omega
    exact Nat.le_trans (ih2 h1) (hs2 (by omega))

theorem token_not_newline (stodOk : List Char → Bool) (s : GCodeDefaultScanner)
    (t : GCodeToken) (h : (next stodOk s).1 = .token t) (hv : t.value ≠ .NewLine) :
    (skipWhitespaces s).buffer ≠ [] ∧ t.position = (skipWhitespaces s).source_position ∧
      ∃ n, 1 ≤ n ∧ n ≤ (skipWhitespaces s).buffer.length ∧
        (next stodOk s).2 = shift (skipWhitespaces s) n := by
  have hne : (skipWhitespaces s).buffer ≠ [] := by
    intro he
    rcases next_cases stodOk s with ⟨hf, hn⟩ | ⟨hf, -, hn⟩ | ⟨hf, hne, n, v, -, hn⟩ |
      ⟨hf, hne, m, hn⟩ | ⟨hf, hne, hn⟩
    · rw [hn] at h
      cases h
    · rw [hn] at h
      simp only [Outcome.token.injEq] at h
      subst h
      exact hv rfl
    · exact hne he
    · exact hne he
    · exact hne he
  refine ⟨hne, (token_position_of_buffer stodOk s hne t h).1, ?_⟩
  exact next_consumes stodOk s hne (by rw [h]; simp)

theorem getElem?_append_cons_length (before : List (List Char)) (x : List Char)
    (after : List (List Char)) (n : Nat) (hn : before.length + 1 = n) :
    (before ++ x :: after)[n - 1]? = some x := by
  have h : n - 1 = before.length := by omega
  rw [h, List.getElem?_append_right (Nat.le_refl _)]
  simp

/-! ## The text a token is made from -/

theorem match_Operator_eq_one (s : List Char) (m : Nat)
    (h : match_regex s Operator = some m) : m = 1 := by
  rw [match_Operator] at h
  cases s with
  | nil => cases h
  | cons c cs =>
    simp only at h
    split at h
    · simpa using h.symm
    · cases h

theorem next_token_spells (stodOk : List Char → Bool) (s : GCodeDefaultScanner)
    (tok : GCodeToken) (h : (next stodOk s).1 = .token tok) (hv : tok.value ≠ .NewLine) :
    (skipWhitespaces s).buffer ≠ [] ∧ tok.position = (skipWhitespaces s).source_position ∧
      ∃ n, 1 ≤ n ∧ n ≤ (skipWhitespaces s).buffer.length ∧
        (next stodOk s).2 = shift (skipWhitespaces s) n ∧
        tokenSpells tok.value ((skipWhitespaces s).buffer.take n) := by
  obtain ⟨hne, hpos, -⟩ := token_not_newline stodOk s tok h hv
  have hnf := finished_false_of_skip s hne
  refine ⟨hne, hpos, ?_⟩
  cases hF : match_regex (skipWhitespaces s).buffer Float with
  | some n =>
    rw [next_float stodOk s hnf hne n hF] at h ⊢
    split at h
    · rename_i hs
      rw [if_pos hs]
      simp only [Outcome.token.injEq] at h
      subst h
      exact ⟨n, match_Float_pos _ n hF, match_regex_le_length _ _ n hF, rfl, rfl⟩
    · cases h
  | none =>
    cases hI : match_regex (skipWhitespaces s).buffer Integer with
    | some n =>
      rw [next_integer stodOk s hnf hne n hF hI] at h ⊢
      cases hst : stoll ((skipWhitespaces s).buffer.take n) with
      | some v =>
        rw [hst] at h
        simp only [Outcome.token.injEq] at h
        subst h
        exact ⟨n, match_Integer_pos _ n hI, match_regex_le_length _ _ n hI, rfl, hst⟩
      | none =>
        rw [hst] at h
        cases h
    | none =>
      cases hL : match_regex (skipWhitespaces s).buffer Literal with
      | some n =>
        rw [next_literal stodOk s hnf hne n hF hI hL] at h ⊢
        simp only [Outcome.token.injEq] at h
        subst h
        refine ⟨n, match_Literal_pos _ n hL, match_regex_le_length _ _ n hL, rfl, ?_⟩
        cases hk : keywordOf ((skipWhitespaces s).buffer.take n) with
        | some k => exact hk
        | none => exact ⟨rfl, hk⟩
      | none =>
        cases hO : match_regex (skipWhitespaces s).buffer Operator with
        | some n =>
          rw [next_operator stodOk s hnf hne n hF hI hL hO] at h ⊢
          simp only [Outcome.token.injEq] at h
          subst h
          have hn1 := match_Operator_eq_one _ n hO
          have hle := match_regex_le_length _ _ n hO
          refine ⟨n, match_Operator_pos _ n hO, hle, rfl, rfl, ?_⟩
          rw [List.length_take]
          omega
        | none =>
          cases hC : (match_regex (skipWhitespaces s).buffer Comment).orElse
              (fun _ => match_regex (skipWhitespaces s).buffer BracedComment) with
          | some n =>
            rw [next_comment stodOk s hnf hne n hF hI hL hO hC] at h ⊢
            simp only [Outcome.token.injEq] at h
            subst h
            have hpos' : 1 ≤ n ∧ n ≤ (skipWhitespaces s).buffer.length := by
              cases hx : match_regex (skipWhitespaces s).buffer Comment with
              | some m =>
                have : m = n := by simpa [hx] using hC
                subst this
                exact ⟨match_Comment_pos _ m hx, match_regex_le_length _ _ m hx⟩
              | none =>
                have hB : match_regex (skipWhitespaces s).buffer BracedComment = some n := by
                  simpa [hx] using hC
                exact ⟨match_BracedComment_pos _ n hB, match_regex_le_length _ _ n hB⟩
            exact ⟨n, hpos'.1, hpos'.2, rfl, rfl⟩
          | none =>
            have hCn : match_regex (skipWhitespaces s).buffer Comment = none := by
              cases hx : match_regex (skipWhitespaces s).buffer Comment with
              | none => rfl
              | some m => simp [hx] at hC
            have hBn : match_regex (skipWhitespaces s).buffer BracedComment = none := by
              simpa [hCn] using hC
            rw [next_error stodOk s hnf hne hF hI hL hO hCn hBn] at h
            cases h

theorem newline_token_checksum (stodOk : List Char → Bool) (t : Tracked) (h : ChecksumInv t)
    (tok : GCodeToken) (htok : (next stodOk t.scanner).1 = .token tok)
    (hv : tok.value = .NewLine) :
    tok.position = (trackedNext stodOk t).scanner.source_position ∧
      (readsLine t.scanner = true → tok.position.checksum = 0) ∧
      (readsLine t.scanner = false →
        tok.position.checksum = xor8 t.line ∧ t.scanner.buffer.dropWhile isSpace = []) := by
  obtain ⟨s0, line⟩ := t
  have hsk := checksumInv_skipWhitespaces s0 line h
  simp only at htok
  rcases next_cases stodOk s0 with ⟨hf, hn⟩ | ⟨hf, he, hn⟩ | ⟨hf, hne, n, v, hvn, hn⟩ |
    ⟨hf, hne, m, hn⟩ | ⟨hf, hne, hn⟩
  · rw [hn] at htok
    cases htok
  · rw [hn] at htok
    simp only [Outcome.token.injEq] at htok
    subst htok
    refine ⟨by simp [trackedNext, nextState, hn], ?_, ?_⟩
    · intro hr
      have hg : s0.good = true := by
        simp only [readsLine, Bool.and_eq_true] at hr
        exact hr.2
      have hg1 : (skipWhitespaces s0).good = true := by rw [skipWhitespaces_good, hg]
      simp [next_line, hg1, SourcePosition.update]
    · intro hr
      have hg : s0.good = false := by
        cases hg : s0.good
        · rfl
        · simp [readsLine, hf, he, hg] at hr
      have hg1 : (skipWhitespaces s0).good = false := by rw [skipWhitespaces_good, hg]
      obtain ⟨pre, hl, hc⟩ := hsk
      simp only at hl hc
      rw [he, List.append_nil] at hl
      refine ⟨?_, ?_⟩
      · simp only [next_line, hg1]
        rw [hl]
        simpa using hc
      · rw [← skipWhitespaces_buffer]
        exact he
  · rw [hn] at htok
    simp only [Outcome.token.injEq] at htok
    subst htok
    exact absurd hv hvn
  · rw [hn] at htok
    cases htok
  · rw [hn] at htok
    cases htok

theorem token_checksum_exact (stodOk : List Char → Bool) (t : Tracked) (h : ChecksumInv t)
    (tok : GCodeToken) (htok : (next stodOk t.scanner).1 = .token tok)
    (hv : tok.value ≠ .NewLine) :
    (trackedNext stodOk t).line = t.line ∧
      ∃ pre n, t.line = pre ++ t.scanner.buffer.dropWhile isSpace ∧
        tok.position.checksum = xor8 pre ∧ 1 ≤ n ∧
        n ≤ (t.scanner.buffer.dropWhile isSpace).length ∧
        tokenSpells tok.value ((t.scanner.buffer.dropWhile isSpace).take n) ∧
        (trackedNext stodOk t).scanner.buffer = (t.scanner.buffer.dropWhile isSpace).drop n := by
  obtain ⟨s0, line⟩ := t
  have hsk := checksumInv_skipWhitespaces s0 line h
  simp only at htok
  obtain ⟨hne, hpos, n, hn1, hn2, hst, hsp⟩ := next_token_spells stodOk s0 tok htok hv
  have hr := readsLine_false_of_buffer s0 hne
  obtain ⟨pre, hl, hc⟩ := hsk
  simp only at hl hc
  rw [skipWhitespaces_buffer] at hl hn2 hsp
  refine ⟨by simp [trackedNext, hr], pre, n, hl, by rw [hpos]; exact hc, hn1, hn2, hsp, ?_⟩
  simp only [trackedNext, nextState, hst, shift_buffer, skipWhitespaces_buffer]

/-- C7: at every point of a scan (after any number `k` of calls of `next()` on a fresh
scanner) the current line is a consumed part followed by the unread buffer, and the
checksum of the position is the XOR, reduced to 8 bits, of the character codes of the
consumed part; a call that reads a new line leaves the checksum 0 and the whole new line
in the buffer. Every token carries the XOR of all characters that precede it on its
line: for a token other than `NewLine`, made from the text `D.take n` at the head of
`D`, the unread buffer without its leading whitespace, the current line is `pre ++ D` and
the checksum of the token is the XOR of `pre`, which holds the skipped whitespace; a
`NewLine` carries the position the call leaves, with checksum 0 when the call read a new
line and the XOR of the whole line otherwise. -/
theorem checksum_is_xor_of_consumed (stodOk : List Char → Bool) (input tag : List Char)
    (k : Nat) :
    (∃ pre, (trackedRun stodOk input tag k).line =
        pre ++ (trackedRun stodOk input tag k).scanner.buffer ∧
      (trackedRun stodOk input tag k).scanner.source_position.checksum = xor8 pre) ∧
    (readsLine (trackedRun stodOk input tag k).scanner = true →
      (trackedRun stodOk input tag (k + 1)).scanner.source_position.checksum = 0 ∧
      (trackedRun stodOk input tag (k + 1)).scanner.buffer =
        (trackedRun stodOk input tag (k + 1)).line) ∧
    (∀ tok, (next stodOk (trackedRun stodOk input tag k).scanner).1 = .token tok →
      (tok.value = .NewLine →
        tok.position = (trackedRun stodOk input tag (k + 1)).scanner.source_position ∧
        (readsLine (trackedRun stodOk input tag k).scanner = true →
          tok.position.checksum = 0) ∧
        (readsLine (trackedRun stodOk input tag k).scanner = false →
          tok.position.checksum = xor8 (trackedRun stodOk input tag k).line ∧
          (trackedRun stodOk input tag k).scanner.buffer.dropWhile isSpace = [])) ∧
      (tok.value ≠ .NewLine →
        (trackedRun stodOk input tag (k + 1)).line = (trackedRun stodOk input tag k).line ∧
        ∃ pre n,
          (trackedRun stodOk input tag k).line =
            pre ++ (trackedRun stodOk input tag k).scanner.buffer.dropWhile isSpace ∧
          tok.position.checksum = xor8 pre ∧ 1 ≤ n ∧
          n ≤ ((trackedRun stodOk input tag k).scanner.buffer.dropWhile isSpace).length ∧
          tokenSpells tok.value
            (((trackedRun stodOk input tag k).scanner.buffer.dropWhile isSpace).take n) ∧
          (trackedRun stodOk input tag (k + 1)).scanner.buffer =
            ((trackedRun stodOk input tag k).scanner.buffer.dropWhile isSpace).drop n)) := by
  have hinv := checksumInv_trackedRun stodOk input tag k
  have hstep := trackedRun_succ stodOk input tag k
  refine ⟨hinv, ?_, ?_⟩
  · intro hr
    rw [hstep]
    have hr' := hr
    simp only [readsLine, Bool.and_eq_true, Bool.not_eq_true', List.isEmpty_iff] at hr'
    obtain ⟨⟨hf, he⟩, hg⟩ := hr'
    have hg1 : (skipWhitespaces (trackedRun stodOk input tag k).scanner).good = true := by
      rw [skipWhitespaces_good, hg]
    simp [trackedNext, nextState, next_newline stodOk _ hf he, hr, next_line, hg1,
      SourcePosition.update, skipWhitespaces_input]
  · intro tok htok
    rw [hstep]
    exact ⟨newline_token_checksum stodOk _ hinv tok htok,
      token_checksum_exact stodOk _ hinv tok htok⟩

/-- C7, a witness: in the scan of ` G1` the second call returns the operator `G` with
the checksum 32 of the blank before it: the line is `pre ++ "G1"` and 32 is the XOR of
`pre`. -/
theorem checksum_is_xor_of_consumed_witness :
    (trackedRun stodAlways " G1".toList [] (1 + 1)).line =
        (trackedRun stodAlways " G1".toList [] 1).line ∧
      ∃ pre n,
        (trackedRun stodAlways " G1".toList [] 1).line =
          pre ++ (trackedRun stodAlways " G1".toList [] 1).scanner.buffer.dropWhile isSpace ∧
        32 = xor8 pre ∧ 1 ≤ n ∧
        n ≤ ((trackedRun stodAlways " G1".toList [] 1).scanner.buffer.dropWhile isSpace).length ∧
        tokenSpells (.Operator 'G')
          (((trackedRun stodAlways " G1".toList [] 1).scanner.buffer.dropWhile isSpace).take
            n) ∧
        (trackedRun stodAlways " G1".toList [] (1 + 1)).scanner.buffer =
          ((trackedRun stodAlways " G1".toList [] 1).scanner.buffer.dropWhile isSpace).drop n :=
  ((checksum_is_xor_of_consumed stodAlways " G1".toList [] 1).2.2
    ⟨.Operator 'G', ⟨[], 1, 2, 32⟩⟩ (by decide)).2 (by decide)

/-- C14: token positions are exact. At every point of a scan the tag of the position is
the tag the scanner was given. Once the first line is read, the current line is the line
of the input whose number is the line number of the position, and (column - 1) plus the
length of the unread buffer is the length of the current line. Every token other than
`NewLine` is made from the text `D.take n` at the head of `D`, the unread buffer without
its leading whitespace; it carries the tag, the number `k` of its line (counted from 1)
and, line `k` of the input being `pre ++ D`, the column 1 + (length of `pre`), the number
of characters before its first character; and it takes at least one character. So, of two
such tokens of the same line, the later one has the strictly larger column. -/
theorem token_positions_exact (stodOk : List Char → Bool) (input tag : List Char) (k : Nat) :
    (trackedRun stodOk input tag k).scanner.source_position.tag = tag ∧
    (1 ≤ (trackedRun stodOk input tag k).scanner.source_position.line →
      (splitLines input)[(trackedRun stodOk input tag k).scanner.source_position.line - 1]? =
          some (trackedRun stodOk input tag k).line ∧
        ((trackedRun stodOk input tag k).scanner.source_position.column - 1) +
            (trackedRun stodOk input tag k).scanner.buffer.length =
          (trackedRun stodOk input tag k).line.length ∧
        1 ≤ (trackedRun stodOk input tag k).scanner.source_position.column) ∧
    (∀ tok, (next stodOk (trackedRun stodOk input tag k).scanner).1 = .token tok →
      tok.value ≠ .NewLine →
      tok.position.tag = tag ∧ 1 ≤ tok.position.line ∧
        tok.position.line = (trackedRun stodOk input tag k).scanner.source_position.line ∧
        ∃ pre n,
          (splitLines input)[tok.position.line - 1]? =
            some (pre ++ (trackedRun stodOk input tag k).scanner.buffer.dropWhile isSpace) ∧
          (trackedRun stodOk input tag k).line =
            pre ++ (trackedRun stodOk input tag k).scanner.buffer.dropWhile isSpace ∧
          tok.position.column = 1 + pre.length ∧ 1 ≤ n ∧
          n ≤ ((trackedRun stodOk input tag k).scanner.buffer.dropWhile isSpace).length ∧
          tokenSpells tok.value
            (((trackedRun stodOk input tag k).scanner.buffer.dropWhile isSpace).take n) ∧
          (trackedRun stodOk input tag (k + 1)).scanner.buffer =
            ((trackedRun stodOk input tag k).scanner.buffer.dropWhile isSpace).drop n) ∧
    (∀ j tk tj, k < j →
      (next stodOk (trackedRun stodOk input tag k).scanner).1 = .token tk →
      (next stodOk (trackedRun stodOk input tag j).scanner).1 = .token tj →
      tk.value ≠ .NewLine → tj.value ≠ .NewLine → tk.position.line = tj.position.line →
      tk.position.column < tj.position.column) := by
  have hinv := posInv_trackedRun stodOk input tag k
  refine ⟨hinv.1, ?_, ?_, ?_⟩
  · intro hline
    rcases hinv.2 with ⟨hl, -⟩ | ⟨before, pre, hlen, hsplit, hcur, hcol⟩
    · omega
    · refine ⟨?_, ?_, ?_⟩
      · rw [hsplit]
        exact getElem?_append_cons_length before _ _ _ hlen
      · rw [hcol, hcur, List.length_append]
        omega
      · omega
  · intro tok htok hv
    obtain ⟨hne, hpos, n, hn1, hn2, hst, hsp⟩ := next_token_spells stodOk _ tok htok hv
    have hsk := posInv_skipWhitespaces input tag (trackedRun stodOk input tag k).scanner
      (trackedRun stodOk input tag k).line hinv
    obtain ⟨htag, hcase⟩ := hsk
    simp only at htag hcase
    rcases hcase with ⟨-, -, -, hb⟩ | ⟨before, pre, hlen, hsplit, hcur, hcol⟩
    · exact absurd hb hne
    · rw [skipWhitespaces_buffer] at hcur hn2 hsp
      refine ⟨by rw [hpos]; exact htag, by rw [hpos]; omega,
        by rw [hpos, skipWhitespaces_line], pre, n, ?_, hcur, ?_, hn1, hn2, hsp, ?_⟩
      · rw [hpos, hsplit, ← hcur]
        exact getElem?_append_cons_length before _ _ _ hlen
      · rw [hpos]
        exact hcol
      · rw [trackedRun_scanner_succ, hst, shift_buffer, skipWhitespaces_buffer]
  · intro j tk tj hkj htk htj hvk hvj hsame
    obtain ⟨hnek, hposk, n, hn1, hn2, hst⟩ := token_not_newline stodOk _ tk htk hvk
    obtain ⟨hnej, hposj, -⟩ := token_not_newline stodOk _ tj htj hvj
    obtain ⟨d, hd⟩ : ∃ d, j = (k + 1) + d := ⟨j - (k + 1), by omega⟩
    have hmono := line_column_mono stodOk input tag (k + 1) d
    rw [← hd] at hmono
    have hk1line : (trackedRun stodOk input tag (k + 1)).scanner.source_position.line =
        tk.position.line := by
      rw [trackedRun_scanner_succ, hst, shift_line, hposk]
    have hk1col : (trackedRun stodOk input tag (k + 1)).scanner.source_position.column =
        tk.position.column + n := by
      rw [trackedRun_scanner_succ, hst, shift_column _ n hn2, hposk]
    have hjline : tj.position.line =
        (trackedRun stodOk input tag j).scanner.source_position.line := by
      rw [hposj, skipWhitespaces_line]
    have hjcol : (trackedRun stodOk input tag j).scanner.source_position.column ≤
        tj.position.column := by
      rw [hposj]
      exact skipWhitespaces_column_le _
    have := hmono.2 (by omega)
    omega

/-- C14, a witness: in the scan of `G1` line feed ` X2` the fifth call returns the
operator `X` of line 2 at column 2: line 2 of the input is `pre ++ "X2"` and the column
is 1 + the length of `pre`, the one blank before `X`. -/
theorem token_positions_exact_witness :
    ([] : List Char) = [] ∧ 1 ≤ 2 ∧
      2 = (trackedRun stodAlways "G1\n X2".toList [] 4).scanner.source_position.line ∧
      ∃ pre n,
        (splitLines "G1\n X2".toList)[2 - 1]? =
          some (pre ++
            (trackedRun stodAlways "G1\n X2".toList [] 4).scanner.buffer.dropWhile isSpace) ∧
        (trackedRun stodAlways "G1\n X2".toList [] 4).line =
          pre ++ (trackedRun stodAlways "G1\n X2".toList [] 4).scanner.buffer.dropWhile
            isSpace ∧
        2 = 1 + pre.length ∧ 1 ≤ n ∧
        n ≤ ((trackedRun stodAlways "G1\n X2".toList [] 4).scanner.buffer.dropWhile
          isSpace).length ∧
        tokenSpells (.Operator 'X')
          (((trackedRun stodAlways "G1\n X2".toList [] 4).scanner.buffer.dropWhile
            isSpace).take n) ∧
        (trackedRun stodAlways "G1\n X2".toList [] (4 + 1)).scanner.buffer =
          ((trackedRun stodAlways "G1\n X2".toList [] 4).scanner.buffer.dropWhile
            isSpace).drop n :=
  (token_positions_exact stodAlways "G1\n X2".toList [] 4).2.2.1
    ⟨.Operator 'X', ⟨[], 2, 2, 32⟩⟩ (by decide) (by decide)

end GCodeLib
